import Mathlib

/-!
MapReduce coordinator (`src/mr/coordinator.go`, `src/mr/worker.go`).

A shallow embedding of the coordinator's task state machine.  The package-level
variables `filesToMap`, `filesToReduce`, `workers`, `workerId` and
`nReduceCount` become the fields of `State`; every Go function that mutates
them becomes a function on `State`.  A run-time panic (index out of range in
`strings.Split(..)[2]`) is modelled by returning `none` for the reply, together
with the state as it stands at the moment of the panic.

Go `int` is taken to be 64 bits wide and `int32` 32 bits wide; additions wrap.
Go strings are modelled by Lean strings; `"-"` is one ASCII byte, so splitting
on it by character agrees with Go's splitting by byte on valid UTF-8.
-/

namespace MR

/-! ## Data model -/

abbrev OperationStatus := String
abbrev OperationType := String

/-- Go `Processing OperationStatus = "processing"` (worker.go) -/
def Processing : OperationStatus := "processing"
/-- Go `Completed OperationStatus = "completed"` (worker.go) -/
def Completed : OperationStatus := "completed"
/-- Go `Idle OperationStatus = "idle"` (worker.go) -/
def Idle : OperationStatus := "idle"
/-- Go `Unprocessed OperationStatus = "unprocessed"` (worker.go) -/
def Unprocessed : OperationStatus := "unprocessed"

/-- Go `Map OperationType = "map"` (coordinator.go) -/
def Map : OperationType := "map"
/-- Go `Reduce OperationType = "reduce"` (coordinator.go) -/
def Reduce : OperationType := "reduce"

/-- Go `type MRTask struct` -/
structure MRTask where
  status : OperationStatus
  fileName : String
deriving DecidableEq, Repr

/-- Go `type ActiveWorker struct`; `timeElapsed` is an `int32`, the other
integers are `int`. -/
structure ActiveWorker where
  WorkerId : Int
  Status : OperationStatus
  OperationType : OperationType
  timeElapsed : Int
  FileNames : List String
  TaskId : String
  NReduce : Int
  TaskCompletionFileNames : List String
deriving DecidableEq, Repr

/-- The package-level variables of coordinator.go. -/
structure State where
  filesToMap : List MRTask
  filesToReduce : List MRTask
  workers : List ActiveWorker
  workerId : Int
  nReduceCount : Int
deriving DecidableEq, Repr

/-- The values of the package-level variables when the process starts:
`filesToMap = []`, `filesToReduce = []`, `workers = []`, `workerId = 0`,
`nReduceCount = 1`. -/
def freshState : State :=
  { filesToMap := [], filesToReduce := [], workers := [], workerId := 0, nReduceCount := 1 }

/-- The zero value `ActiveWorker{}`. -/
def zeroWorker : ActiveWorker :=
  { WorkerId := 0, Status := "", OperationType := "", timeElapsed := 0, FileNames := [],
    TaskId := "", NReduce := 0, TaskCompletionFileNames := [] }

/-! ## Machine integers and library functions -/

/-- Two's-complement wrap of an integer into a signed `w`-bit word. -/
def wrapSigned (w : Nat) (x : Int) : Int :=
  (x + 2 ^ (w - 1)) % 2 ^ w - 2 ^ (w - 1)

/-- Go `int` addition of one (64-bit). -/
def incInt (x : Int) : Int := wrapSigned 64 (x + 1)

/-- Go `int32` addition of one. -/
def incInt32 (x : Int) : Int := wrapSigned 32 (x + 1)

/-- Go `strconv.Itoa`: decimal rendering of an integer. -/
def Itoa (n : Int) : String :=
  if n < 0 then "-" ++ Nat.repr n.natAbs else Nat.repr n.toNat

/-- Splitting a character list at every occurrence of `sep`; the result always
has one more piece than there are occurrences of `sep`. -/
def splitChars (sep : Char) : List Char → List (List Char)
  | [] => [[]]
  | c :: cs =>
    if c = sep then [] :: splitChars sep cs
    else
      match splitChars sep cs with
      | [] => [[c]]
      | p :: ps => (c :: p) :: ps

/-- Go `strings.Split(s, "-")`. -/
def SplitDash (s : String) : List String :=
  (splitChars '-' s.data).map String.mk

/-- Go `strings.Split(fileName, "-")[2]`; `none` is the index-out-of-range panic. -/
def partitionField (fileName : String) : Option String :=
  (SplitDash fileName)[2]?

/-! ## coordinator.go -/

/-- Go `copyWorkerInstance(from, to)`: every field but `timeElapsed` is copied. -/
def copyWorkerInstance (src dst : ActiveWorker) : ActiveWorker :=
  { dst with
    WorkerId := src.WorkerId
    Status := src.Status
    OperationType := src.OperationType
    FileNames := src.FileNames
    TaskId := src.TaskId
    NReduce := src.NReduce
    TaskCompletionFileNames := src.TaskCompletionFileNames }

/-- Go `removeElementAtIndex(a, i)`: overwrite slot `i` with the last element, then
drop the last slot.  The callers only pass `i < len(a)`. -/
def removeElementAtIndex (a : List ActiveWorker) (i : Nat) : List ActiveWorker :=
  match a.getLast? with
  | none => a
  | some l => (a.set i l).dropLast

/-- The inner loop of `updateFileStatus` for one `fileName`. -/
def setStatusOf (status : OperationStatus) (tbl : List MRTask) (fileName : String) :
    List MRTask :=
  tbl.map (fun task => if task.fileName = fileName then { task with status := status } else task)

/-- Go `updateFileStatus(worker, status)`. -/
def updateFileStatus (s : State) (worker : ActiveWorker) (status : OperationStatus) : State :=
  if worker.OperationType = Map then
    { s with filesToMap := worker.FileNames.foldl (setStatusOf status) s.filesToMap }
  else
    { s with filesToReduce := worker.FileNames.foldl (setStatusOf status) s.filesToReduce }

/-- The loop of `updateFileCompletion` that removes the first lease whose
`WorkerId` equals the reporting worker's (`idx` is the current index). -/
def removeWorkerFrom (ws : List ActiveWorker) (wid : Int) : Nat → List ActiveWorker → List ActiveWorker
  | _, [] => ws
  | idx, w :: rest =>
    if w.WorkerId = wid then removeElementAtIndex ws idx
    else removeWorkerFrom ws wid (idx + 1) rest

/-- Go `updateFileCompletion(activeWorker, reply)`: new state and the mutated
request. -/
def updateFileCompletion (s : State) (activeWorker : ActiveWorker) : State × ActiveWorker :=
  let s1 := updateFileStatus s activeWorker Completed
  let s2 : State :=
    if activeWorker.OperationType = Map then
      { s1 with
        filesToReduce := s1.filesToReduce ++ activeWorker.TaskCompletionFileNames.map
          (fun filename => { status := Unprocessed, fileName := filename }) }
    else s1
  let s3 : State :=
    { s2 with workers := removeWorkerFrom s2.workers activeWorker.WorkerId 0 s2.workers }
  (s3, { activeWorker with
          Status := Idle, TaskCompletionFileNames := [], FileNames := [], TaskId := "" })

/-- Go `getUnmappedTask()` scanning from index `idx`: the index and the (already
marked) task found, and the table after marking; `none` for `(-1, nil)`. -/
def getUnmappedTaskFrom (idx : Nat) : List MRTask → Option (Nat × MRTask × List MRTask)
  | [] => none
  | task :: rest =>
    if task.status = Unprocessed then
      some (idx, { task with status := Processing }, { task with status := Processing } :: rest)
    else
      match getUnmappedTaskFrom (idx + 1) rest with
      | none => none
      | some (i, found, rest') => some (i, found, task :: rest')

/-- Go `getUnmappedTask()`. -/
def getUnmappedTask (s : State) : Option (Nat × MRTask × State) :=
  match getUnmappedTaskFrom 0 s.filesToMap with
  | none => none
  | some (i, found, tbl) => some (i, found, { s with filesToMap := tbl })

/-- Go `isAllMapTasksDone()` / `isAllReduceTasksDone()` on a table. -/
def allCompleted (tbl : List MRTask) : Bool :=
  tbl.all (fun task => decide (task.status = Completed))

/-- Go `isAllMapTasksDone()`. -/
def isAllMapTasksDone (s : State) : Bool := allCompleted s.filesToMap

/-- Go `isAllReduceTasksDone()`. -/
def isAllReduceTasksDone (s : State) : Bool := allCompleted s.filesToReduce

/-- First loop of `getReduceTasks`: the partition field of the first
`Unprocessed` task (`""` when there is none); `none` is a panic. -/
def firstFileNumber : List MRTask → Option String
  | [] => some ""
  | task :: rest =>
    if task.status = Unprocessed then partitionField task.fileName
    else firstFileNumber rest

/-- Second loop of `getReduceTasks`: marks every task of partition
`fileNumber` as `Processing` and collects them.  Returns the table, the
collected tasks and whether the loop panicked (the tasks after the panic are
left untouched). -/
def markPartition (fileNumber : String) : List MRTask → List MRTask × List MRTask × Bool
  | [] => ([], [], false)
  | task :: rest =>
    match partitionField task.fileName with
    | none => (task :: rest, [], true)
    | some p =>
      let r := markPartition fileNumber rest
      if p = fileNumber then
        ({ task with status := Processing } :: r.1, { task with status := Processing } :: r.2.1, r.2.2)
      else (task :: r.1, r.2.1, r.2.2)

/-- Go `getReduceTasks()`: the new state and, unless it panicked, the partition
id and the collected tasks. -/
def getReduceTasks (s : State) : State × Option (String × List MRTask) :=
  match firstFileNumber s.filesToReduce with
  | none => (s, none)
  | some fileNumber =>
    if fileNumber = "" then (s, some ("", []))
    else
      let r := markPartition fileNumber s.filesToReduce
      ({ s with filesToReduce := r.1 }, if r.2.2 then none else some (fileNumber, r.2.1))

/-- Go `assignTask(activeWorker, reply)`: the new state and, unless it panicked,
the mutated request. -/
def assignTask (s : State) (activeWorker : ActiveWorker) : State × Option ActiveWorker :=
  let aw := { activeWorker with NReduce := s.nReduceCount }
  match getUnmappedTask s with
  | some (taskId, newMapTask, s1) =>
    let wid := incInt s1.workerId
    let aw1 := { aw with
      WorkerId := wid, Status := Processing, OperationType := Map, timeElapsed := 0,
      FileNames := [newMapTask.fileName], TaskId := Itoa taskId }
    let newWorker := copyWorkerInstance aw1 zeroWorker
    ({ s1 with workerId := wid, workers := s1.workers ++ [newWorker] }, some aw1)
  | none =>
    if !isAllMapTasksDone s then (s, some { aw with Status := Idle })
    else
      match getReduceTasks s with
      | (s1, none) => (s1, none)
      | (s1, some (taskNumber, newReduceTasks)) =>
        if newReduceTasks.length > 0 then
          let fileNames := newReduceTasks.map (fun task => task.fileName)
          let wid := incInt s1.workerId
          let aw1 := { aw with
            WorkerId := wid, Status := Processing, OperationType := Reduce, timeElapsed := 0,
            FileNames := fileNames, TaskId := taskNumber }
          ({ s1 with workerId := wid, workers := s1.workers ++ [aw1] }, some aw1)
        else (s1, some { aw with Status := Idle })

/-- Go `Coordinator.OnOperationStatusChange(request, reply)`: the new state and
the reply (`none` when the handler panicked). -/
def OnOperationStatusChange (s : State) (request reply : ActiveWorker) :
    State × Option ActiveWorker :=
  if request.Status = Idle then
    match assignTask s request with
    | (s1, none) => (s1, none)
    | (s1, some request1) => (s1, some (copyWorkerInstance request1 reply))
  else if request.Status = Completed then
    let r := updateFileCompletion s request
    (r.1, some (copyWorkerInstance r.2 reply))
  else (s, some (copyWorkerInstance request reply))

/-- The loop of `updateWorkerTimeElapsed` from index `i`, unrolled `fuel`
times. -/
def sweepFrom : Nat → Nat → State → State
  | 0, _, s => s
  | fuel + 1, i, s =>
    match s.workers[i]? with
    | none => s
    | some w =>
      let worker := { w with timeElapsed := incInt32 w.timeElapsed }
      let s1 := { s with workers := s.workers.set i worker }
      if worker.timeElapsed > 10 then
        let s2 := updateFileStatus s1 worker Unprocessed
        sweepFrom fuel i { s2 with workers := removeElementAtIndex s2.workers i }
      else sweepFrom fuel (i + 1) s1

/-- Go `updateWorkerTimeElapsed()`: every iteration either advances `i` or
shortens `workers`, so `len(workers)` iterations are enough. -/
def updateWorkerTimeElapsed (s : State) : State :=
  sweepFrom s.workers.length 0 s

/-- Go `Coordinator.Done()`. -/
def Done (s : State) : State × Bool :=
  let s1 := updateWorkerTimeElapsed s
  (s1, isAllMapTasksDone s1 && isAllReduceTasksDone s1)

/-- Go `MakeCoordinator(files, nReduce)` run on the package state `s` (starting
the RPC server has no effect on the job state). -/
def MakeCoordinator (s : State) (files : List String) (nReduce : Int) : State :=
  { s with
    filesToMap := s.filesToMap ++ files.map
      (fun fileName => { status := Unprocessed, fileName := fileName })
    nReduceCount := nReduce }

/-! ## worker.go -/

/-- The names `handleMapOperation` stores in `req.TaskCompletionFileNames`:
`"mr-" + req.TaskId + "-" + strconv.Itoa(id)` for every bucket `id`. -/
def mapOutputNames (taskId : String) (nReduce : Int) : List String :=
  (List.range nReduce.toNat).map (fun (id : Nat) => "mr-" ++ taskId ++ "-" ++ Itoa id)

/-! ## Auxiliary definitions used in the statements -/

/-- One loop iteration of `updateWorkerTimeElapsed` at index `i` that only
ticks the lease. -/
def tickAt (s : State) (i : Nat) (w : ActiveWorker) : State :=
  { s with workers := s.workers.set i { w with timeElapsed := incInt32 w.timeElapsed } }

/-- One loop iteration of `updateWorkerTimeElapsed` at index `i` that ticks the
lease and reclaims it. -/
def reclaimAt (s : State) (i : Nat) (w : ActiveWorker) : State :=
  let s2 := updateFileStatus (tickAt s i w) { w with timeElapsed := incInt32 w.timeElapsed }
    Unprocessed
  { s2 with workers := removeElementAtIndex s2.workers i }

/-- A state at the phase barrier: one map task done, one in progress, one
reduce file already known. -/
def barrierState : State :=
  { filesToMap := [⟨Completed, "a.txt"⟩, ⟨Processing, "b.txt"⟩],
    filesToReduce := [⟨Unprocessed, "mr-0-0"⟩],
    workers := [{ zeroWorker with
      WorkerId := 2, Status := Processing, OperationType := Map, FileNames := ["b.txt"],
      TaskId := "1", NReduce := 1 }],
    workerId := 2, nReduceCount := 1 }

/-- The first request of a worker: `ActiveWorker{Status: Idle}`. -/
def idleRequest : ActiveWorker := { zeroWorker with Status := Idle }

/-- A fresh job over two input files. -/
def twoFileJob : State := MakeCoordinator freshState ["a.txt", "b.txt"] 3

/-- A one-file job whose worker-id counter has reached the largest `int`. -/
def saturatedJob : State :=
  { filesToMap := [⟨Unprocessed, "a.txt"⟩], filesToReduce := [], workers := [],
    workerId := 2 ^ 63 - 1, nReduceCount := 1 }

/-- The tasks of partition `p`, in table order. -/
def partitionTasks (p : String) (tbl : List MRTask) : List MRTask :=
  tbl.filter (fun task => decide (partitionField task.fileName = some p))

/-- The table after every task of partition `p` has been marked `Processing`. -/
def markedTable (p : String) (tbl : List MRTask) : List MRTask :=
  tbl.map (fun task =>
    if partitionField task.fileName = some p then { task with status := Processing } else task)

/-- Three map tasks have each produced a file for partitions 0 and 1; partition
0 has already been reduced. -/
def reducePhaseState : State :=
  { filesToMap := [⟨Completed, "a.txt"⟩, ⟨Completed, "b.txt"⟩, ⟨Completed, "c.txt"⟩],
    filesToReduce := [⟨Completed, "mr-0-0"⟩, ⟨Unprocessed, "mr-0-1"⟩, ⟨Completed, "mr-1-0"⟩,
      ⟨Unprocessed, "mr-1-1"⟩, ⟨Completed, "mr-2-0"⟩, ⟨Unprocessed, "mr-2-1"⟩],
    workers := [], workerId := 4, nReduceCount := 2 }

/-! ## Leases, reachable states and the coordinator invariant -/

/-- A lease references a task of the table of kind `kind` when the lease's
`OperationType` is `kind` and its `FileNames` contains the task's `fileName`. -/
def references (kind : OperationType) (task : MRTask) (lease : ActiveWorker) : Bool :=
  decide (lease.OperationType = kind) && decide (task.fileName ∈ lease.FileNames)

/-- Number of leases of the lease table referencing a task of the given table;
two entries of the table at different positions count as two leases. -/
def leaseCount (s : State) (kind : OperationType) (task : MRTask) : Nat :=
  s.workers.countP (references kind task)

/-- The request is the completion report a worker sends for assignment `a`
(worker.go, `copyReplyIntoRequest` then `handleAssignedTask`): the fields of
the assignment, status `completed`, and for a map task the file names
`handleMapOperation` produces. -/
def Echoes (request a : ActiveWorker) : Prop :=
  request.Status = Completed ∧ request.WorkerId = a.WorkerId ∧
  request.OperationType = a.OperationType ∧ request.FileNames = a.FileNames ∧
  request.TaskId = a.TaskId ∧ request.NReduce = a.NReduce ∧
  (a.OperationType = Map →
    request.TaskCompletionFileNames = mapOutputNames a.TaskId a.NReduce)

instance (request a : ActiveWorker) : Decidable (Echoes request a) := by
  unfold Echoes
  infer_instance

/-- States reachable from `MakeCoordinator(files, nReduce)` on a fresh process
by `Idle` requests, by completion reports echoing an assignment the
coordinator returned earlier (the second index lists the assignments returned
so far), and by `Done()` calls. -/
inductive Reachable (files : List String) (nReduce : Int) : State → List ActiveWorker → Prop
  | init : Reachable files nReduce (MakeCoordinator freshState files nReduce) []
  | idle (s : State) (issued : List ActiveWorker) (request reply0 : ActiveWorker) (s' : State)
      (r : ActiveWorker) :
      Reachable files nReduce s issued → request.Status = Idle →
      OnOperationStatusChange s request reply0 = (s', some r) →
      Reachable files nReduce s' (if r.Status = Processing then r :: issued else issued)
  | completed (s : State) (issued : List ActiveWorker) (request reply0 a : ActiveWorker) :
      Reachable files nReduce s issued → a ∈ issued → Echoes request a →
      Reachable files nReduce (OnOperationStatusChange s request reply0).1 issued
  | done (s : State) (issued : List ActiveWorker) :
      Reachable files nReduce s issued → Reachable files nReduce (Done s).1 issued

/-- As `Reachable`, but a completion report is only accepted from a worker
whose lease is still in the lease table, and assignments are only made while
the worker-id counter is below the largest `int`. -/
inductive LiveReachable (files : List String) (nReduce : Int) : State → Prop
  | init : LiveReachable files nReduce (MakeCoordinator freshState files nReduce)
  | idle (s : State) (request reply0 : ActiveWorker) (s' : State) (r : ActiveWorker) :
      LiveReachable files nReduce s → request.Status = Idle → s.workerId < 2 ^ 63 - 1 →
      OnOperationStatusChange s request reply0 = (s', some r) →
      LiveReachable files nReduce s'
  | completed (s : State) (request reply0 lease : ActiveWorker) :
      LiveReachable files nReduce s → lease ∈ s.workers → Echoes request lease →
      LiveReachable files nReduce (OnOperationStatusChange s request reply0).1
  | done (s : State) :
      LiveReachable files nReduce s → LiveReachable files nReduce (Done s).1

/-- A call made on the coordinator: an RPC with the given request (and a
zero-valued reply buffer), or `Done()`. -/
inductive Call where
  | rpc (request : ActiveWorker)
  | done
deriving DecidableEq, Repr

/-- Runs a sequence of calls, keeping the list of assignments returned so far;
`none` when a call panics or a request is neither `Idle` nor the echo of an
assignment returned earlier. -/
def runCalls : State → List ActiveWorker → List Call → Option (State × List ActiveWorker)
  | s, issued, [] => some (s, issued)
  | s, issued, Call.done :: rest => runCalls (Done s).1 issued rest
  | s, issued, Call.rpc request :: rest =>
    if request.Status = Idle then
      match OnOperationStatusChange s request zeroWorker with
      | (_, none) => none
      | (s', some r) => runCalls s' (if r.Status = Processing then r :: issued else issued) rest
    else if issued.any (fun a => decide (Echoes request a)) then
      runCalls (OnOperationStatusChange s request zeroWorker).1 issued rest
    else none

/-- The table after `updateFileStatus` has set the status of every task named
in `names`. -/
def relabel (st : OperationStatus) (names : List String) (tbl : List MRTask) : List MRTask :=
  tbl.map (fun task => if task.fileName ∈ names then { task with status := st } else task)

/-- The fields of a lease the invariant depends on. -/
structure LeaseKey where
  id : Int
  kind : OperationType
  names : List String
deriving DecidableEq, Repr

/-- The invariant-relevant part of a lease. -/
def leaseKey (w : ActiveWorker) : LeaseKey :=
  { id := w.WorkerId, kind := w.OperationType, names := w.FileNames }

/-- The predicate `references`, on lease keys. -/
def keyRefs (kind : OperationType) (name : String) (k : LeaseKey) : Bool :=
  decide (k.kind = kind) && decide (name ∈ k.names)

/-- The coordinator invariant, on the two task tables, the lease keys and the
worker-id counter. -/
structure InvCore (m r : List MRTask) (ks : List LeaseKey) (wid : Int) : Prop where
  mapNodup : (m.map MRTask.fileName).Nodup
  widNonneg : 0 ≤ wid
  idBound : ∀ k ∈ ks, k.id ≤ wid
  idsNodup : (ks.map LeaseKey.id).Nodup
  kinds : ∀ k ∈ ks, k.kind = Map ∨ k.kind = Reduce
  mapCount : ∀ t ∈ m, ks.countP (keyRefs Map t.fileName) = if t.status = Processing then 1 else 0
  redCount : ∀ t ∈ r,
    ks.countP (keyRefs Reduce t.fileName) = if t.status = Processing then 1 else 0
  mapLive : ∀ k ∈ ks, k.kind = Map → ∃ n ∈ m.map MRTask.fileName, n ∈ k.names
  redLive : ∀ k ∈ ks, k.kind = Reduce → ∃ n ∈ r.map MRTask.fileName, n ∈ k.names
  redClosed : ∀ k ∈ ks, k.kind = Reduce →
    ∃ p, ∀ n ∈ r.map MRTask.fileName, (n ∈ k.names ↔ partitionField n = some p)
  uniform : ∀ t1 ∈ r, ∀ t2 ∈ r,
    partitionField t1.fileName = partitionField t2.fileName → t1.status = t2.status
  barrier : (∃ t ∈ m, t.status ≠ Completed) → ∀ t ∈ r, t.status = Unprocessed
  redFields : ∀ t ∈ r, (partitionField t.fileName).isSome = true

/-- The coordinator invariant on a job state. -/
def Inv (s : State) : Prop :=
  InvCore s.filesToMap s.filesToReduce (s.workers.map leaseKey) s.workerId

/-- Runs a sequence of calls in which every completion report must echo a
lease of the current lease table and every `Idle` request must find the
worker-id counter below the largest `int`; `none` otherwise, or when a call
panics. -/
def runLive : State → List Call → Option State
  | s, [] => some s
  | s, Call.done :: rest => runLive (Done s).1 rest
  | s, Call.rpc request :: rest =>
    if request.Status = Idle then
      if s.workerId < 2 ^ 63 - 1 then
        match OnOperationStatusChange s request zeroWorker with
        | (_, none) => none
        | (s', some _) => runLive s' rest
      else none
    else if s.workers.any (fun lease => decide (Echoes request lease)) then
      runLive (OnOperationStatusChange s request zeroWorker).1 rest
    else none

/-- The request a worker sends after carrying out assignment `a` (worker.go,
`copyReplyIntoRequest` followed by `handleAssignedTask`). -/
def completionReport (a : ActiveWorker) : ActiveWorker :=
  { a with
    Status := Completed
    timeElapsed := 0
    TaskCompletionFileNames :=
      if a.OperationType = Map then mapOutputNames a.TaskId a.NReduce
      else a.TaskCompletionFileNames }

/-! ## The invariants of the specification, as predicates on a job state -/

/-- No reduce task is `Processing` while some map task is not `Completed`. -/
def PhaseBarrier (s : State) : Prop :=
  ∀ rt ∈ s.filesToReduce, rt.status = Processing → ∀ mt ∈ s.filesToMap, mt.status = Completed

instance (s : State) : Decidable (PhaseBarrier s) := by
  unfold PhaseBarrier
  infer_instance

/-- No task is referenced by two distinct leases of the lease table. -/
def NoDoubleAssignment (s : State) : Prop :=
  (∀ t ∈ s.filesToMap, leaseCount s Map t ≤ 1) ∧
  (∀ t ∈ s.filesToReduce, leaseCount s Reduce t ≤ 1)

instance (s : State) : Decidable (NoDoubleAssignment s) := by
  unfold NoDoubleAssignment
  infer_instance

/-- A task is `Processing` exactly when one lease references it. -/
def LeaseCorrespondence (s : State) : Prop :=
  (∀ t ∈ s.filesToMap, t.status = Processing ↔ leaseCount s Map t = 1) ∧
  (∀ t ∈ s.filesToReduce, t.status = Processing ↔ leaseCount s Reduce t = 1)

instance (s : State) : Decidable (LeaseCorrespondence s) := by
  unfold LeaseCorrespondence
  infer_instance

/-- Every task of `tbl` is still at its index in `tbl'`, with the same file
name, and its status is unchanged or has moved from `src` to `dst`. -/
def StatusStep (src dst : OperationStatus) (tbl tbl' : List MRTask) : Prop :=
  ∀ (i : Nat) (t : MRTask), tbl[i]? = some t →
    ∃ t', tbl'[i]? = some t' ∧ t'.fileName = t.fileName ∧
      (t'.status = t.status ∨ (t.status = src ∧ t'.status = dst))

/-- One call on the coordinator of the kind `LiveReachable` allows. -/
inductive LiveStep : State → State → Prop
  | idle (s : State) (request reply0 : ActiveWorker) (s' : State) (r : ActiveWorker) :
      request.Status = Idle → s.workerId < 2 ^ 63 - 1 →
      OnOperationStatusChange s request reply0 = (s', some r) → LiveStep s s'
  | completed (s : State) (request reply0 lease : ActiveWorker) :
      lease ∈ s.workers → Echoes request lease →
      LiveStep s (OnOperationStatusChange s request reply0).1
  | done (s : State) : LiveStep s (Done s).1

/-! ## Concrete jobs and call sequences -/

/-- A fresh job over one input file, `nReduce = 1`. -/
def lateJob : State := MakeCoordinator freshState ["a.txt"] 1

/-- A fresh job whose input list names the same file twice, `nReduce = 1`. -/
def dupJob : State := MakeCoordinator freshState ["a.txt", "a.txt"] 1

/-- The map assignment the coordinator returns to a worker's first request
in a job with `nReduce = 1`. -/
def mapLease (workerId : Int) (file taskId : String) : ActiveWorker :=
  { zeroWorker with
    WorkerId := workerId, Status := Processing, OperationType := Map,
    FileNames := [file], TaskId := taskId, NReduce := 1 }

/-- The reduce assignment of partition 0 in a job with `nReduce = 1`. -/
def reduceLease (workerId : Int) (files : List String) : ActiveWorker :=
  { zeroWorker with
    WorkerId := workerId, Status := Processing, OperationType := Reduce,
    FileNames := files, TaskId := "0", NReduce := 1 }

/-- An RPC with a worker's `Idle` request. -/
def idleCall : Call := Call.rpc idleRequest

/-- The completion report for an assignment, as an RPC. -/
def reportCall (a : ActiveWorker) : Call := Call.rpc (completionReport a)

/-- A run of `n` consecutive `Done()` calls. -/
def doneCalls (n : Nat) : List Call := List.replicate n Call.done

/-- Worker 1 takes the map task and falls silent; after 11 `Done()` calls the
task is reassigned to worker 2; one more `Done()`; worker 1 reports late; the
next idle worker gets the reduce partition; 10 more `Done()` calls reclaim the
lease of worker 2. -/
def barrierLateCalls : List Call :=
  [idleCall] ++ doneCalls 11 ++
    [idleCall, Call.done, reportCall (mapLease 1 "a.txt" "0"), idleCall] ++ doneCalls 10

/-- The state after `barrierLateCalls` on `lateJob`. -/
def barrierLateState : State :=
  { filesToMap := [⟨Unprocessed, "a.txt"⟩], filesToReduce := [⟨Processing, "mr-0-0"⟩],
    workers := [{ reduceLease 3 ["mr-0-0"] with timeElapsed := 10 }],
    workerId := 3, nReduceCount := 1 }

/-- The assignments returned during `barrierLateCalls`, latest first. -/
def barrierLateIssued : List ActiveWorker :=
  [reduceLease 3 ["mr-0-0"], mapLease 2 "a.txt" "0", mapLease 1 "a.txt" "0"]

/-- Workers 1 and 2 take the two map tasks of `dupJob`; worker 2 reports; one
`Done()`; the next idle worker gets the reduce partition; 10 more `Done()`
calls reclaim the lease of worker 1. -/
def barrierDupCalls : List Call :=
  [idleCall, idleCall, reportCall (mapLease 2 "a.txt" "1"), Call.done, idleCall] ++ doneCalls 10

/-- The state after `barrierDupCalls` on `dupJob`. -/
def barrierDupState : State :=
  { filesToMap := [⟨Unprocessed, "a.txt"⟩, ⟨Unprocessed, "a.txt"⟩],
    filesToReduce := [⟨Processing, "mr-1-0"⟩],
    workers := [{ reduceLease 3 ["mr-1-0"] with timeElapsed := 10 }],
    workerId := 3, nReduceCount := 1 }

/-- The assignments returned during `barrierDupCalls`, latest first. -/
def barrierDupIssued : List ActiveWorker :=
  [reduceLease 3 ["mr-1-0"], mapLease 2 "a.txt" "1", mapLease 1 "a.txt" "0"]

/-- Worker 1 is reclaimed, worker 2 completes the map task, worker 3 gets the
reduce partition, then worker 1 reports late (a second `mr-0-0` entry is
appended) and worker 4 gets the partition again. -/
def doubleLateCalls : List Call :=
  [idleCall] ++ doneCalls 11 ++
    [idleCall, reportCall (mapLease 2 "a.txt" "0"), idleCall,
      reportCall (mapLease 1 "a.txt" "0"), idleCall]

/-- The state after `doubleLateCalls` on `lateJob`. -/
def doubleLateState : State :=
  { filesToMap := [⟨Completed, "a.txt"⟩],
    filesToReduce := [⟨Processing, "mr-0-0"⟩, ⟨Processing, "mr-0-0"⟩],
    workers := [reduceLease 3 ["mr-0-0"], reduceLease 4 ["mr-0-0", "mr-0-0"]],
    workerId := 4, nReduceCount := 1 }

/-- The assignments returned during `doubleLateCalls`, latest first. -/
def doubleLateIssued : List ActiveWorker :=
  [reduceLease 4 ["mr-0-0", "mr-0-0"], reduceLease 3 ["mr-0-0"], mapLease 2 "a.txt" "0",
    mapLease 1 "a.txt" "0"]

/-- The state of `dupJob` after two `Idle` requests. -/
def doubleDupState : State :=
  { filesToMap := [⟨Processing, "a.txt"⟩, ⟨Processing, "a.txt"⟩], filesToReduce := [],
    workers := [mapLease 1 "a.txt" "0", mapLease 2 "a.txt" "1"],
    workerId := 2, nReduceCount := 1 }

/-- The assignments returned by two `Idle` requests on `dupJob`. -/
def doubleDupIssued : List ActiveWorker := [mapLease 2 "a.txt" "1", mapLease 1 "a.txt" "0"]

/-- Worker 1 is reclaimed, the task is reassigned to worker 2, then worker 1
reports late. -/
def staleLeaseCalls : List Call :=
  [idleCall] ++ doneCalls 11 ++ [idleCall, reportCall (mapLease 1 "a.txt" "0")]

/-- The state after `staleLeaseCalls` on `lateJob`. -/
def staleLeaseState : State :=
  { filesToMap := [⟨Completed, "a.txt"⟩], filesToReduce := [⟨Unprocessed, "mr-0-0"⟩],
    workers := [mapLease 2 "a.txt" "0"], workerId := 2, nReduceCount := 1 }

/-- The assignments returned during `staleLeaseCalls`. -/
def staleLeaseIssued : List ActiveWorker := [mapLease 2 "a.txt" "0", mapLease 1 "a.txt" "0"]

/-- After `staleLeaseCalls`, worker 3 takes and completes the reduce
partition. -/
def finishedLateCalls : List Call :=
  staleLeaseCalls ++ [idleCall, reportCall (reduceLease 3 ["mr-0-0"])]

/-- The state after `finishedLateCalls` on `lateJob`: every task is
`Completed`, the lease of worker 2 is still in the table. -/
def finishedLateState : State :=
  { filesToMap := [⟨Completed, "a.txt"⟩], filesToReduce := [⟨Completed, "mr-0-0"⟩],
    workers := [mapLease 2 "a.txt" "0"], workerId := 3, nReduceCount := 1 }

/-- The assignments returned during `finishedLateCalls`. -/
def finishedLateIssued : List ActiveWorker :=
  [reduceLease 3 ["mr-0-0"], mapLease 2 "a.txt" "0", mapLease 1 "a.txt" "0"]

/-- On `dupJob`: both map tasks are handed out, worker 2 reports, worker 3
takes and completes the reduce partition. -/
def finishedDupCalls : List Call :=
  [idleCall, idleCall, reportCall (mapLease 2 "a.txt" "1"), idleCall,
    reportCall (reduceLease 3 ["mr-1-0"])]

/-- The state after `finishedDupCalls` on `dupJob`. -/
def finishedDupState : State :=
  { filesToMap := [⟨Completed, "a.txt"⟩, ⟨Completed, "a.txt"⟩],
    filesToReduce := [⟨Completed, "mr-1-0"⟩],
    workers := [mapLease 1 "a.txt" "0"], workerId := 3, nReduceCount := 1 }

/-- The assignments returned during `finishedDupCalls`. -/
def finishedDupIssued : List ActiveWorker :=
  [reduceLease 3 ["mr-1-0"], mapLease 2 "a.txt" "1", mapLease 1 "a.txt" "0"]

/-- The state of `lateJob` after worker 1 took the map task and was reclaimed
by 11 `Done()` calls. -/
def reclaimedState : State :=
  { filesToMap := [⟨Unprocessed, "a.txt"⟩], filesToReduce := [], workers := [],
    workerId := 1, nReduceCount := 1 }

/-- The state of `dupJob` after one `Idle` request. -/
def oneOfTwoState : State :=
  { filesToMap := [⟨Processing, "a.txt"⟩, ⟨Unprocessed, "a.txt"⟩], filesToReduce := [],
    workers := [mapLease 1 "a.txt" "0"], workerId := 1, nReduceCount := 1 }

/-- A live run of `lateJob`: the map task is assigned and completed in time,
then the reduce partition is assigned. -/
def liveCalls : List Call := [idleCall, reportCall (mapLease 1 "a.txt" "0"), idleCall]

/-- The state after `liveCalls` on `lateJob`. -/
def liveState : State :=
  { filesToMap := [⟨Completed, "a.txt"⟩], filesToReduce := [⟨Processing, "mr-0-0"⟩],
    workers := [reduceLease 2 ["mr-0-0"]], workerId := 2, nReduceCount := 1 }

/-- The state after `liveCalls` and the completion report of the reduce
worker: the job is finished. -/
def liveFinishedState : State :=
  { filesToMap := [⟨Completed, "a.txt"⟩], filesToReduce := [⟨Completed, "mr-0-0"⟩],
    workers := [], workerId := 2, nReduceCount := 1 }

/-- A task that is `Completed` in `s` is still `Completed`, at the same index
and under the same file name, in `s'`. -/
def CompletedStays (s s' : State) : Prop :=
  (∀ (i : Nat) (t : MRTask), s.filesToMap[i]? = some t → t.status = Completed →
    ∃ t', s'.filesToMap[i]? = some t' ∧ t'.fileName = t.fileName ∧ t'.status = Completed) ∧
  (∀ (i : Nat) (t : MRTask), s.filesToReduce[i]? = some t → t.status = Completed →
    ∃ t', s'.filesToReduce[i]? = some t' ∧ t'.fileName = t.fileName ∧ t'.status = Completed)

/-- The task state machine at state `s`: an `Idle` request returns and moves
statuses only `Unprocessed → Processing`; the completion report of a lease of
the table moves them only `Processing → Completed`; `Done()` moves them only
`Processing → Unprocessed`; and a `Completed` task stays `Completed` along
every further sequence of such calls. -/
def StatusTransitions (s : State) : Prop :=
  (∀ request reply0 : ActiveWorker, request.Status = Idle →
    (∃ r, (OnOperationStatusChange s request reply0).2 = some r) ∧
    StatusStep Unprocessed Processing s.filesToMap
      (OnOperationStatusChange s request reply0).1.filesToMap ∧
    StatusStep Unprocessed Processing s.filesToReduce
      (OnOperationStatusChange s request reply0).1.filesToReduce) ∧
  (∀ request reply0 lease : ActiveWorker, lease ∈ s.workers → Echoes request lease →
    StatusStep Processing Completed s.filesToMap
      (OnOperationStatusChange s request reply0).1.filesToMap ∧
    StatusStep Processing Completed s.filesToReduce
      (OnOperationStatusChange s request reply0).1.filesToReduce) ∧
  (StatusStep Processing Unprocessed s.filesToMap (Done s).1.filesToMap ∧
    StatusStep Processing Unprocessed s.filesToReduce (Done s).1.filesToReduce) ∧
  (∀ s' : State, Relation.ReflTransGen LiveStep s s' → CompletedStays s s')

/-- The state of `lateJob` after `staleLeaseCalls` and 10 further `Done()`
calls: the map task is `Completed`, the lease of worker 2 has 10 ticks. -/
def staleLeaseAgedState : State :=
  { filesToMap := [⟨Completed, "a.txt"⟩], filesToReduce := [⟨Unprocessed, "mr-0-0"⟩],
    workers := [{ mapLease 2 "a.txt" "0" with timeElapsed := 10 }],
    workerId := 2, nReduceCount := 1 }

/-! ## Concrete inputs for the commit and error paths -/

/-- A job state with three outstanding map leases. -/
def threeLeaseState : State :=
  { filesToMap := [⟨Processing, "a.txt"⟩, ⟨Processing, "b.txt"⟩, ⟨Processing, "c.txt"⟩],
    filesToReduce := [],
    workers := [mapLease 1 "a.txt" "0", mapLease 2 "b.txt" "1", mapLease 3 "c.txt" "2"],
    workerId := 3, nReduceCount := 1 }

/-- A request whose status is `processing`, carrying worker id 7. -/
def strayRequest : ActiveWorker :=
  { zeroWorker with
    WorkerId := 7, Status := Processing, OperationType := Map, FileNames := ["a.txt"] }

/-- A completion report of type `map` for a file that is not in the map table,
from a worker id that holds no lease, reporting one produced file. -/
def unknownMapReport : ActiveWorker :=
  { zeroWorker with
    WorkerId := 99, Status := Completed, OperationType := Map, FileNames := ["nope.txt"],
    TaskId := "9", NReduce := 1, TaskCompletionFileNames := ["mr-9-0"] }

/-- A completion report of type `reduce` for a file that is not in the reduce
table, from a worker id that holds no lease. -/
def unknownReduceReport : ActiveWorker :=
  { zeroWorker with
    WorkerId := 99, Status := Completed, OperationType := Reduce, FileNames := ["mr-9-0"],
    TaskId := "0", NReduce := 1, TaskCompletionFileNames := ["mr-9-0"] }

/-! ## Crash recovery -/

/-- The job state after `n` consecutive `Done()` calls. -/
def doneTimes : Nat → State → State
  | 0, s => s
  | n + 1, s => doneTimes n (Done s).1

/-- The job state after `MakeCoordinator(files, nReduce)` on a fresh process
and one RPC. -/
def afterFirstCall (files : List String) (nReduce : Int) (request reply : ActiveWorker) :
    State :=
  (OnOperationStatusChange (MakeCoordinator freshState files nReduce) request reply).1

/-- The lease created by the first map assignment of a job: worker id 1, the
first input file, no ticks. -/
def firstLease (f : String) (nReduce : Int) (request : ActiveWorker) : ActiveWorker :=
  { WorkerId := 1, Status := Processing, OperationType := Map, timeElapsed := 0,
    FileNames := [f], TaskId := Itoa (0 : Nat), NReduce := nReduce,
    TaskCompletionFileNames := request.TaskCompletionFileNames }

/-- A job over the input files `f :: rest` in which only the first map task
may have left the `Unprocessed` status. -/
def crashState (f : String) (rest : List String) (nReduce : Int) (status : OperationStatus)
    (leases : List ActiveWorker) (counter : Int) : State :=
  { filesToMap := ⟨status, f⟩ :: rest.map
      (fun fileName => { status := Unprocessed, fileName := fileName }),
    filesToReduce := [], workers := leases, workerId := counter, nReduceCount := nReduce }

/-! ## The reclaim sweep -/

/-- A lease after `worker.timeElapsed += 1`. -/
def ticked (w : ActiveWorker) : ActiveWorker :=
  { w with timeElapsed := incInt32 w.timeElapsed }

/-- The test `worker.timeElapsed > 10` after the increment. -/
def expired (w : ActiveWorker) : Bool :=
  decide (incInt32 w.timeElapsed > 10)

/-- A task table after every task named by an expired lease of `ws` has been
set to `Unprocessed`; `mapTable` selects the leases of type `map` (the map
table) or all others (the reduce table). -/
def reclaimedTable (mapTable : Bool) (ws : List ActiveWorker) (tbl : List MRTask) :
    List MRTask :=
  tbl.map (fun task =>
    if ws.any (fun w => expired w && (decide (w.OperationType = Map) == mapTable) &&
        decide (task.fileName ∈ w.FileNames)) then
      { task with status := Unprocessed }
    else task)

/-- A job state whose only lease has the largest `int32` as tick count. -/
def agedLeaseState : State :=
  { filesToMap := [⟨Processing, "a.txt"⟩], filesToReduce := [],
    workers := [{ mapLease 1 "a.txt" "0" with timeElapsed := 2 ^ 31 - 1 }],
    workerId := 1, nReduceCount := 1 }

/-- A job state with three leases of 3, 10 and 10 ticks on map and reduce
tasks. -/
def sweepState : State :=
  { filesToMap := [⟨Processing, "a.txt"⟩, ⟨Processing, "b.txt"⟩],
    filesToReduce := [⟨Processing, "mr-0-0"⟩, ⟨Unprocessed, "mr-0-1"⟩],
    workers := [{ mapLease 1 "a.txt" "0" with timeElapsed := 10 },
      { mapLease 2 "b.txt" "1" with timeElapsed := 3 },
      { reduceLease 3 ["mr-0-0"] with timeElapsed := 10 }],
    workerId := 3, nReduceCount := 2 }

/-! ## Worker ids -/

/-- The worker ids handed out by one RPC: the reply's `WorkerId` when an
`Idle` request is answered with status `processing`, nothing otherwise. -/
def assignedIds (s : State) (request reply0 : ActiveWorker) : List Int :=
  if request.Status = Idle then
    match (OnOperationStatusChange s request reply0).2 with
    | some r => if r.Status = Processing then [r.WorkerId] else []
    | none => []
  else []

/-- States reachable from `MakeCoordinator(files, nReduce)` on a fresh process
by arbitrary RPCs (made while the worker-id counter is below the largest
`int`, so that the increment does not wrap) and `Done()` calls; the second
index lists the worker ids handed out so far, latest first. -/
inductive AnyRun (files : List String) (nReduce : Int) : State → List Int → Prop
  | init : AnyRun files nReduce (MakeCoordinator freshState files nReduce) []
  | rpc (s : State) (ids : List Int) (request reply0 : ActiveWorker) :
      AnyRun files nReduce s ids → s.workerId < 2 ^ 63 - 1 →
      AnyRun files nReduce (OnOperationStatusChange s request reply0).1
        (assignedIds s request reply0 ++ ids)
  | done (s : State) (ids : List Int) :
      AnyRun files nReduce s ids → AnyRun files nReduce (Done s).1 ids

/-! ## worker.go: the map worker

Go strings hold bytes; a Lean string stands for the Go string holding its
UTF-8 encoding.  Comparing Lean strings (by code point) agrees with Go's
bytewise comparison on such strings. -/

/-- Go `type KeyValue struct`. -/
structure KeyValue where
  Key : String
  Value : String
deriving DecidableEq, Repr

/-- The UTF-8 encoding of one character, as byte values. -/
def utf8Bytes (c : Char) : List Nat :=
  let v := c.toNat
  if v ≤ 0x7f then [v]
  else if v ≤ 0x7ff then [0xc0 + v / 64, 0x80 + v % 64]
  else if v ≤ 0xffff then [0xe0 + v / 4096, 0x80 + v / 64 % 64, 0x80 + v % 64]
  else [0xf0 + v / 262144, 0x80 + v / 4096 % 64, 0x80 + v / 64 % 64, 0x80 + v % 64]

/-- Go `[]byte(key)`. -/
def keyBytes (key : String) : List Nat :=
  key.data.flatMap utf8Bytes

/-- Go `hash/fnv`: `New32a()`, `Write(bytes)`, `Sum32()`, the 32-bit FNV-1a
hash: start from the offset basis 2166136261; for every byte, xor it in and
multiply by the prime 16777619 modulo `2^32`. -/
def fnv1a32 (bytes : List Nat) : Nat :=
  bytes.foldl (fun h b => ((h ^^^ b) * 16777619) % 2 ^ 32) 2166136261

/-- Go `ihash` on the bytes of the key: `int(h.Sum32() & 0x7fffffff)`. -/
def ihashBytes (bytes : List Nat) : Int :=
  ((fnv1a32 bytes &&& 0x7fffffff : Nat) : Int)

/-- Go `ihash(key)`. -/
def ihash (key : String) : Int :=
  ihashBytes (keyBytes key)

/-- Go `a % b` on `int`, the remainder of the truncated division; `none` is
the integer-divide-by-zero panic. -/
def goMod (a b : Int) : Option Int :=
  if b = 0 then none else some (Int.tmod a b)

/-- The statement `bucketId := ihash(pair.Key) % req.NReduce`. -/
def bucketId (key : String) (nReduce : Int) : Option Int :=
  goMod (ihash key) nReduce

/-- The statement `buckets[bucketId] = append(buckets[bucketId], pair)`;
`none` is the index-out-of-range panic. -/
def appendToBucket (buckets : List (List KeyValue)) (id : Int) (pair : KeyValue) :
    Option (List (List KeyValue)) :=
  if id < 0 then none
  else
    match buckets[id.toNat]? with
    | none => none
    | some bucket => some (buckets.set id.toNat (bucket ++ [pair]))

/-- The loop `for _, pair := range kva` of `handleMapOperation`. -/
def fillBuckets (nReduce : Int) :
    List KeyValue → List (List KeyValue) → Option (List (List KeyValue))
  | [], buckets => some buckets
  | pair :: rest, buckets =>
    match bucketId pair.Key nReduce with
    | none => none
    | some id =>
      match appendToBucket buckets id pair with
      | none => none
      | some buckets' => fillBuckets nReduce rest buckets'

/-- What `handleMapOperation` needs from the machine the worker runs on:
`maxSliceLen` is the largest length for which `make([][]KeyValue, n)` gets
its memory; `readFile` is `os.Open` followed by `ioutil.ReadAll`, `none` when
either fails; `writeFile name bucket` is `os.Create(name)` followed by the
JSON encoding of every pair of the bucket, `false` when any of them fails. -/
structure Host where
  maxSliceLen : Nat
  readFile : String → Option String
  writeFile : String → List KeyValue → Bool

/-- Go runtime `maxAlloc` on a 64-bit platform with 48 address bits
(linux/amd64): `makeslice` panics when the slice would take more bytes. -/
def maxAlloc : Nat := 2 ^ 48

/-- The size in bytes of a slice header, the element of `[][]KeyValue`, on a
64-bit platform. -/
def sliceHeaderSize : Nat := 24

/-- The statement `buckets := make([][]KeyValue, req.NReduce)` with the
initialising loop; `none` is the panic `makeslice: len out of range` (a
negative length, or more than `maxAlloc` bytes) or the failure to get the
memory from the machine. -/
def makeBuckets (host : Host) (nReduce : Int) : Option (List (List KeyValue)) :=
  if nReduce < 0 ∨ (maxAlloc : Int) < sliceHeaderSize * nReduce ∨
      (host.maxSliceLen : Int) < nReduce then none
  else some (List.replicate nReduce.toNat [])

/-- The part of `handleMapOperation` from `buckets := make(...)` to the end
of the loop over `kva`: the filled buckets, `none` when the worker panics. -/
def bucketPairs (host : Host) (nReduce : Int) (kva : List KeyValue) :
    Option (List (List KeyValue)) :=
  match makeBuckets host nReduce with
  | none => none
  | some empty => fillBuckets nReduce kva empty

/-- The loop `for id, subBucket := range buckets` of `handleMapOperation`
from index `id` on: the file names appended to `req.TaskCompletionFileNames`;
`none` when a file cannot be created or written (`log.Fatal`). -/
def writeBuckets (host : Host) (taskId : String) :
    Nat → List (List KeyValue) → List String → Option (List String)
  | _, [], names => some names
  | id, subBucket :: rest, names =>
    if host.writeFile ("mr-" ++ taskId ++ "-" ++ Itoa id) subBucket then
      writeBuckets host taskId (id + 1) rest (names ++ ["mr-" ++ taskId ++ "-" ++ Itoa id])
    else none

/-- Go `handleMapOperation(mapf)`: the buckets written to the intermediate
files and the request with its `TaskCompletionFileNames`; `none` when the
worker panics (`req.FileNames[0]` on an empty list, `make`, the remainder by
zero) or exits with `log.Fatal` (a file cannot be read, created or
written). -/
def handleMapOperation (host : Host) (mapf : String → String → List KeyValue)
    (req : ActiveWorker) : Option (List (List KeyValue) × ActiveWorker) :=
  match req.FileNames with
  | [] => none
  | filename :: _ =>
    match host.readFile filename with
    | none => none
    | some content =>
      match bucketPairs host req.NReduce (mapf filename content) with
      | none => none
      | some buckets =>
        match writeBuckets host req.TaskId 0 buckets [] with
        | none => none
        | some names => some (buckets, { req with TaskCompletionFileNames := names })

/-- The pairs of the word-count example: `hello`, `world`, `hello`. -/
def helloPairs : List KeyValue :=
  [⟨"hello", "1"⟩, ⟨"world", "1"⟩, ⟨"hello", "1"⟩]

/-- A map assignment for table index `i` and `nReduce` partitions, as
`assignTask` fills it in. -/
def mapAssignment (workerId : Int) (file : String) (i : Nat) (nReduce : Int) : ActiveWorker :=
  { zeroWorker with
    WorkerId := workerId
    Status := Processing
    OperationType := Map
    FileNames := [file]
    TaskId := Itoa i
    NReduce := nReduce }

/-- A machine on which the file operations succeed and slices of up to
1024 buckets can be made. -/
def plainHost : Host :=
  { maxSliceLen := 1024
    readFile := fun _ => some "hello world hello"
    writeFile := fun _ _ => true }

/-- A map function that emits the pairs of the word-count example. -/
def helloMap (_filename _contents : String) : List KeyValue :=
  helloPairs

/-- A machine whose disk is full: no file can be created. -/
def fullDiskHost : Host :=
  { plainHost with writeFile := fun _ _ => false }

/-! ## worker.go: the reduce worker -/

/-- Go `ByKey.Less`: `a[i].Key < a[j].Key`. -/
def ByKeyLess (a b : KeyValue) : Prop :=
  a.Key < b.Key

/-- The contract of the library call `sort.Sort(ByKey(intermediate))`:
`sorted`, the slice after the call, is a permutation of the slice before it
in which no element is `Less` than an earlier one.  The library sort is not
stable, so nothing more is known of the order of pairs with equal keys. -/
def SortedByKey (intermediate sorted : List KeyValue) : Prop :=
  sorted.Perm intermediate ∧ sorted.Pairwise (fun a b => ¬ ByKeyLess b a)

/-- The inner loop of `handleReduceOperation`,
`for j < len(intermediate) && intermediate[j].Key == intermediate[i].Key { j++ }`
with `key = intermediate[i].Key`: the value of `j` when it ends. -/
def scanRun (intermediate : List KeyValue) (key : String) : Nat → Nat → Nat
  | 0, j => j
  | fuel + 1, j =>
    match intermediate[j]? with
    | none => j
    | some kv => if kv.Key = key then scanRun intermediate key fuel (j + 1) else j

/-- The loop `for k := i; k < j; k++` of `handleReduceOperation`, which
collects `intermediate[k].Value`. -/
def valuesBetween (intermediate : List KeyValue) (i j : Nat) : List String :=
  ((intermediate.drop i).take (j - i)).map KeyValue.Value

/-- The outer loop `for i < len(intermediate)` of `handleReduceOperation`
from index `i` on: the arguments of the calls of `reducef`, in order. -/
def reduceLoop (intermediate : List KeyValue) : Nat → Nat → List (String × List String)
  | 0, _ => []
  | fuel + 1, i =>
    match intermediate[i]? with
    | none => []
    | some kv =>
      (kv.Key, valuesBetween intermediate i
          (scanRun intermediate kv.Key intermediate.length (i + 1))) ::
        reduceLoop intermediate fuel (scanRun intermediate kv.Key intermediate.length (i + 1))

/-- The calls `reducef(key, values)` that `handleReduceOperation` makes on the
sorted slice `intermediate`; every pass of the outer loop advances `i`, so
`len(intermediate)` passes are enough. -/
def reduceCalls (intermediate : List KeyValue) : List (String × List String) :=
  reduceLoop intermediate intermediate.length 0

/-- Go `handleReduceOperation(reducef)` from the sorted slice on: the lines
`fmt.Fprintf(tempfile, "%v %v\n", key, output)` writes, in order. -/
def handleReduceOperation (reducef : String → List String → String)
    (intermediate : List KeyValue) : List String :=
  (reduceCalls intermediate).map
    (fun call => call.1 ++ " " ++ reducef call.1 call.2 ++ "\n")

/-- The counting reduce function of the word-count application:
`strconv.Itoa(len(values))`. -/
def countReduce (_key : String) (values : List String) : String :=
  Itoa values.length

/-- The word-count example after sorting. -/
def helloSorted : List KeyValue :=
  [⟨"hello", "1"⟩, ⟨"hello", "1"⟩, ⟨"world", "1"⟩]

/-! ## Runs in which only the map reports must come from live leases -/

/-- The part of the coordinator invariant that also survives completion
reports of a type other than `map` from workers whose lease is gone (or
that never had one): a task named by a map lease is `Processing`, a task
named by a reduce lease is not `Unprocessed`, no task is named by two leases
of its kind, a reduce lease names a whole partition, and reduce leases and
`Processing` reduce tasks exist only once every map task is `Completed`. -/
structure MapLiveCore (m r : List MRTask) (ks : List LeaseKey) (wid : Int) : Prop where
  mapNodup : (m.map MRTask.fileName).Nodup
  widNonneg : 0 ≤ wid
  idBound : ∀ k ∈ ks, k.id ≤ wid
  idsNodup : (ks.map LeaseKey.id).Nodup
  kinds : ∀ k ∈ ks, k.kind = Map ∨ k.kind = Reduce
  mapLe : ∀ t ∈ m, ks.countP (keyRefs Map t.fileName) ≤ 1
  mapRef : ∀ t ∈ m, ∀ k ∈ ks, k.kind = Map → t.fileName ∈ k.names → t.status = Processing
  mapLive : ∀ k ∈ ks, k.kind = Map → ∃ n ∈ m.map MRTask.fileName, n ∈ k.names
  redLe : ∀ t ∈ r, ks.countP (keyRefs Reduce t.fileName) ≤ 1
  redRef : ∀ t ∈ r, ∀ k ∈ ks, k.kind = Reduce → t.fileName ∈ k.names →
    t.status ≠ Unprocessed
  redClosed : ∀ k ∈ ks, k.kind = Reduce →
    ∃ p, ∀ n ∈ r.map MRTask.fileName, (n ∈ k.names ↔ partitionField n = some p)
  barrier : ∀ rt ∈ r, rt.status = Processing → ∀ mt ∈ m, mt.status = Completed
  frozen : ∀ k ∈ ks, k.kind = Reduce → ∀ mt ∈ m, mt.status = Completed

/-- The invariant `MapLiveCore` on a job state. -/
def MapLiveInv (s : State) : Prop :=
  MapLiveCore s.filesToMap s.filesToReduce (s.workers.map leaseKey) s.workerId

/-- States reachable from `MakeCoordinator(files, nReduce)` on a fresh process
by `Idle` requests (made while the worker-id counter is below the largest
`int`), by completion reports of type `map` that echo a map lease still in
the lease table, by completion reports of every other type, whatever they
carry (in particular every reduce report, late or not), and by `Done()`
calls. -/
inductive MapLiveReachable (files : List String) (nReduce : Int) : State → Prop
  | init : MapLiveReachable files nReduce (MakeCoordinator freshState files nReduce)
  | idle (s : State) (request reply0 : ActiveWorker) (s' : State) (r : ActiveWorker) :
      MapLiveReachable files nReduce s → request.Status = Idle → s.workerId < 2 ^ 63 - 1 →
      OnOperationStatusChange s request reply0 = (s', some r) →
      MapLiveReachable files nReduce s'
  | mapReport (s : State) (request reply0 lease : ActiveWorker) :
      MapLiveReachable files nReduce s → lease ∈ s.workers → lease.OperationType = Map →
      Echoes request lease →
      MapLiveReachable files nReduce (OnOperationStatusChange s request reply0).1
  | otherReport (s : State) (request reply0 : ActiveWorker) :
      MapLiveReachable files nReduce s → request.Status = Completed →
      request.OperationType ≠ Map →
      MapLiveReachable files nReduce (OnOperationStatusChange s request reply0).1
  | done (s : State) :
      MapLiveReachable files nReduce s → MapLiveReachable files nReduce (Done s).1

/-- Runs a sequence of calls of the kinds `MapLiveReachable` allows; `none`
when a call is of another kind or panics. -/
def runMapLive : State → List Call → Option State
  | s, [] => some s
  | s, Call.done :: rest => runMapLive (Done s).1 rest
  | s, Call.rpc request :: rest =>
    if request.Status = Idle then
      if s.workerId < 2 ^ 63 - 1 then
        match OnOperationStatusChange s request zeroWorker with
        | (_, none) => none
        | (s', some _) => runMapLive s' rest
      else none
    else if request.Status = Completed ∧ request.OperationType ≠ Map then
      runMapLive (OnOperationStatusChange s request zeroWorker).1 rest
    else if s.workers.any
        (fun lease => decide (lease.OperationType = Map ∧ Echoes request lease)) then
      runMapLive (OnOperationStatusChange s request zeroWorker).1 rest
    else none

/-- A reduce assignment of partition `taskId`, as `assignTask` fills it in. -/
def reduceAssignment (workerId : Int) (files : List String) (taskId : String)
    (nReduce : Int) : ActiveWorker :=
  { zeroWorker with
    WorkerId := workerId
    Status := Processing
    OperationType := Reduce
    FileNames := files
    TaskId := taskId
    NReduce := nReduce }

/-- A job with one input file and two reduce partitions. -/
def twoPartitionJob : State := MakeCoordinator freshState ["a.txt"] 2

/-- The map task is done in time; worker 2 takes partition 0 and falls
silent; after 11 `Done()` calls the partition is reassigned to worker 3;
worker 2 reports late; worker 4 takes partition 1. -/
def lateReduceCalls : List Call :=
  [idleCall, reportCall (mapAssignment 1 "a.txt" 0 2), idleCall] ++ doneCalls 11 ++
    [idleCall, reportCall (reduceAssignment 2 ["mr-0-0"] "0" 2), idleCall]

/-- The state after `lateReduceCalls` on `twoPartitionJob`: partition 0 is
`Completed` by the late report while the lease of worker 3 is outstanding,
partition 1 is `Processing` under the lease of worker 4. -/
def lateReduceState : State :=
  { filesToMap := [⟨Completed, "a.txt"⟩]
    filesToReduce := [⟨Completed, "mr-0-0"⟩, ⟨Processing, "mr-0-1"⟩]
    workers := [reduceAssignment 3 ["mr-0-0"] "0" 2, reduceAssignment 4 ["mr-0-1"] "1" 2]
    workerId := 4
    nReduceCount := 2 }

/-- Two workers take the two map tasks of `twoFileJob`, and a reduce report
of an unknown worker arrives. -/
def twoMapLeaseCalls : List Call :=
  [idleCall, idleCall, reportCall (reduceAssignment 7 ["mr-0-0"] "0" 3)]

/-- The state after `twoMapLeaseCalls` on `twoFileJob`. -/
def twoMapLeaseState : State :=
  { filesToMap := [⟨Processing, "a.txt"⟩, ⟨Processing, "b.txt"⟩]
    filesToReduce := []
    workers := [mapAssignment 1 "a.txt" 0 3, mapAssignment 2 "b.txt" 1 3]
    workerId := 2
    nReduceCount := 3 }

/-- The state of `twoFileJob` after an `Idle` request, a request with status
`processing`, a `Done()` call and a second `Idle` request: two leases, of
workers 1 and 2. -/
def twoAssignmentsState : State :=
  { filesToMap := [⟨Processing, "a.txt"⟩, ⟨Processing, "b.txt"⟩]
    filesToReduce := []
    workers := [{ mapAssignment 1 "a.txt" 0 3 with timeElapsed := 1 }, mapAssignment 2 "b.txt" 1 3]
    workerId := 2
    nReduceCount := 3 }

/-- A machine on which the input file cannot be read. -/
def noInputHost : Host :=
  { plainHost with readFile := fun _ => none }

/-! ## Basic facts about the table and lease-list operations -/

theorem foldl_setStatusOf (status : OperationStatus) (names : List String) (tbl : List MRTask) :
    names.foldl (setStatusOf status) tbl =
      tbl.map (fun task => if task.fileName ∈ names then { task with status := status } else task) := by
  induction names generalizing tbl with
  | nil => simp
  | cons n rest ih =>
    simp only [List.foldl_cons, ih, setStatusOf, List.map_map]
    apply List.map_congr_left
    intro task _
    by_cases h1 : task.fileName = n
    · by_cases h2 : task.fileName ∈ rest <;> simp [h1, h2]
    · by_cases h2 : task.fileName ∈ rest <;> simp [h1, h2]

theorem updateFileStatus_filesToMap (s : State) (w : ActiveWorker) (st : OperationStatus) :
    (updateFileStatus s w st).filesToMap =
      if w.OperationType = Map then
        s.filesToMap.map (fun task =>
          if task.fileName ∈ w.FileNames then { task with status := st } else task)
      else s.filesToMap := by
  unfold updateFileStatus
  split <;> simp [foldl_setStatusOf]

theorem updateFileStatus_filesToReduce (s : State) (w : ActiveWorker) (st : OperationStatus) :
    (updateFileStatus s w st).filesToReduce =
      if w.OperationType = Map then s.filesToReduce
      else
        s.filesToReduce.map (fun task =>
          if task.fileName ∈ w.FileNames then { task with status := st } else task) := by
  unfold updateFileStatus
  split <;> simp [foldl_setStatusOf]

theorem updateFileStatus_workers (s : State) (w : ActiveWorker) (st : OperationStatus) :
    (updateFileStatus s w st).workers = s.workers := by
  unfold updateFileStatus
  split <;> rfl

theorem updateFileStatus_workerId (s : State) (w : ActiveWorker) (st : OperationStatus) :
    (updateFileStatus s w st).workerId = s.workerId := by
  unfold updateFileStatus
  split <;> rfl

theorem updateFileStatus_nReduceCount (s : State) (w : ActiveWorker) (st : OperationStatus) :
    (updateFileStatus s w st).nReduceCount = s.nReduceCount := by
  unfold updateFileStatus
  split <;> rfl

theorem map_fileName_relabel (tbl : List MRTask) (names : List String) (st : OperationStatus) :
    (tbl.map (fun task =>
      if task.fileName ∈ names then { task with status := st } else task)).map MRTask.fileName =
      tbl.map MRTask.fileName := by
  rw [List.map_map]
  apply List.map_congr_left
  intro task _
  by_cases h : task.fileName ∈ names <;> simp [h]

theorem updateFileStatus_mapNames (s : State) (w : ActiveWorker) (st : OperationStatus) :
    (updateFileStatus s w st).filesToMap.map MRTask.fileName =
      s.filesToMap.map MRTask.fileName := by
  rw [updateFileStatus_filesToMap]
  split
  · exact map_fileName_relabel _ _ _
  · rfl

theorem updateFileStatus_reduceNames (s : State) (w : ActiveWorker) (st : OperationStatus) :
    (updateFileStatus s w st).filesToReduce.map MRTask.fileName =
      s.filesToReduce.map MRTask.fileName := by
  rw [updateFileStatus_filesToReduce]
  split
  · rfl
  · exact map_fileName_relabel _ _ _

theorem sweepFrom_succ (fuel i : Nat) (s : State) :
    sweepFrom (fuel + 1) i s =
      match s.workers[i]? with
      | none => s
      | some w =>
        if incInt32 w.timeElapsed > 10 then sweepFrom fuel i (reclaimAt s i w)
        else sweepFrom fuel (i + 1) (tickAt s i w) := by
  rfl

/-- Induction principle for the reclaim sweep: a property kept by every tick
and by every reclaim is kept by the whole loop. -/
theorem sweepFrom_induction (P : State → Prop)
    (htick : ∀ s i w, P s → s.workers[i]? = some w → ¬ incInt32 w.timeElapsed > 10 →
      P (tickAt s i w))
    (hreclaim : ∀ s i w, P s → s.workers[i]? = some w → incInt32 w.timeElapsed > 10 →
      P (reclaimAt s i w))
    (fuel i : Nat) (s : State) (h : P s) : P (sweepFrom fuel i s) := by
  induction fuel generalizing i s with
  | zero => exact h
  | succ fuel ih =>
    rw [sweepFrom_succ]
    cases hw : s.workers[i]? with
    | none => exact h
    | some w =>
      simp only
      split
      · exact ih _ _ (hreclaim s i w h hw (by assumption))
      · exact ih _ _ (htick s i w h hw (by assumption))

theorem removeElementAtIndex_length (a : List ActiveWorker) (i : Nat) (h : a ≠ []) :
    (removeElementAtIndex a i).length = a.length - 1 := by
  unfold removeElementAtIndex
  cases hl : a.getLast? with
  | none => simp [List.getLast?_eq_none_iff] at hl; exact absurd hl h
  | some l => simp

/-- The loop of `updateWorkerTimeElapsed` needs at most `len(workers) - i`
iterations: with that much fuel the unrolling has reached the loop exit, and
more fuel changes nothing. -/
theorem sweepFrom_fuel (fuel i : Nat) (s : State) (h : s.workers.length - i ≤ fuel)
    (extra : Nat) : sweepFrom (fuel + extra) i s = sweepFrom fuel i s := by
  induction fuel generalizing i s with
  | zero =>
    cases extra with
    | zero => rfl
    | succ e =>
      have : s.workers[i]? = none := by
        rw [List.getElem?_eq_none_iff]; omega
      simp [sweepFrom_succ, this, sweepFrom]
  | succ fuel ih =>
    rw [show fuel + 1 + extra = (fuel + extra) + 1 by omega, sweepFrom_succ, sweepFrom_succ]
    cases hw : s.workers[i]? with
    | none => rfl
    | some w =>
      have hi : i < s.workers.length := by
        rcases List.getElem?_eq_some_iff.1 hw with ⟨hi, _⟩; exact hi
      simp only
      split
      · apply ih
        have hne : (s.workers.set i { w with timeElapsed := incInt32 w.timeElapsed }) ≠ [] := by
          apply List.ne_nil_of_length_pos
          rw [List.length_set]; omega
        have hl : (reclaimAt s i w).workers.length = s.workers.length - 1 := by
          simp only [reclaimAt, updateFileStatus_workers, tickAt]
          rw [removeElementAtIndex_length _ _ hne]
          simp
        rw [hl]; omega
      · apply ih
        have hl : (tickAt s i w).workers.length = s.workers.length := by
          simp [tickAt]
        rw [hl]; omega

/-! ## Scanning the task tables -/

theorem getUnmappedTaskFrom_none (idx : Nat) (tbl : List MRTask) :
    getUnmappedTaskFrom idx tbl = none ↔ ∀ task ∈ tbl, task.status ≠ Unprocessed := by
  induction tbl generalizing idx with
  | nil => simp [getUnmappedTaskFrom]
  | cons task rest ih =>
    unfold getUnmappedTaskFrom
    by_cases h : task.status = Unprocessed
    · simp [h]
    · simp only [h, if_false, List.mem_cons, forall_eq_or_imp, ne_eq, not_false_eq_true, true_and]
      rw [← ih (idx + 1)]
      cases getUnmappedTaskFrom (idx + 1) rest <;> simp

theorem getUnmappedTaskFrom_some (idx : Nat) (tbl : List MRTask) (i : Nat) (found : MRTask)
    (tbl' : List MRTask) (h : getUnmappedTaskFrom idx tbl = some (i, found, tbl')) :
    ∃ pre task post, tbl = pre ++ task :: post ∧ (∀ x ∈ pre, x.status ≠ Unprocessed) ∧
      task.status = Unprocessed ∧ i = idx + pre.length ∧
      found = { task with status := Processing } ∧ tbl' = pre ++ found :: post := by
  induction tbl generalizing idx i found tbl' with
  | nil => simp [getUnmappedTaskFrom] at h
  | cons task rest ih =>
    unfold getUnmappedTaskFrom at h
    by_cases hs : task.status = Unprocessed
    · simp only [hs, if_true, Option.some.injEq, Prod.mk.injEq] at h
      obtain ⟨h1, h2, h3⟩ := h
      exact ⟨[], task, rest, rfl, by simp, hs, by simp [h1], h2.symm, by simp [← h3, ← h2]⟩
    · simp only [hs, if_false] at h
      cases hr : getUnmappedTaskFrom (idx + 1) rest with
      | none => simp [hr] at h
      | some r =>
        obtain ⟨i1, found1, rest1⟩ := r
        simp only [hr, Option.some.injEq, Prod.mk.injEq] at h
        obtain ⟨h1, h2, h3⟩ := h
        obtain ⟨pre, t, post, e1, e2, e3, e4, e5, e6⟩ := ih (idx + 1) i1 found1 rest1 hr
        refine ⟨task :: pre, t, post, by simp [e1], ?_, e3, ?_, ?_, ?_⟩
        · intro x hx
          rcases List.mem_cons.1 hx with rfl | hx
          · exact hs
          · exact e2 x hx
        · simp; omega
        · rw [← h2]; exact e5
        · rw [← h3, ← h2, e6]; simp

theorem markPartition_names (p : String) (tbl : List MRTask) :
    (markPartition p tbl).1.map MRTask.fileName = tbl.map MRTask.fileName := by
  induction tbl with
  | nil => rfl
  | cons task rest ih =>
    unfold markPartition
    cases partitionField task.fileName with
    | none => rfl
    | some q =>
      simp only
      split <;> simp [ih]

/-- When the second loop of `getReduceTasks` does not panic, it has relabelled
exactly the tasks of the partition and collected them in table order. -/
theorem markPartition_ok (p : String) (tbl : List MRTask)
    (h : (markPartition p tbl).2.2 = false) :
    (∀ task ∈ tbl, (partitionField task.fileName).isSome) ∧
    (markPartition p tbl).1 = tbl.map (fun task =>
      if partitionField task.fileName = some p then { task with status := Processing }
      else task) ∧
    (markPartition p tbl).2.1 = (tbl.filter (fun task =>
      decide (partitionField task.fileName = some p))).map
        (fun task => { task with status := Processing }) := by
  induction tbl with
  | nil => simp [markPartition]
  | cons task rest ih =>
    unfold markPartition at h ⊢
    cases hq : partitionField task.fileName with
    | none => simp [hq] at h
    | some q =>
      simp only [hq] at h ⊢
      by_cases hp : q = p
      · simp only [hp, if_true] at h ⊢
        obtain ⟨h1, h2, h3⟩ := ih h
        refine ⟨?_, ?_, ?_⟩
        · intro t ht
          rcases List.mem_cons.1 ht with rfl | ht
          · simp [hq]
          · exact h1 t ht
        · simp [hq, hp, h2]
        · simp [hq, hp, h3]
      · simp only [hp, if_false] at h ⊢
        obtain ⟨h1, h2, h3⟩ := ih h
        refine ⟨?_, ?_, ?_⟩
        · intro t ht
          rcases List.mem_cons.1 ht with rfl | ht
          · simp [hq]
          · exact h1 t ht
        · simp [hq, hp, h2]
        · simp [hq, hp, h3]

/-- The second loop of `getReduceTasks` does not panic when every file name has
a third field. -/
theorem markPartition_no_panic (p : String) (tbl : List MRTask)
    (h : ∀ task ∈ tbl, (partitionField task.fileName).isSome) :
    (markPartition p tbl).2.2 = false := by
  induction tbl with
  | nil => rfl
  | cons task rest ih =>
    unfold markPartition
    have h0 := h task (List.mem_cons_self _ _)
    cases hq : partitionField task.fileName with
    | none => simp [hq] at h0
    | some q =>
      simp only
      split <;> exact ih (fun t ht => h t (List.mem_cons_of_mem _ ht))

theorem firstFileNumber_cases (tbl : List MRTask) :
    ((∀ task ∈ tbl, task.status ≠ Unprocessed) ∧ firstFileNumber tbl = some "") ∨
    (∃ pre task post, tbl = pre ++ task :: post ∧ (∀ x ∈ pre, x.status ≠ Unprocessed) ∧
      task.status = Unprocessed ∧ firstFileNumber tbl = partitionField task.fileName) := by
  induction tbl with
  | nil => left; simp [firstFileNumber]
  | cons task rest ih =>
    by_cases hs : task.status = Unprocessed
    · right
      exact ⟨[], task, rest, rfl, by simp, hs, by simp [firstFileNumber, hs]⟩
    · rcases ih with ⟨h1, h2⟩ | ⟨pre, t, post, e1, e2, e3, e4⟩
      · left
        refine ⟨?_, by simp [firstFileNumber, hs, h2]⟩
        intro x hx
        rcases List.mem_cons.1 hx with rfl | hx
        · exact hs
        · exact h1 x hx
      · right
        refine ⟨task :: pre, t, post, by simp [e1], ?_, e3, by simp [firstFileNumber, hs, e4]⟩
        intro x hx
        rcases List.mem_cons.1 hx with rfl | hx
        · exact hs
        · exact e2 x hx

/-! ## File names are never dropped -/

theorem getUnmappedTaskFrom_names (idx : Nat) (tbl : List MRTask) (i : Nat) (found : MRTask)
    (tbl' : List MRTask) (h : getUnmappedTaskFrom idx tbl = some (i, found, tbl')) :
    tbl'.map MRTask.fileName = tbl.map MRTask.fileName := by
  obtain ⟨pre, task, post, e1, _, _, _, e5, e6⟩ := getUnmappedTaskFrom_some idx tbl i found tbl' h
  rw [e6, e1, e5]; simp

theorem getReduceTasks_frame (s : State) :
    (getReduceTasks s).1.filesToMap = s.filesToMap ∧
    (getReduceTasks s).1.workers = s.workers ∧
    (getReduceTasks s).1.workerId = s.workerId ∧
    (getReduceTasks s).1.nReduceCount = s.nReduceCount ∧
    (getReduceTasks s).1.filesToReduce.map MRTask.fileName =
      s.filesToReduce.map MRTask.fileName := by
  unfold getReduceTasks
  cases firstFileNumber s.filesToReduce with
  | none => simp
  | some fileNumber =>
    simp only
    split
    · simp
    · simp [markPartition_names]

theorem assignTask_names (s : State) (aw : ActiveWorker) :
    (assignTask s aw).1.filesToMap.map MRTask.fileName = s.filesToMap.map MRTask.fileName ∧
    (assignTask s aw).1.filesToReduce.map MRTask.fileName =
      s.filesToReduce.map MRTask.fileName := by
  unfold assignTask
  simp only
  cases hu : getUnmappedTask s with
  | some r =>
    obtain ⟨taskId, newMapTask, s1⟩ := r
    unfold getUnmappedTask at hu
    cases hf : getUnmappedTaskFrom 0 s.filesToMap with
    | none => simp [hf] at hu
    | some q =>
      obtain ⟨i, found, tbl⟩ := q
      simp only [hf, Option.some.injEq, Prod.mk.injEq] at hu
      obtain ⟨_, _, h3⟩ := hu
      subst h3
      exact ⟨getUnmappedTaskFrom_names 0 _ i found tbl hf, rfl⟩
  | none =>
    simp only
    split
    · exact ⟨rfl, rfl⟩
    · obtain ⟨h1, _, _, _, h5⟩ := getReduceTasks_frame s
      cases hg : getReduceTasks s with
      | mk s1 res =>
        rw [hg] at h1 h5
        simp only at h1 h5
        cases res with
        | none => exact ⟨by rw [h1], h5⟩
        | some pr =>
          obtain ⟨taskNumber, newReduceTasks⟩ := pr
          simp only
          split
          · exact ⟨by simp [h1], by simpa using h5⟩
          · exact ⟨by rw [h1], h5⟩

theorem updateFileCompletion_names (s : State) (aw : ActiveWorker) :
    (updateFileCompletion s aw).1.filesToMap.map MRTask.fileName =
      s.filesToMap.map MRTask.fileName ∧
    s.filesToReduce.map MRTask.fileName <+:
      (updateFileCompletion s aw).1.filesToReduce.map MRTask.fileName := by
  unfold updateFileCompletion
  simp only
  split
  · refine ⟨updateFileStatus_mapNames _ _ _, ?_⟩
    simp only [List.map_append, updateFileStatus_reduceNames]
    exact List.prefix_append _ _
  · refine ⟨updateFileStatus_mapNames _ _ _, ?_⟩
    rw [updateFileStatus_reduceNames]

theorem updateWorkerTimeElapsed_names (s : State) :
    (updateWorkerTimeElapsed s).filesToMap.map MRTask.fileName =
      s.filesToMap.map MRTask.fileName ∧
    (updateWorkerTimeElapsed s).filesToReduce.map MRTask.fileName =
      s.filesToReduce.map MRTask.fileName := by
  unfold updateWorkerTimeElapsed
  apply sweepFrom_induction (fun s' =>
    s'.filesToMap.map MRTask.fileName = s.filesToMap.map MRTask.fileName ∧
    s'.filesToReduce.map MRTask.fileName = s.filesToReduce.map MRTask.fileName)
  · intro s' i w h _ _
    exact h
  · intro s' i w h _ _
    simp only [reclaimAt, updateFileStatus_mapNames, updateFileStatus_reduceNames]
    exact h
  · exact ⟨rfl, rfl⟩

/-- C7. No task is ever dropped: whatever the state and the request, a call of
`OnOperationStatusChange` (even one that panics) or of `Done` leaves the
sequence of file names of the map-task table unchanged and keeps the old
sequence of file names of the reduce-task table as a prefix of the new one;
`MakeCoordinator(files, nReduce)` on a fresh process yields one `Unprocessed`
map task per input file, in input order, and an empty reduce-task table. -/
theorem no_task_dropped :
    (∀ (s : State) (request reply : ActiveWorker),
      (OnOperationStatusChange s request reply).1.filesToMap.map MRTask.fileName =
        s.filesToMap.map MRTask.fileName ∧
      s.filesToReduce.map MRTask.fileName <+:
        (OnOperationStatusChange s request reply).1.filesToReduce.map MRTask.fileName) ∧
    (∀ s : State,
      (Done s).1.filesToMap.map MRTask.fileName = s.filesToMap.map MRTask.fileName ∧
      s.filesToReduce.map MRTask.fileName <+:
        (Done s).1.filesToReduce.map MRTask.fileName) ∧
    (∀ (files : List String) (nReduce : Int),
      (MakeCoordinator freshState files nReduce).filesToMap =
        files.map (fun fileName => { status := Unprocessed, fileName := fileName }) ∧
      (MakeCoordinator freshState files nReduce).filesToReduce = []) := by
  refine ⟨?_, ?_, ?_⟩
  · intro s request reply
    unfold OnOperationStatusChange
    split
    · have h := assignTask_names s request
      cases ha : assignTask s request with
      | mk s1 res =>
        rw [ha] at h
        cases res with
        | none => exact ⟨h.1, by rw [h.2]⟩
        | some r => exact ⟨h.1, by rw [h.2]⟩
    · split
      · exact updateFileCompletion_names s request
      · exact ⟨rfl, List.prefix_refl _⟩
  · intro s
    have h := updateWorkerTimeElapsed_names s
    exact ⟨h.1, by rw [Done]; simp only; rw [h.2]⟩
  · intro files nReduce
    simp [MakeCoordinator, freshState]

/-! ## Job completion -/

theorem allCompleted_iff (tbl : List MRTask) :
    allCompleted tbl = true ↔ ∀ task ∈ tbl, task.status = Completed := by
  simp [allCompleted]

theorem Done_result_iff (s : State) :
    (Done s).2 = true ↔
      (∀ task ∈ (Done s).1.filesToMap, task.status = Completed) ∧
      (∀ task ∈ (Done s).1.filesToReduce, task.status = Completed) := by
  simp only [Done, isAllMapTasksDone, isAllReduceTasksDone, Bool.and_eq_true, allCompleted_iff]

/-- C4. `Done()` returns true exactly when every task of the map-task table and
of the reduce-task table is `Completed`, the tables being those of the state
`Done()` leaves behind after its tick-and-reclaim sweep; in particular it
returns true when both tables are empty. -/
theorem Done_true_iff (s : State) :
    (Done s).1 = updateWorkerTimeElapsed s ∧
    ((Done s).2 = true ↔
      (∀ task ∈ (Done s).1.filesToMap, task.status = Completed) ∧
      (∀ task ∈ (Done s).1.filesToReduce, task.status = Completed)) ∧
    (s.filesToMap = [] → s.filesToReduce = [] → (Done s).2 = true) := by
  have hiff := Done_result_iff s
  refine ⟨rfl, hiff, ?_⟩
  intro hm hr
  rw [hiff]
  obtain ⟨h1, h2⟩ := updateWorkerTimeElapsed_names s
  rw [hm] at h1
  rw [hr] at h2
  simp only [List.map_nil, List.map_eq_nil_iff] at h1 h2
  simp [Done, h1, h2]

/-! ## Assignment of a map task -/

theorem incInt_eq (x : Int) (h1 : -2 ^ 63 ≤ x + 1) (h2 : x + 1 < 2 ^ 63) : incInt x = x + 1 := by
  unfold incInt wrapSigned
  have h : (x + 1 + 2 ^ (64 - 1)) % 2 ^ 64 = x + 1 + 2 ^ (64 - 1) := by
    apply Int.emod_eq_of_lt
    · norm_num; omega
    · norm_num; omega
  rw [h]; ring

theorem getUnmappedTaskFrom_index (idx : Nat) (tbl : List MRTask) (i : Nat) (task : MRTask)
    (hi : tbl[i]? = some task) (hU : task.status = Unprocessed)
    (hfirst : ∀ j < i, ∀ t, tbl[j]? = some t → t.status ≠ Unprocessed) :
    getUnmappedTaskFrom idx tbl =
      some (idx + i, { task with status := Processing },
        tbl.set i { task with status := Processing }) := by
  induction tbl generalizing idx i with
  | nil => simp at hi
  | cons head rest ih =>
    cases i with
    | zero =>
      simp only [List.getElem?_cons_zero, Option.some.injEq] at hi
      subst hi
      simp [getUnmappedTaskFrom, hU]
    | succ k =>
      have h0 : head.status ≠ Unprocessed := hfirst 0 (by omega) head (by simp)
      have hk : rest[k]? = some task := by simpa using hi
      have hf : ∀ j < k, ∀ t, rest[j]? = some t → t.status ≠ Unprocessed := by
        intro j hj t ht
        exact hfirst (j + 1) (by omega) t (by simpa using ht)
      unfold getUnmappedTaskFrom
      simp only [h0, if_false, ih (idx + 1) k hk hf, List.set_cons_succ]
      congr 2
      omega

/-- The map branch of `assignTask`, with the machine increment of the
worker-id counter. -/
theorem assignTask_map (s : State) (request : ActiveWorker) (i : Nat) (task : MRTask)
    (hi : s.filesToMap[i]? = some task) (hU : task.status = Unprocessed)
    (hfirst : ∀ j < i, ∀ t, s.filesToMap[j]? = some t → t.status ≠ Unprocessed) :
    assignTask s request =
      ({ s with
          filesToMap := s.filesToMap.set i { task with status := Processing }
          workerId := incInt s.workerId
          workers := s.workers ++ [
            { WorkerId := incInt s.workerId, Status := Processing, OperationType := Map,
              timeElapsed := 0, FileNames := [task.fileName], TaskId := Itoa i,
              NReduce := s.nReduceCount,
              TaskCompletionFileNames := request.TaskCompletionFileNames }] },
        some { request with
          WorkerId := incInt s.workerId, Status := Processing, OperationType := Map,
          timeElapsed := 0, FileNames := [task.fileName], TaskId := Itoa i,
          NReduce := s.nReduceCount }) := by
  have h := getUnmappedTaskFrom_index 0 s.filesToMap i task hi hU hfirst
  unfold assignTask getUnmappedTask
  simp only [h, Nat.zero_add, copyWorkerInstance, zeroWorker]

/-- C9. Phase barrier at assignment: when no map task is `Unprocessed` and
some map task is not `Completed`, an `Idle` request is answered with status
`idle` and the whole job state (map table, reduce table, lease table,
worker-id counter) is left unchanged, whatever the reduce table contains. -/
theorem idle_reply_at_phase_barrier (s : State) (request reply : ActiveWorker)
    (hreq : request.Status = Idle)
    (hnone : ∀ task ∈ s.filesToMap, task.status ≠ Unprocessed)
    (hopen : ∃ task ∈ s.filesToMap, task.status ≠ Completed) :
    (OnOperationStatusChange s request reply).1 = s ∧
    ∃ r, (OnOperationStatusChange s request reply).2 = some r ∧ r.Status = Idle ∧
      r.NReduce = s.nReduceCount := by
  have hu : getUnmappedTask s = none := by
    unfold getUnmappedTask
    rw [(getUnmappedTaskFrom_none 0 s.filesToMap).2 hnone]
  have hd : isAllMapTasksDone s = false := by
    rw [Bool.eq_false_iff]
    intro h
    rw [isAllMapTasksDone, allCompleted_iff] at h
    obtain ⟨t, ht, hne⟩ := hopen
    exact hne (h t ht)
  simp [OnOperationStatusChange, hreq, assignTask, hu, hd, copyWorkerInstance]

/-- Witness for C9 at `barrierState`. -/
theorem idle_reply_at_phase_barrier_witness :
    idleRequest.Status = Idle ∧
    (∀ task ∈ barrierState.filesToMap, task.status ≠ Unprocessed) ∧
    (∃ task ∈ barrierState.filesToMap, task.status ≠ Completed) ∧
    (OnOperationStatusChange barrierState idleRequest zeroWorker).1 = barrierState ∧
    ∃ r, (OnOperationStatusChange barrierState idleRequest zeroWorker).2 = some r ∧
      r.Status = Idle ∧ r.NReduce = barrierState.nReduceCount :=
  ⟨by decide, by decide, by decide,
    idle_reply_at_phase_barrier barrierState idleRequest zeroWorker
      (by decide) (by decide) (by decide)⟩

/-- C8 (amended). Map assignment: when task `i` is the lowest-index
`Unprocessed` map task and the worker-id counter is a 64-bit integer below its
maximum `2^63 - 1`, an `Idle` request is answered with status `processing`,
type `map`, `FileNames = [fileName of task i]`, `TaskId` the decimal rendering
of `i` and `NReduce` the job's `nReduce`; afterwards task `i` is `Processing`,
every other map and reduce task is untouched, the worker-id counter has grown
by one, and exactly one lease (with the reply's `WorkerId`, the same
`FileNames` and tick count 0) has been appended to the lease table. -/
theorem map_assignment (s : State) (request reply : ActiveWorker) (i : Nat) (task : MRTask)
    (hreq : request.Status = Idle)
    (hi : s.filesToMap[i]? = some task) (hU : task.status = Unprocessed)
    (hfirst : ∀ j < i, ∀ t, s.filesToMap[j]? = some t → t.status ≠ Unprocessed)
    (hlo : -2 ^ 63 ≤ s.workerId) (hhi : s.workerId < 2 ^ 63 - 1) :
    ∃ r lease,
      (OnOperationStatusChange s request reply).2 = some r ∧
      r.Status = Processing ∧ r.OperationType = Map ∧ r.FileNames = [task.fileName] ∧
      r.TaskId = Itoa i ∧ r.NReduce = s.nReduceCount ∧ r.WorkerId = s.workerId + 1 ∧
      (OnOperationStatusChange s request reply).1.filesToMap =
        s.filesToMap.set i { task with status := Processing } ∧
      (OnOperationStatusChange s request reply).1.filesToReduce = s.filesToReduce ∧
      (OnOperationStatusChange s request reply).1.workerId = s.workerId + 1 ∧
      (OnOperationStatusChange s request reply).1.nReduceCount = s.nReduceCount ∧
      (OnOperationStatusChange s request reply).1.workers = s.workers ++ [lease] ∧
      lease.WorkerId = r.WorkerId ∧ lease.OperationType = Map ∧
      lease.FileNames = r.FileNames ∧ lease.timeElapsed = 0 := by
  have hinc : incInt s.workerId = s.workerId + 1 := incInt_eq _ (by omega) (by omega)
  have h := assignTask_map s request i task hi hU hfirst
  unfold OnOperationStatusChange
  rw [if_pos hreq, h, hinc]
  exact ⟨_, _, rfl, rfl, rfl, rfl, rfl, rfl, rfl, rfl, rfl, rfl, rfl, rfl, rfl, rfl, rfl, rfl⟩

/-- Witness for C8 (amended): the first request of a fresh two-file job. -/
theorem map_assignment_witness :
    idleRequest.Status = Idle ∧ twoFileJob.filesToMap[0]? = some ⟨Unprocessed, "a.txt"⟩ ∧
    ∃ r lease,
      (OnOperationStatusChange twoFileJob idleRequest zeroWorker).2 = some r ∧
      r.Status = Processing ∧ r.OperationType = Map ∧ r.FileNames = ["a.txt"] ∧
      r.TaskId = Itoa (0 : Nat) ∧ r.NReduce = twoFileJob.nReduceCount ∧
      r.WorkerId = twoFileJob.workerId + 1 ∧
      (OnOperationStatusChange twoFileJob idleRequest zeroWorker).1.filesToMap =
        twoFileJob.filesToMap.set 0 { (⟨Unprocessed, "a.txt"⟩ : MRTask) with
          status := Processing } ∧
      (OnOperationStatusChange twoFileJob idleRequest zeroWorker).1.filesToReduce =
        twoFileJob.filesToReduce ∧
      (OnOperationStatusChange twoFileJob idleRequest zeroWorker).1.workerId =
        twoFileJob.workerId + 1 ∧
      (OnOperationStatusChange twoFileJob idleRequest zeroWorker).1.nReduceCount =
        twoFileJob.nReduceCount ∧
      (OnOperationStatusChange twoFileJob idleRequest zeroWorker).1.workers =
        twoFileJob.workers ++ [lease] ∧
      lease.WorkerId = r.WorkerId ∧ lease.OperationType = Map ∧
      lease.FileNames = r.FileNames ∧ lease.timeElapsed = 0 :=
  ⟨by decide, by decide,
    map_assignment twoFileJob idleRequest zeroWorker 0 ⟨Unprocessed, "a.txt"⟩
      (by decide) (by decide) (by decide) (by intro j hj; omega) (by decide) (by decide)⟩

/-- C8 as stated fails where the counter is the largest 64-bit `int`: a map
task is `Unprocessed`, the request is `Idle`, and after the assignment the
counter is `-2^63`, not the old value plus one. -/
theorem counter_wraps_at_largest_int :
    (∃ task ∈ saturatedJob.filesToMap, task.status = Unprocessed) ∧
    idleRequest.Status = Idle ∧
    (OnOperationStatusChange saturatedJob idleRequest zeroWorker).1.workerId = -2 ^ 63 ∧
    (OnOperationStatusChange saturatedJob idleRequest zeroWorker).1.workerId ≠
      saturatedJob.workerId + 1 := by
  have h := assignTask_map saturatedJob idleRequest 0 ⟨Unprocessed, "a.txt"⟩ (by decide)
    (by decide) (by intro j hj; omega)
  have hw : (OnOperationStatusChange saturatedJob idleRequest zeroWorker).1.workerId =
      -2 ^ 63 := by
    unfold OnOperationStatusChange
    rw [if_pos (by decide), h]
    simp only [saturatedJob, incInt, wrapSigned]
    norm_num
  refine ⟨by decide, by decide, hw, ?_⟩
  rw [hw]
  simp only [saturatedJob]
  norm_num

/-! ## Assignment of a reduce partition -/

theorem firstFileNumber_index (tbl : List MRTask) (k : Nat) (first : MRTask)
    (hk : tbl[k]? = some first) (hU : first.status = Unprocessed)
    (hfirst : ∀ j < k, ∀ t, tbl[j]? = some t → t.status ≠ Unprocessed) :
    firstFileNumber tbl = partitionField first.fileName := by
  induction tbl generalizing k with
  | nil => simp at hk
  | cons head rest ih =>
    cases k with
    | zero =>
      simp only [List.getElem?_cons_zero, Option.some.injEq] at hk
      subst hk
      simp [firstFileNumber, hU]
    | succ n =>
      have h0 : head.status ≠ Unprocessed := hfirst 0 (by omega) head (by simp)
      have hn : rest[n]? = some first := by simpa using hk
      have hf : ∀ j < n, ∀ t, rest[j]? = some t → t.status ≠ Unprocessed := by
        intro j hj t ht
        exact hfirst (j + 1) (by omega) t (by simpa using ht)
      unfold firstFileNumber
      simp only [h0, if_false, ih n hn hf]

/-- The result of `getReduceTasks` when the first `Unprocessed` task has the non-empty
partition field `p` and every file name has a third field. -/
theorem getReduceTasks_partition (s : State) (k : Nat) (first : MRTask) (p : String)
    (hnames : ∀ task ∈ s.filesToReduce, (partitionField task.fileName).isSome)
    (hk : s.filesToReduce[k]? = some first) (hU : first.status = Unprocessed)
    (hfirst : ∀ j < k, ∀ t, s.filesToReduce[j]? = some t → t.status ≠ Unprocessed)
    (hp : partitionField first.fileName = some p) (hne : p ≠ "") :
    getReduceTasks s =
      ({ s with filesToReduce := markedTable p s.filesToReduce },
        some (p, (partitionTasks p s.filesToReduce).map
          (fun task => { task with status := Processing }))) := by
  have h1 : firstFileNumber s.filesToReduce = some p := by
    rw [firstFileNumber_index s.filesToReduce k first hk hU hfirst, hp]
  have h2 := markPartition_no_panic p s.filesToReduce hnames
  obtain ⟨_, h3, h4⟩ := markPartition_ok p s.filesToReduce h2
  unfold getReduceTasks
  simp only [h1, hne, if_false, h2, h3, h4, markedTable, partitionTasks]
  rfl

/-- The reduce branch of `assignTask`, with the machine increment of the
worker-id counter. -/
theorem assignTask_reduce (s : State) (request : ActiveWorker) (k : Nat) (first : MRTask)
    (p : String)
    (hmaps : ∀ task ∈ s.filesToMap, task.status = Completed)
    (hnames : ∀ task ∈ s.filesToReduce, (partitionField task.fileName).isSome)
    (hk : s.filesToReduce[k]? = some first) (hU : first.status = Unprocessed)
    (hfirst : ∀ j < k, ∀ t, s.filesToReduce[j]? = some t → t.status ≠ Unprocessed)
    (hp : partitionField first.fileName = some p) (hne : p ≠ "") :
    assignTask s request =
      ({ s with
          filesToReduce := markedTable p s.filesToReduce
          workerId := incInt s.workerId
          workers := s.workers ++ [
            { request with
              WorkerId := incInt s.workerId, Status := Processing, OperationType := Reduce,
              timeElapsed := 0,
              FileNames := (partitionTasks p s.filesToReduce).map MRTask.fileName,
              TaskId := p, NReduce := s.nReduceCount }] },
        some { request with
          WorkerId := incInt s.workerId, Status := Processing, OperationType := Reduce,
          timeElapsed := 0,
          FileNames := (partitionTasks p s.filesToReduce).map MRTask.fileName,
          TaskId := p, NReduce := s.nReduceCount }) := by
  have hu : getUnmappedTask s = none := by
    unfold getUnmappedTask
    rw [(getUnmappedTaskFrom_none 0 s.filesToMap).2 (fun t ht => by
      rw [hmaps t ht]; decide)]
  have hd : isAllMapTasksDone s = true := by
    rw [isAllMapTasksDone, allCompleted_iff]; exact hmaps
  have hg := getReduceTasks_partition s k first p hnames hk hU hfirst hp hne
  have hmem : first ∈ partitionTasks p s.filesToReduce := by
    simp only [partitionTasks, List.mem_filter, decide_eq_true_eq]
    exact ⟨List.getElem?_mem hk, hp⟩
  have hlen : ((partitionTasks p s.filesToReduce).map
      (fun task => { task with status := Processing })).length > 0 := by
    rw [List.length_map]
    exact List.length_pos_of_mem hmem
  unfold assignTask
  simp only [hu, hd, hg, hlen, List.map_map]
  rfl

/-- C10. Reduce grouping: when all map tasks are `Completed`, every
reduce-task file name has at least three `-`-separated fields with a non-empty
third field, and task `k` is the first `Unprocessed` reduce task, with third
field `p`, an `Idle` request is answered with status `processing`, type
`reduce`, `TaskId = p` and `FileNames` the file names, in table order, of all
reduce tasks whose third field is `p`; afterwards exactly those reduce tasks
have been set to `Processing`, every other task is untouched, and exactly one
lease carrying that `FileNames` list has been appended. -/
theorem reduce_grouping (s : State) (request reply : ActiveWorker) (k : Nat) (first : MRTask)
    (p : String)
    (hreq : request.Status = Idle)
    (hmaps : ∀ task ∈ s.filesToMap, task.status = Completed)
    (hnames : ∀ task ∈ s.filesToReduce, ∃ q, partitionField task.fileName = some q ∧ q ≠ "")
    (hk : s.filesToReduce[k]? = some first) (hU : first.status = Unprocessed)
    (hfirst : ∀ j < k, ∀ t, s.filesToReduce[j]? = some t → t.status ≠ Unprocessed)
    (hp : partitionField first.fileName = some p) :
    ∃ r lease,
      (OnOperationStatusChange s request reply).2 = some r ∧
      r.Status = Processing ∧ r.OperationType = Reduce ∧ r.TaskId = p ∧
      r.FileNames = (s.filesToReduce.filter (fun task =>
        decide (partitionField task.fileName = some p))).map MRTask.fileName ∧
      (OnOperationStatusChange s request reply).1.filesToMap = s.filesToMap ∧
      (OnOperationStatusChange s request reply).1.filesToReduce =
        s.filesToReduce.map (fun task =>
          if partitionField task.fileName = some p then { task with status := Processing }
          else task) ∧
      (OnOperationStatusChange s request reply).1.workers = s.workers ++ [lease] ∧
      lease.FileNames = r.FileNames ∧ lease.OperationType = Reduce ∧
      lease.WorkerId = r.WorkerId ∧ lease.TaskId = p ∧ lease.timeElapsed = 0 := by
  have hsome : ∀ task ∈ s.filesToReduce, (partitionField task.fileName).isSome := by
    intro t ht
    obtain ⟨q, hq, _⟩ := hnames t ht
    simp [hq]
  have hne : p ≠ "" := by
    obtain ⟨q, hq, hq2⟩ := hnames first (List.getElem?_mem hk)
    rw [hp] at hq
    cases hq
    exact hq2
  have h := assignTask_reduce s request k first p hmaps hsome hk hU hfirst hp hne
  unfold OnOperationStatusChange
  rw [if_pos hreq, h]
  exact ⟨_, _, rfl, rfl, rfl, rfl, rfl, rfl, rfl, rfl, rfl, rfl, rfl, rfl, rfl⟩

/-- Witness for C10 at `reducePhaseState`: partition 1 is handed out as one
group of three files. -/
theorem reduce_grouping_witness :
    idleRequest.Status = Idle ∧
    (∀ task ∈ reducePhaseState.filesToMap, task.status = Completed) ∧
    reducePhaseState.filesToReduce[1]? = some ⟨Unprocessed, "mr-0-1"⟩ ∧
    partitionField "mr-0-1" = some "1" ∧
    ∃ r lease,
      (OnOperationStatusChange reducePhaseState idleRequest zeroWorker).2 = some r ∧
      r.Status = Processing ∧ r.OperationType = Reduce ∧ r.TaskId = "1" ∧
      r.FileNames = (reducePhaseState.filesToReduce.filter (fun task =>
        decide (partitionField task.fileName = some "1"))).map MRTask.fileName ∧
      (OnOperationStatusChange reducePhaseState idleRequest zeroWorker).1.filesToMap =
        reducePhaseState.filesToMap ∧
      (OnOperationStatusChange reducePhaseState idleRequest zeroWorker).1.filesToReduce =
        reducePhaseState.filesToReduce.map (fun task =>
          if partitionField task.fileName = some "1" then { task with status := Processing }
          else task) ∧
      (OnOperationStatusChange reducePhaseState idleRequest zeroWorker).1.workers =
        reducePhaseState.workers ++ [lease] ∧
      lease.FileNames = r.FileNames ∧ lease.OperationType = Reduce ∧
      lease.WorkerId = r.WorkerId ∧ lease.TaskId = "1" ∧ lease.timeElapsed = 0 :=
  ⟨by decide, by decide, by decide, by decide,
    reduce_grouping reducePhaseState idleRequest zeroWorker 1 ⟨Unprocessed, "mr-0-1"⟩ "1"
      (by decide) (by decide) (by decide) (by decide) (by decide)
      (by
        intro j hj t ht
        have hj0 : j = 0 := by omega
        subst hj0
        simp only [reducePhaseState, List.getElem?_cons_zero, Option.some.injEq] at ht
        subst ht
        decide)
      (by decide)⟩

/-! ## Partition fields of the file names a map worker reports -/

theorem splitChars_length (sep : Char) (cs : List Char) :
    (splitChars sep cs).length = cs.count sep + 1 := by
  induction cs with
  | nil => rfl
  | cons c rest ih =>
    unfold splitChars
    by_cases hc : c = sep
    · subst hc
      simp [ih]
    · have hcount : (c :: rest).count sep = rest.count sep := by
        rw [List.count_cons]
        simp [hc]
      rw [if_neg hc, hcount]
      cases hr : splitChars sep rest with
      | nil => rw [hr] at ih; simp at ih
      | cons p ps => rw [hr] at ih; simpa using ih

theorem partitionField_isSome_iff (name : String) :
    (partitionField name).isSome = true ↔ 2 ≤ name.data.count '-' := by
  unfold partitionField SplitDash
  rw [Option.isSome_iff_exists]
  constructor
  · rintro ⟨a, ha⟩
    have hlt := (List.getElem?_eq_some_iff.1 ha).1
    rw [List.length_map, splitChars_length] at hlt
    omega
  · intro h
    have hlt : 2 < ((splitChars '-' name.data).map String.mk).length := by
      rw [List.length_map, splitChars_length]; omega
    exact ⟨_, List.getElem?_eq_getElem hlt⟩

theorem mapOutputNames_partitionField (taskId : String) (nReduce : Int) (name : String)
    (h : name ∈ mapOutputNames taskId nReduce) : (partitionField name).isSome = true := by
  unfold mapOutputNames at h
  obtain ⟨id, _, rfl⟩ := List.mem_map.1 h
  rw [partitionField_isSome_iff]
  have h1 : ("mr-" ++ taskId ++ "-" ++ Itoa id).data =
      ['m', 'r', '-'] ++ taskId.data ++ ['-'] ++ (Itoa id).data := by
    simp only [String.data_append]
  rw [h1]
  simp only [List.count_append]
  have : List.count '-' ['m', 'r', '-'] = 1 := by decide
  have : List.count '-' ['-'] = 1 := by decide
  omega

/-! ## The coordinator invariant -/

theorem unprocessed_ne_processing : Unprocessed ≠ Processing := by decide
theorem completed_ne_processing : Completed ≠ Processing := by decide
theorem unprocessed_ne_completed : Unprocessed ≠ Completed := by decide
theorem map_ne_reduce : Map ≠ Reduce := by decide

theorem keyRefs_iff (kind : OperationType) (n : String) (k : LeaseKey) :
    keyRefs kind n k = true ↔ k.kind = kind ∧ n ∈ k.names := by
  simp [keyRefs]

theorem countP_keyRefs_pos (ks : List LeaseKey) (k : LeaseKey) (kind : OperationType)
    (n : String) (hk : k ∈ ks) (hkind : k.kind = kind) (hn : n ∈ k.names) :
    0 < ks.countP (keyRefs kind n) :=
  List.countP_pos_iff.2 ⟨k, hk, (keyRefs_iff kind n k).2 ⟨hkind, hn⟩⟩

/-- A task referenced by a lease is `Processing` (map table). -/
theorem InvCore.map_processing {m r : List MRTask} {ks : List LeaseKey} {wid : Int}
    (h : InvCore m r ks wid) (t : MRTask) (ht : t ∈ m) (k : LeaseKey) (hk : k ∈ ks)
    (hkind : k.kind = Map) (hn : t.fileName ∈ k.names) : t.status = Processing := by
  have h1 := h.mapCount t ht
  have h2 := countP_keyRefs_pos ks k Map t.fileName hk hkind hn
  by_contra hne
  rw [if_neg hne] at h1
  omega

/-- A task referenced by a lease is `Processing` (reduce table). -/
theorem InvCore.red_processing {m r : List MRTask} {ks : List LeaseKey} {wid : Int}
    (h : InvCore m r ks wid) (t : MRTask) (ht : t ∈ r) (k : LeaseKey) (hk : k ∈ ks)
    (hkind : k.kind = Reduce) (hn : t.fileName ∈ k.names) : t.status = Processing := by
  have h1 := h.redCount t ht
  have h2 := countP_keyRefs_pos ks k Reduce t.fileName hk hkind hn
  by_contra hne
  rw [if_neg hne] at h1
  omega

/-- While a map lease is outstanding no reduce lease exists. -/
theorem InvCore.no_reduce_lease {m r : List MRTask} {ks : List LeaseKey} {wid : Int}
    (h : InvCore m r ks wid) (k : LeaseKey) (hk : k ∈ ks) (hkind : k.kind = Map) :
    (∀ t ∈ r, t.status = Unprocessed) ∧ ∀ k2 ∈ ks, k2.kind ≠ Reduce := by
  obtain ⟨n, hn, hnk⟩ := h.mapLive k hk hkind
  obtain ⟨t, ht, rfl⟩ := List.mem_map.1 hn
  have hP := h.map_processing t ht k hk hkind hnk
  have hU : ∀ t ∈ r, t.status = Unprocessed :=
    h.barrier ⟨t, ht, by rw [hP]; exact fun e => completed_ne_processing e.symm⟩
  refine ⟨hU, ?_⟩
  intro k2 hk2 hkind2
  obtain ⟨n2, hn2, hnk2⟩ := h.redLive k2 hk2 hkind2
  obtain ⟨t2, ht2, rfl⟩ := List.mem_map.1 hn2
  have := h.red_processing t2 ht2 k2 hk2 hkind2 hnk2
  rw [hU t2 ht2] at this
  exact unprocessed_ne_processing this

/-- While a reduce lease is outstanding every map task is `Completed`. -/
theorem InvCore.maps_done {m r : List MRTask} {ks : List LeaseKey} {wid : Int}
    (h : InvCore m r ks wid) (k : LeaseKey) (hk : k ∈ ks) (hkind : k.kind = Reduce) :
    ∀ t ∈ m, t.status = Completed := by
  obtain ⟨n, hn, hnk⟩ := h.redLive k hk hkind
  obtain ⟨t, ht, rfl⟩ := List.mem_map.1 hn
  have hP := h.red_processing t ht k hk hkind hnk
  intro t2 ht2
  by_contra hne
  have := h.barrier ⟨t2, ht2, hne⟩ t ht
  rw [hP] at this
  exact unprocessed_ne_processing this.symm

theorem InvCore.init (files : List String) (hnd : files.Nodup) :
    InvCore (files.map (fun fileName => ({ status := Unprocessed, fileName := fileName } : MRTask)))
      [] [] 0 where
  mapNodup := by simpa [List.map_map, Function.comp_def] using hnd
  widNonneg := le_refl _
  idBound := by simp
  idsNodup := by simp
  kinds := by simp
  mapCount := by
    intro t ht
    obtain ⟨f, _, rfl⟩ := List.mem_map.1 ht
    simp [unprocessed_ne_processing]
  redCount := by simp
  mapLive := by simp
  redLive := by simp
  redClosed := by simp
  uniform := by simp
  barrier := by simp
  redFields := by simp

theorem map_fileName_replace (m : List MRTask) (t t' : MRTask) (h : t'.fileName = t.fileName) :
    (m.map (fun x => if x.fileName = t.fileName then t' else x)).map MRTask.fileName =
      m.map MRTask.fileName := by
  rw [List.map_map]
  apply List.map_congr_left
  intro x _
  by_cases hx : x.fileName = t.fileName <;> simp [hx, h]

/-- The invariant survives the assignment of an `Unprocessed` map task. -/
theorem InvCore.assignMap {m r : List MRTask} {ks : List LeaseKey} {wid : Int}
    (h : InvCore m r ks wid) (t : MRTask) (ht : t ∈ m) (hU : t.status = Unprocessed) :
    InvCore (m.map (fun x => if x.fileName = t.fileName then { t with status := Processing } else x))
      r (ks ++ [{ id := wid + 1, kind := Map, names := [t.fileName] }]) (wid + 1) where
  mapNodup := by
    rw [map_fileName_replace m t { t with status := Processing } rfl]; exact h.mapNodup
  widNonneg := by have := h.widNonneg; omega
  idBound := by
    intro k hk
    rcases List.mem_append.1 hk with hk | hk
    · have := h.idBound k hk; omega
    · rw [List.mem_singleton] at hk; subst hk; simp
  idsNodup := by
    rw [List.map_append, List.nodup_append]
    refine ⟨h.idsNodup, by simp, ?_⟩
    intro a ha hb
    simp only [List.map_cons, List.map_nil, List.mem_singleton] at hb
    obtain ⟨k, hk, rfl⟩ := List.mem_map.1 ha
    have := h.idBound k hk
    omega
  kinds := by
    intro k hk
    rcases List.mem_append.1 hk with hk | hk
    · exact h.kinds k hk
    · rw [List.mem_singleton] at hk; subst hk; exact Or.inl rfl
  mapCount := by
    intro t' ht'
    obtain ⟨x, hx, rfl⟩ := List.mem_map.1 ht'
    rw [List.countP_append, List.countP_singleton]
    by_cases hn : x.fileName = t.fileName
    · have h0 := h.mapCount t ht
      rw [hU, if_neg unprocessed_ne_processing] at h0
      simp [hn, h0, keyRefs]
    · have h0 := h.mapCount x hx
      simp [hn, h0, keyRefs]
  redCount := by
    intro t' ht'
    rw [List.countP_append, List.countP_singleton]
    have h0 := h.redCount t' ht'
    simp [h0, keyRefs, map_ne_reduce]
  mapLive := by
    intro k hk hkind
    rw [map_fileName_replace m t { t with status := Processing } rfl]
    rcases List.mem_append.1 hk with hk | hk
    · exact h.mapLive k hk hkind
    · rw [List.mem_singleton] at hk; subst hk
      exact ⟨t.fileName, List.mem_map_of_mem _ ht, by simp⟩
  redLive := by
    intro k hk hkind
    rcases List.mem_append.1 hk with hk | hk
    · exact h.redLive k hk hkind
    · rw [List.mem_singleton] at hk; subst hk
      exact absurd hkind map_ne_reduce
  redClosed := by
    intro k hk hkind
    rcases List.mem_append.1 hk with hk | hk
    · exact h.redClosed k hk hkind
    · rw [List.mem_singleton] at hk; subst hk
      exact absurd hkind map_ne_reduce
  uniform := h.uniform
  barrier := by
    intro _
    exact h.barrier ⟨t, ht, by rw [hU]; exact unprocessed_ne_completed⟩
  redFields := h.redFields

theorem ite_status_fileName (c : Prop) [Decidable c] (x : MRTask) (st : OperationStatus) :
    (if c then { x with status := st } else x).fileName = x.fileName := by
  split <;> rfl

theorem markedTable_names (p : String) (r : List MRTask) :
    (markedTable p r).map MRTask.fileName = r.map MRTask.fileName := by
  unfold markedTable
  rw [List.map_map]
  apply List.map_congr_left
  intro x _
  by_cases hx : partitionField x.fileName = some p <;> simp [hx]

theorem mem_partitionTasks_names (p : String) (r : List MRTask) (n : String)
    (hn : n ∈ r.map MRTask.fileName) :
    n ∈ (partitionTasks p r).map MRTask.fileName ↔ partitionField n = some p := by
  constructor
  · intro h
    obtain ⟨y, hy, rfl⟩ := List.mem_map.1 h
    simp only [partitionTasks, List.mem_filter, decide_eq_true_eq] at hy
    exact hy.2
  · intro h
    obtain ⟨x, hx, rfl⟩ := List.mem_map.1 hn
    apply List.mem_map_of_mem
    simp only [partitionTasks, List.mem_filter, decide_eq_true_eq]
    exact ⟨hx, h⟩

/-- The invariant survives the assignment of a reduce partition. -/
theorem InvCore.assignReduce {m r : List MRTask} {ks : List LeaseKey} {wid : Int}
    (h : InvCore m r ks wid) (hm : ∀ t ∈ m, t.status = Completed)
    (first : MRTask) (hf : first ∈ r) (hU : first.status = Unprocessed) (p : String)
    (hp : partitionField first.fileName = some p) :
    InvCore m (markedTable p r)
      (ks ++ [{ id := wid + 1, kind := Reduce,
                names := (partitionTasks p r).map MRTask.fileName }]) (wid + 1) where
  mapNodup := h.mapNodup
  widNonneg := by have := h.widNonneg; omega
  idBound := by
    intro k hk
    rcases List.mem_append.1 hk with hk | hk
    · have := h.idBound k hk; omega
    · rw [List.mem_singleton] at hk; subst hk; simp
  idsNodup := by
    rw [List.map_append, List.nodup_append]
    refine ⟨h.idsNodup, by simp, ?_⟩
    intro a ha hb
    simp only [List.map_cons, List.map_nil, List.mem_singleton] at hb
    obtain ⟨k, hk, rfl⟩ := List.mem_map.1 ha
    have := h.idBound k hk
    omega
  kinds := by
    intro k hk
    rcases List.mem_append.1 hk with hk | hk
    · exact h.kinds k hk
    · rw [List.mem_singleton] at hk; subst hk; exact Or.inr rfl
  mapCount := by
    intro t' ht'
    rw [List.countP_append, List.countP_singleton]
    have h0 := h.mapCount t' ht'
    simp [h0, keyRefs, map_ne_reduce.symm]
  redCount := by
    intro t' ht'
    obtain ⟨x, hx, rfl⟩ := List.mem_map.1 ht'
    rw [List.countP_append, List.countP_singleton]
    have hmem := mem_partitionTasks_names p r x.fileName (List.mem_map_of_mem _ hx)
    by_cases hq : partitionField x.fileName = some p
    · have hxU : x.status = Unprocessed := by
        rw [h.uniform x hx first hf (by rw [hq, hp]), hU]
      have h0 := h.redCount x hx
      rw [hxU, if_neg unprocessed_ne_processing] at h0
      simp [hq, h0, keyRefs, hmem]
    · have h0 := h.redCount x hx
      simp only [hq, if_false, h0, keyRefs, decide_True, Bool.true_and, hmem, decide_False]
      simp
  mapLive := by
    intro k hk hkind
    rcases List.mem_append.1 hk with hk | hk
    · exact h.mapLive k hk hkind
    · rw [List.mem_singleton] at hk; subst hk
      exact absurd hkind.symm map_ne_reduce
  redLive := by
    intro k hk hkind
    rw [markedTable_names]
    rcases List.mem_append.1 hk with hk | hk
    · exact h.redLive k hk hkind
    · rw [List.mem_singleton] at hk; subst hk
      have hn : first.fileName ∈ r.map MRTask.fileName := List.mem_map_of_mem _ hf
      exact ⟨first.fileName, hn, (mem_partitionTasks_names p r _ hn).2 hp⟩
  redClosed := by
    intro k hk hkind
    rw [markedTable_names]
    rcases List.mem_append.1 hk with hk | hk
    · exact h.redClosed k hk hkind
    · rw [List.mem_singleton] at hk; subst hk
      exact ⟨p, fun n hn => mem_partitionTasks_names p r n hn⟩
  uniform := by
    intro t1 ht1 t2 ht2 e
    obtain ⟨x1, hx1, rfl⟩ := List.mem_map.1 ht1
    obtain ⟨x2, hx2, rfl⟩ := List.mem_map.1 ht2
    have e' : partitionField x1.fileName = partitionField x2.fileName := by
      rw [ite_status_fileName, ite_status_fileName] at e
      exact e
    by_cases h1 : partitionField x1.fileName = some p
    · have h2 : partitionField x2.fileName = some p := by rw [← e', h1]
      simp [h1, h2]
    · have h2 : ¬ partitionField x2.fileName = some p := by rw [← e']; exact h1
      simp only [h1, h2, if_false]
      exact h.uniform x1 hx1 x2 hx2 e'
  barrier := by
    rintro ⟨t, ht, hne⟩
    exact absurd (hm t ht) hne
  redFields := by
    intro t' ht'
    obtain ⟨x, hx, rfl⟩ := List.mem_map.1 ht'
    rw [ite_status_fileName]
    exact h.redFields x hx

theorem relabel_names (st : OperationStatus) (names : List String) (tbl : List MRTask) :
    (relabel st names tbl).map MRTask.fileName = tbl.map MRTask.fileName :=
  map_fileName_relabel tbl names st

theorem mem_relabel (st : OperationStatus) (names : List String) (tbl : List MRTask)
    (t : MRTask) (h : t ∈ relabel st names tbl) :
    ∃ x ∈ tbl, t = if x.fileName ∈ names then { x with status := st } else x := by
  obtain ⟨x, hx, rfl⟩ := List.mem_map.1 h
  exact ⟨x, hx, rfl⟩

theorem countP_removed {α : Type} (f : α → Bool) (pre post ks' : List α) (k : α)
    (hks : ks'.Perm (pre ++ post)) :
    ks'.countP f + (if f k then 1 else 0) = (pre ++ k :: post).countP f := by
  rw [hks.countP_eq, List.countP_append, List.countP_append, List.countP_cons]
  omega

theorem mem_of_removed {α : Type} (pre post ks' : List α) (k : α)
    (hks : ks'.Perm (pre ++ post)) (x : α) (hx : x ∈ ks') : x ∈ pre ++ k :: post := by
  have := hks.mem_iff.1 hx
  rcases List.mem_append.1 this with h | h
  · exact List.mem_append_left _ h
  · exact List.mem_append_right _ (List.mem_cons_of_mem _ h)

theorem ids_nodup_removed (pre post ks' : List LeaseKey) (k : LeaseKey)
    (hks : ks'.Perm (pre ++ post)) (h : ((pre ++ k :: post).map LeaseKey.id).Nodup) :
    (ks'.map LeaseKey.id).Nodup := by
  rw [(hks.map LeaseKey.id).nodup_iff]
  refine List.Nodup.sublist ?_ h
  apply List.Sublist.map
  exact List.Sublist.append (List.Sublist.refl _) (List.sublist_cons_self _ _)

/-- The invariant survives the release (commit or reclaim) of a map lease;
`extra` are the reduce tasks appended by a commit. -/
theorem InvCore.releaseMap {m r : List MRTask} {pre post : List LeaseKey} {k : LeaseKey}
    {wid : Int} (h : InvCore m r (pre ++ k :: post) wid) (hkind : k.kind = Map)
    (st : OperationStatus) (hst : st ≠ Processing) (ks' : List LeaseKey)
    (hks : ks'.Perm (pre ++ post)) (extra : List MRTask)
    (hextra : ∀ t ∈ extra, t.status = Unprocessed)
    (hfields : ∀ t ∈ extra, (partitionField t.fileName).isSome = true) :
    InvCore (relabel st k.names m) (r ++ extra) ks' wid := by
  have hkmem : k ∈ pre ++ k :: post := by simp
  obtain ⟨hU, hnoRed⟩ := h.no_reduce_lease k hkmem hkind
  have hsub := mem_of_removed pre post ks' k hks
  have hU' : ∀ t ∈ r ++ extra, t.status = Unprocessed := by
    intro t ht
    rcases List.mem_append.1 ht with ht | ht
    · exact hU t ht
    · exact hextra t ht
  have hnoRed' : ∀ k2 ∈ ks', k2.kind ≠ Reduce := fun k2 hk2 => hnoRed k2 (hsub k2 hk2)
  exact
  { mapNodup := by rw [relabel_names]; exact h.mapNodup
    widNonneg := h.widNonneg
    idBound := fun k2 hk2 => h.idBound k2 (hsub k2 hk2)
    idsNodup := ids_nodup_removed pre post ks' k hks h.idsNodup
    kinds := fun k2 hk2 => h.kinds k2 (hsub k2 hk2)
    mapCount := by
      intro t' ht'
      obtain ⟨x, hx, rfl⟩ := mem_relabel st k.names m t' ht'
      have hc := countP_removed (keyRefs Map x.fileName) pre post ks' k hks
      have h0 := h.mapCount x hx
      rw [ite_status_fileName]
      by_cases hn : x.fileName ∈ k.names
      · have hr : keyRefs Map x.fileName k = true := (keyRefs_iff _ _ _).2 ⟨hkind, hn⟩
        rw [hr, if_pos rfl, h0] at hc
        rw [if_pos hn, if_neg hst]
        split at hc <;> omega
      · have hr : keyRefs Map x.fileName k = false := by
          rw [Bool.eq_false_iff]; intro e; exact hn ((keyRefs_iff _ _ _).1 e).2
        rw [hr] at hc
        rw [if_neg hn, ← h0, ← hc]; simp
    redCount := by
      intro t ht
      rw [hU' t ht, if_neg unprocessed_ne_processing, List.countP_eq_zero]
      intro k2 hk2 e
      exact hnoRed' k2 hk2 ((keyRefs_iff _ _ _).1 e).1
    mapLive := by
      intro k2 hk2 hkind2
      rw [relabel_names]
      exact h.mapLive k2 (hsub k2 hk2) hkind2
    redLive := fun k2 hk2 hkind2 => absurd hkind2 (hnoRed' k2 hk2)
    redClosed := fun k2 hk2 hkind2 => absurd hkind2 (hnoRed' k2 hk2)
    uniform := by
      intro t1 ht1 t2 ht2 _
      rw [hU' t1 ht1, hU' t2 ht2]
    barrier := fun _ => hU'
    redFields := by
      intro t ht
      rcases List.mem_append.1 ht with ht | ht
      · exact h.redFields t ht
      · exact hfields t ht }

/-- The invariant survives the release (commit or reclaim) of a reduce lease. -/
theorem InvCore.releaseReduce {m r : List MRTask} {pre post : List LeaseKey} {k : LeaseKey}
    {wid : Int} (h : InvCore m r (pre ++ k :: post) wid) (hkind : k.kind = Reduce)
    (st : OperationStatus) (hst : st ≠ Processing) (ks' : List LeaseKey)
    (hks : ks'.Perm (pre ++ post)) :
    InvCore m (relabel st k.names r) ks' wid := by
  have hkmem : k ∈ pre ++ k :: post := by simp
  have hdone := h.maps_done k hkmem hkind
  have hsub := mem_of_removed pre post ks' k hks
  exact
  { mapNodup := h.mapNodup
    widNonneg := h.widNonneg
    idBound := fun k2 hk2 => h.idBound k2 (hsub k2 hk2)
    idsNodup := ids_nodup_removed pre post ks' k hks h.idsNodup
    kinds := fun k2 hk2 => h.kinds k2 (hsub k2 hk2)
    mapCount := by
      intro t ht
      have hc := countP_removed (keyRefs Map t.fileName) pre post ks' k hks
      have hr : keyRefs Map t.fileName k = false := by
        rw [Bool.eq_false_iff]; intro e
        have := ((keyRefs_iff _ _ _).1 e).1
        rw [hkind] at this
        exact map_ne_reduce this.symm
      rw [hr] at hc
      rw [← h.mapCount t ht, ← hc]; simp
    redCount := by
      intro t' ht'
      obtain ⟨x, hx, rfl⟩ := mem_relabel st k.names r t' ht'
      have hc := countP_removed (keyRefs Reduce x.fileName) pre post ks' k hks
      have h0 := h.redCount x hx
      rw [ite_status_fileName]
      by_cases hn : x.fileName ∈ k.names
      · have hr : keyRefs Reduce x.fileName k = true := (keyRefs_iff _ _ _).2 ⟨hkind, hn⟩
        rw [hr, if_pos rfl, h0] at hc
        rw [if_pos hn, if_neg hst]
        split at hc <;> omega
      · have hr : keyRefs Reduce x.fileName k = false := by
          rw [Bool.eq_false_iff]; intro e; exact hn ((keyRefs_iff _ _ _).1 e).2
        rw [hr] at hc
        rw [if_neg hn, ← h0, ← hc]; simp
    mapLive := fun k2 hk2 hkind2 => h.mapLive k2 (hsub k2 hk2) hkind2
    redLive := by
      intro k2 hk2 hkind2
      rw [relabel_names]
      exact h.redLive k2 (hsub k2 hk2) hkind2
    redClosed := by
      intro k2 hk2 hkind2
      rw [relabel_names]
      exact h.redClosed k2 (hsub k2 hk2) hkind2
    uniform := by
      intro t1 ht1 t2 ht2 e
      obtain ⟨x1, hx1, rfl⟩ := mem_relabel st k.names r t1 ht1
      obtain ⟨x2, hx2, rfl⟩ := mem_relabel st k.names r t2 ht2
      rw [ite_status_fileName, ite_status_fileName] at e
      obtain ⟨p, hp⟩ := h.redClosed k hkmem hkind
      have h1 := hp x1.fileName (List.mem_map_of_mem _ hx1)
      have h2 := hp x2.fileName (List.mem_map_of_mem _ hx2)
      have hiff : x1.fileName ∈ k.names ↔ x2.fileName ∈ k.names := by
        rw [h1, h2, e]
      by_cases hn : x1.fileName ∈ k.names
      · simp [hn, hiff.1 hn]
      · have hn2 : x2.fileName ∉ k.names := fun e2 => hn (hiff.2 e2)
        simp only [hn, hn2, if_false]
        exact h.uniform x1 hx1 x2 hx2 e
    barrier := by
      rintro ⟨t, ht, hne⟩
      exact absurd (hdone t ht) hne
    redFields := by
      intro t' ht'
      obtain ⟨x, hx, rfl⟩ := mem_relabel st k.names r t' ht'
      rw [ite_status_fileName]
      exact h.redFields x hx }

/-! ## List facts used to connect the code to the invariant -/

theorem split_at_index {α : Type} (l : List α) (i : Nat) (a : α) (h : l[i]? = some a) :
    ∃ pre post, l = pre ++ a :: post ∧ pre.length = i := by
  induction l generalizing i with
  | nil => simp at h
  | cons x xs ih =>
    cases i with
    | zero =>
      simp only [List.getElem?_cons_zero, Option.some.injEq] at h
      exact ⟨[], xs, by simp [h], rfl⟩
    | succ n =>
      obtain ⟨pre, post, e, hl⟩ := ih n (by simpa using h)
      exact ⟨x :: pre, post, by simp [e], by simp [hl]⟩

theorem first_unprocessed_cases (tbl : List MRTask) :
    (∀ t ∈ tbl, t.status ≠ Unprocessed) ∨
    ∃ (i : Nat) (task : MRTask), tbl[i]? = some task ∧ task.status = Unprocessed ∧
      ∀ j < i, ∀ t : MRTask, tbl[j]? = some t → t.status ≠ Unprocessed := by
  induction tbl with
  | nil => left; simp
  | cons x xs ih =>
    by_cases hx : x.status = Unprocessed
    · right
      exact ⟨0, x, by simp, hx, by intro j hj; omega⟩
    · rcases ih with h | ⟨i, task, h1, h2, h3⟩
      · left
        intro t ht
        rcases List.mem_cons.1 ht with rfl | ht
        · exact hx
        · exact h t ht
      · right
        refine ⟨i + 1, task, by simpa using h1, h2, ?_⟩
        intro j hj t ht
        cases j with
        | zero =>
          simp only [List.getElem?_cons_zero, Option.some.injEq] at ht
          subst ht; exact hx
        | succ n => exact h3 n (by omega) t (by simpa using ht)

theorem set_eq_map_of_nodup (m : List MRTask) (i : Nat) (t t' : MRTask)
    (hnd : (m.map MRTask.fileName).Nodup) (hi : m[i]? = some t) :
    m.set i t' = m.map (fun x => if x.fileName = t.fileName then t' else x) := by
  induction m generalizing i with
  | nil => simp
  | cons x xs ih =>
    rw [List.map_cons, List.nodup_cons] at hnd
    cases i with
    | zero =>
      simp only [List.getElem?_cons_zero, Option.some.injEq] at hi
      subst hi
      simp only [List.set_cons_zero, List.map_cons, if_true, List.cons.injEq, true_and]
      symm
      conv_rhs => rw [← List.map_id xs]
      apply List.map_congr_left
      intro y hy
      have : y.fileName ≠ x.fileName := by
        intro e
        exact hnd.1 (e ▸ List.mem_map_of_mem _ hy)
      simp [this]
    | succ n =>
      have hn : xs[n]? = some t := by simpa using hi
      have hx : x.fileName ≠ t.fileName := by
        intro e
        exact hnd.1 (e ▸ List.mem_map_of_mem _ (List.getElem?_mem hn))
      simp only [List.set_cons_succ, List.map_cons, hx, if_false, ih n hnd.2 hn]

theorem removeElementAtIndex_perm (pre post : List ActiveWorker) (w : ActiveWorker) :
    (removeElementAtIndex (pre ++ w :: post) pre.length).Perm (pre ++ post) := by
  unfold removeElementAtIndex
  rcases List.eq_nil_or_concat post with rfl | ⟨post', l, hpost⟩
  · simp
  · rw [List.concat_eq_append] at hpost
    subst hpost
    have hlast : (pre ++ w :: (post' ++ [l])).getLast? = some l := by
      rw [show pre ++ w :: (post' ++ [l]) = (pre ++ w :: post') ++ [l] by simp]
      exact List.getLast?_concat _
    rw [hlast]
    simp only
    have hset : (pre ++ w :: (post' ++ [l])).set pre.length l = (pre ++ l :: post') ++ [l] := by
      rw [List.set_append_right _ _ (le_refl _)]
      simp
    rw [hset, List.dropLast_concat]
    rw [← List.append_assoc]
    exact List.perm_middle.trans (List.perm_append_singleton _ _).symm

theorem removeWorkerFrom_found (ws : List ActiveWorker) (wid : Int) (idx : Nat)
    (pre post : List ActiveWorker) (w : ActiveWorker)
    (hpre : ∀ x ∈ pre, x.WorkerId ≠ wid) (hw : w.WorkerId = wid) :
    removeWorkerFrom ws wid idx (pre ++ w :: post) =
      removeElementAtIndex ws (idx + pre.length) := by
  induction pre generalizing idx with
  | nil => simp [removeWorkerFrom, hw]
  | cons x xs ih =>
    have hx : x.WorkerId ≠ wid := hpre x (List.mem_cons_self _ _)
    show removeWorkerFrom ws wid idx (x :: (xs ++ w :: post)) = _
    rw [removeWorkerFrom, if_neg hx,
      ih (idx + 1) (fun y hy => hpre y (List.mem_cons_of_mem _ hy))]
    congr 1
    simp only [List.length_cons]; omega

theorem removeWorkerFrom_absent (ws : List ActiveWorker) (wid : Int) (idx : Nat)
    (rest : List ActiveWorker) (h : ∀ x ∈ rest, x.WorkerId ≠ wid) :
    removeWorkerFrom ws wid idx rest = ws := by
  induction rest generalizing idx with
  | nil => rfl
  | cons x xs ih =>
    have hx : x.WorkerId ≠ wid := h x (List.mem_cons_self _ _)
    simp only [removeWorkerFrom, hx, if_false]
    exact ih (idx + 1) (fun y hy => h y (List.mem_cons_of_mem _ hy))

theorem map_leaseKey_set (ws : List ActiveWorker) (i : Nat) (w w' : ActiveWorker)
    (hi : ws[i]? = some w) (hk : leaseKey w' = leaseKey w) :
    (ws.set i w').map leaseKey = ws.map leaseKey := by
  obtain ⟨pre, post, rfl, hl⟩ := split_at_index ws i w hi
  subst hl
  rw [List.set_append_right _ _ (le_refl _)]
  simp [hk]

/-! ## What each call does to the state -/

theorem getUnmappedTask_none (s : State) (h : ∀ t ∈ s.filesToMap, t.status ≠ Unprocessed) :
    getUnmappedTask s = none := by
  unfold getUnmappedTask
  rw [(getUnmappedTaskFrom_none 0 s.filesToMap).2 h]

theorem firstFileNumber_none (tbl : List MRTask) (h : ∀ t ∈ tbl, t.status ≠ Unprocessed) :
    firstFileNumber tbl = some "" := by
  induction tbl with
  | nil => rfl
  | cons x xs ih =>
    have hx := h x (List.mem_cons_self _ _)
    simp only [firstFileNumber, hx, if_false]
    exact ih (fun t ht => h t (List.mem_cons_of_mem _ ht))

/-- The three outcomes of a call of `assignTask` that does not panic: a map
task is assigned, nothing is assigned, or a reduce partition is assigned. -/
theorem assignTask_cases (s : State) (request : ActiveWorker) (s' : State) (r : ActiveWorker)
    (h : assignTask s request = (s', some r)) :
    (∃ (i : Nat) (task : MRTask) (lease : ActiveWorker),
      s.filesToMap[i]? = some task ∧ task.status = Unprocessed ∧
      (∀ j < i, ∀ t : MRTask, s.filesToMap[j]? = some t → t.status ≠ Unprocessed) ∧
      s'.filesToMap = s.filesToMap.set i { task with status := Processing } ∧
      s'.filesToReduce = s.filesToReduce ∧ s'.workerId = incInt s.workerId ∧
      s'.workers = s.workers ++ [lease] ∧
      leaseKey lease = { id := incInt s.workerId, kind := Map, names := [task.fileName] } ∧
      r.Status = Processing) ∨
    (s' = s ∧ r.Status = Idle) ∨
    (∃ (k : Nat) (first : MRTask) (p : String) (lease : ActiveWorker),
      (∀ t ∈ s.filesToMap, t.status = Completed) ∧
      s.filesToReduce[k]? = some first ∧ first.status = Unprocessed ∧
      (∀ j < k, ∀ t : MRTask, s.filesToReduce[j]? = some t → t.status ≠ Unprocessed) ∧
      partitionField first.fileName = some p ∧
      s'.filesToMap = s.filesToMap ∧
      s'.filesToReduce = markedTable p s.filesToReduce ∧ s'.workerId = incInt s.workerId ∧
      s'.workers = s.workers ++ [lease] ∧
      leaseKey lease = { id := incInt s.workerId, kind := Reduce,
                         names := (partitionTasks p s.filesToReduce).map MRTask.fileName } ∧
      r.Status = Processing) := by
  rcases first_unprocessed_cases s.filesToMap with hnone | ⟨i, task, hi, hU, hfirst⟩
  · have hu := getUnmappedTask_none s hnone
    by_cases hd : isAllMapTasksDone s = true
    · have hmaps : ∀ t ∈ s.filesToMap, t.status = Completed := by
        rw [isAllMapTasksDone, allCompleted_iff] at hd; exact hd
      rcases first_unprocessed_cases s.filesToReduce with hrnone | ⟨k, first, hk, hrU, hrfirst⟩
      · have hg : getReduceTasks s = (s, some ("", [])) := by
          simp [getReduceTasks, firstFileNumber_none _ hrnone]
        right; left
        simp only [assignTask, hu, hd, hg] at h
        simp only [Bool.not_true, Bool.false_eq_true, if_false, List.length_nil, gt_iff_lt,
          lt_self_iff_false, Prod.mk.injEq, Option.some.injEq] at h
        obtain ⟨h1, h2⟩ := h
        exact ⟨h1.symm, by rw [← h2]⟩
      · have hff := firstFileNumber_index s.filesToReduce k first hk hrU hrfirst
        cases hp : partitionField first.fileName with
        | none =>
          have hg : getReduceTasks s = (s, none) := by
            simp [getReduceTasks, hff, hp]
          simp [assignTask, hu, hd, hg] at h
        | some p =>
          by_cases hpe : p = ""
          · have hg : getReduceTasks s = (s, some ("", [])) := by
              simp [getReduceTasks, hff, hp, hpe]
            right; left
            simp only [assignTask, hu, hd, hg] at h
            simp only [Bool.not_true, Bool.false_eq_true, if_false, List.length_nil, gt_iff_lt,
              lt_self_iff_false, Prod.mk.injEq, Option.some.injEq] at h
            obtain ⟨h1, h2⟩ := h
            exact ⟨h1.symm, by rw [← h2]⟩
          · by_cases hpanic : (markPartition p s.filesToReduce).2.2 = true
            · have hg : (getReduceTasks s).2 = none := by
                simp [getReduceTasks, hff, hp, hpe, hpanic]
              exfalso
              cases hgs : getReduceTasks s with
              | mk s1 res =>
                rw [hgs] at hg
                simp only at hg
                subst hg
                simp [assignTask, hu, hd, hgs] at h
            · have hnames := (markPartition_ok p s.filesToReduce (by simpa using hpanic)).1
              have ha := assignTask_reduce s request k first p hmaps hnames hk hrU hrfirst hp hpe
              rw [ha] at h
              simp only [Prod.mk.injEq, Option.some.injEq] at h
              obtain ⟨h1, h2⟩ := h
              right; right
              subst h1 h2
              exact ⟨k, first, p, _, hmaps, hk, hrU, hrfirst, hp, rfl, rfl, rfl, rfl, rfl, rfl⟩
    · right; left
      have hd' : isAllMapTasksDone s = false := by simpa using hd
      simp only [assignTask, hu, hd', Bool.not_false, if_true, Prod.mk.injEq,
        Option.some.injEq] at h
      obtain ⟨h1, h2⟩ := h
      exact ⟨h1.symm, by rw [← h2]⟩
  · left
    have ha := assignTask_map s request i task hi hU hfirst
    rw [ha] at h
    simp only [Prod.mk.injEq, Option.some.injEq] at h
    obtain ⟨h1, h2⟩ := h
    subst h1 h2
    exact ⟨i, task, _, hi, hU, hfirst, rfl, rfl, rfl, rfl, rfl, rfl⟩

theorem updateFileCompletion_state (s : State) (request : ActiveWorker) :
    (updateFileCompletion s request).1 =
      { filesToMap :=
          if request.OperationType = Map then relabel Completed request.FileNames s.filesToMap
          else s.filesToMap
        filesToReduce :=
          if request.OperationType = Map then
            s.filesToReduce ++ request.TaskCompletionFileNames.map
              (fun filename => { status := Unprocessed, fileName := filename })
          else relabel Completed request.FileNames s.filesToReduce
        workers := removeWorkerFrom s.workers request.WorkerId 0 s.workers
        workerId := s.workerId
        nReduceCount := s.nReduceCount } := by
  unfold updateFileCompletion updateFileStatus relabel
  by_cases h : request.OperationType = Map <;> simp [h, foldl_setStatusOf]

theorem reclaimAt_state (s : State) (i : Nat) (w : ActiveWorker) :
    reclaimAt s i w =
      { filesToMap :=
          if w.OperationType = Map then relabel Unprocessed w.FileNames s.filesToMap
          else s.filesToMap
        filesToReduce :=
          if w.OperationType = Map then s.filesToReduce
          else relabel Unprocessed w.FileNames s.filesToReduce
        workers := removeElementAtIndex
          (s.workers.set i { w with timeElapsed := incInt32 w.timeElapsed }) i
        workerId := s.workerId
        nReduceCount := s.nReduceCount } := by
  unfold reclaimAt tickAt updateFileStatus relabel
  by_cases h : w.OperationType = Map <;> simp [h, foldl_setStatusOf]

/-! ## The invariant holds in every live-reachable state -/

theorem Inv_init (files : List String) (nReduce : Int) (hnd : files.Nodup) :
    Inv (MakeCoordinator freshState files nReduce) := by
  unfold Inv MakeCoordinator freshState
  simpa using InvCore.init files hnd

theorem Inv_assignTask (s : State) (request : ActiveWorker) (s' : State) (r : ActiveWorker)
    (hinv : Inv s) (hwid : s.workerId < 2 ^ 63 - 1)
    (h : assignTask s request = (s', some r)) : Inv s' := by
  have hinc : incInt s.workerId = s.workerId + 1 :=
    incInt_eq _ (by have := hinv.widNonneg; omega) (by omega)
  rcases assignTask_cases s request s' r h with
    ⟨i, task, lease, hi, hU, _, hm, hr, hw, hws, hkey, _⟩ | ⟨rfl, _⟩ |
    ⟨k, first, p, lease, hmaps, hk, hU, _, hp, hm, hr, hw, hws, hkey, _⟩
  · unfold Inv
    rw [hm, hr, hw, hws, List.map_append, List.map_singleton, hkey, hinc,
      set_eq_map_of_nodup _ i task _ hinv.mapNodup hi]
    exact InvCore.assignMap hinv task (List.getElem?_mem hi) hU
  · exact hinv
  · unfold Inv
    rw [hm, hr, hw, hws, List.map_append, List.map_singleton, hkey, hinc]
    exact InvCore.assignReduce hinv hmaps first (List.getElem?_mem hk) hU p hp

theorem Inv_release (s : State) (pre post : List ActiveWorker) (w : ActiveWorker)
    (st : OperationStatus) (hst : st ≠ Processing) (extra : List MRTask)
    (hextra : ∀ t ∈ extra, t.status = Unprocessed)
    (hfields : ∀ t ∈ extra, (partitionField t.fileName).isSome = true)
    (hinv : Inv s) (hws : s.workers = pre ++ w :: post) (ws' : List ActiveWorker)
    (hperm : (ws'.map leaseKey).Perm ((pre ++ post).map leaseKey)) :
    Inv { filesToMap :=
            if w.OperationType = Map then relabel st w.FileNames s.filesToMap
            else s.filesToMap
          filesToReduce :=
            if w.OperationType = Map then s.filesToReduce ++ extra
            else relabel st w.FileNames s.filesToReduce
          workers := ws'
          workerId := s.workerId
          nReduceCount := s.nReduceCount } := by
  unfold Inv at hinv ⊢
  rw [hws, List.map_append, List.map_cons] at hinv
  rw [List.map_append] at hperm
  have hk : leaseKey w ∈ pre.map leaseKey ++ leaseKey w :: post.map leaseKey := by simp
  by_cases hkind : w.OperationType = Map
  · simp only [hkind, if_true]
    exact InvCore.releaseMap hinv hkind st hst _ hperm extra hextra hfields
  · have hred : (leaseKey w).kind = Reduce := by
      rcases hinv.kinds _ hk with h | h
      · exact absurd h hkind
      · exact h
    simp only [hkind, if_false]
    exact InvCore.releaseReduce hinv hred st hst _ hperm

theorem Inv_tickAt (s : State) (i : Nat) (w : ActiveWorker) (hinv : Inv s)
    (hi : s.workers[i]? = some w) : Inv (tickAt s i w) := by
  unfold Inv at *
  have hk := map_leaseKey_set s.workers i w
    { w with timeElapsed := incInt32 w.timeElapsed } hi rfl
  show InvCore s.filesToMap s.filesToReduce
    ((s.workers.set i { w with timeElapsed := incInt32 w.timeElapsed }).map leaseKey) s.workerId
  rw [hk]
  exact hinv

theorem Inv_reclaimAt (s : State) (i : Nat) (w : ActiveWorker) (hinv : Inv s)
    (hi : s.workers[i]? = some w) : Inv (reclaimAt s i w) := by
  obtain ⟨pre, post, hws, hl⟩ := split_at_index s.workers i w hi
  rw [reclaimAt_state]
  have hperm : (removeElementAtIndex
      (s.workers.set i { w with timeElapsed := incInt32 w.timeElapsed }) i).Perm
      (pre ++ post) := by
    rw [hws, ← hl, List.set_append_right _ _ (le_refl _)]
    simpa using removeElementAtIndex_perm pre post { w with timeElapsed := incInt32 w.timeElapsed }
  have := Inv_release s pre post w Unprocessed unprocessed_ne_processing [] (by simp) (by simp)
    hinv hws _ (hperm.map leaseKey)
  simpa using this

theorem Inv_updateWorkerTimeElapsed (s : State) (hinv : Inv s) :
    Inv (updateWorkerTimeElapsed s) := by
  unfold updateWorkerTimeElapsed
  apply sweepFrom_induction Inv
  · intro s' i w h hi _
    exact Inv_tickAt s' i w h hi
  · intro s' i w h hi _
    exact Inv_reclaimAt s' i w h hi
  · exact hinv

/-- A completion report that echoes a lease of the table removes that very
lease. -/
theorem removeWorkerFrom_live (s : State) (hinv : Inv s) (pre post : List ActiveWorker)
    (lease : ActiveWorker) (hws : s.workers = pre ++ lease :: post) :
    (removeWorkerFrom s.workers lease.WorkerId 0 s.workers).Perm (pre ++ post) := by
  have hnd := hinv.idsNodup
  rw [hws, List.map_append, List.map_cons, List.map_append, List.map_cons,
    List.nodup_append] at hnd
  have hpre : ∀ x ∈ pre, x.WorkerId ≠ lease.WorkerId := by
    intro x hx e
    refine hnd.2.2 (List.mem_map_of_mem _ (List.mem_map_of_mem _ hx)) ?_
    show (leaseKey x).id ∈ _
    have : (leaseKey x).id = (leaseKey lease).id := e
    rw [this]
    exact List.mem_cons_self _ _
  rw [hws]
  rw [removeWorkerFrom_found _ _ 0 pre post lease hpre rfl, Nat.zero_add]
  exact removeElementAtIndex_perm pre post lease

theorem Inv_updateFileCompletion (s : State) (request lease : ActiveWorker) (hinv : Inv s)
    (hl : lease ∈ s.workers) (he : Echoes request lease) :
    Inv (updateFileCompletion s request).1 := by
  obtain ⟨pre, post, hws⟩ := List.append_of_mem hl
  obtain ⟨_, hid, hty, hfn, _, _, hnames⟩ := he
  rw [updateFileCompletion_state, hid, hty, hfn]
  have hperm := removeWorkerFrom_live s hinv pre post lease hws
  by_cases hkind : lease.OperationType = Map
  · have hfields : ∀ t ∈ request.TaskCompletionFileNames.map
        (fun filename => ({ status := Unprocessed, fileName := filename } : MRTask)),
        (partitionField t.fileName).isSome = true := by
      intro t ht
      obtain ⟨n, hn, rfl⟩ := List.mem_map.1 ht
      rw [hnames hkind] at hn
      exact mapOutputNames_partitionField _ _ n hn
    exact Inv_release s pre post lease Completed completed_ne_processing _ (by simp) hfields
      hinv hws _ (hperm.map leaseKey)
  · have := Inv_release s pre post lease Completed completed_ne_processing [] (by simp)
      (by simp) hinv hws _ (hperm.map leaseKey)
    simpa [hkind] using this

/-- The coordinator invariant holds in every state reachable by `Idle`
requests, completion reports of leases still in the table, and `Done()`. -/
theorem Inv_of_LiveReachable (files : List String) (nReduce : Int) (hnd : files.Nodup)
    (s : State) (h : LiveReachable files nReduce s) : Inv s := by
  induction h with
  | init => exact Inv_init files nReduce hnd
  | idle s request reply0 s' r _ hreq hwid hstep ih =>
    unfold OnOperationStatusChange at hstep
    rw [if_pos hreq] at hstep
    cases ha : assignTask s request with
    | mk s1 res =>
      rw [ha] at hstep
      cases res with
      | none => simp at hstep
      | some r1 =>
        simp only [Prod.mk.injEq, Option.some.injEq] at hstep
        rw [← hstep.1]
        exact Inv_assignTask s request s1 r1 ih hwid ha
  | completed s request reply0 lease _ hl he ih =>
    have hst : request.Status = Completed := he.1
    have hne : request.Status ≠ Idle := by rw [hst]; decide
    have : (OnOperationStatusChange s request reply0).1 = (updateFileCompletion s request).1 := by
      unfold OnOperationStatusChange
      rw [if_neg hne, if_pos hst]
    rw [this]
    exact Inv_updateFileCompletion s request lease ih hl he
  | done s _ ih => exact Inv_updateWorkerTimeElapsed s ih

/-! ## Running concrete call sequences -/

theorem runCalls_sound (files : List String) (nReduce : Int) (calls : List Call) :
    ∀ (s : State) (issued : List ActiveWorker) (s' : State) (issued' : List ActiveWorker),
      Reachable files nReduce s issued → runCalls s issued calls = some (s', issued') →
      Reachable files nReduce s' issued' := by
  induction calls with
  | nil =>
    intro s issued s' issued' h hr
    simp only [runCalls, Option.some.injEq, Prod.mk.injEq] at hr
    rw [← hr.1, ← hr.2]; exact h
  | cons c rest ih =>
    intro s issued s' issued' h hr
    cases c with
    | done =>
      simp only [runCalls] at hr
      exact ih _ _ _ _ (Reachable.done s issued h) hr
    | rpc request =>
      simp only [runCalls] at hr
      by_cases hidle : request.Status = Idle
      · rw [if_pos hidle] at hr
        cases hstep : OnOperationStatusChange s request zeroWorker with
        | mk s1 res =>
          rw [hstep] at hr
          cases res with
          | none => simp at hr
          | some r =>
            simp only at hr
            exact ih _ _ _ _ (Reachable.idle s issued request zeroWorker s1 r h hidle hstep) hr
      · rw [if_neg hidle] at hr
        by_cases hany : issued.any (fun a => decide (Echoes request a)) = true
        · rw [if_pos hany] at hr
          obtain ⟨a, ha, he⟩ := List.any_eq_true.1 hany
          exact ih _ _ _ _
            (Reachable.completed s issued request zeroWorker a h ha (of_decide_eq_true he)) hr
        · rw [if_neg hany] at hr
          simp at hr

theorem runLive_sound (files : List String) (nReduce : Int) (calls : List Call) :
    ∀ (s s' : State), LiveReachable files nReduce s → runLive s calls = some s' →
      LiveReachable files nReduce s' := by
  induction calls with
  | nil =>
    intro s s' h hr
    simp only [runLive, Option.some.injEq] at hr
    rw [← hr]; exact h
  | cons c rest ih =>
    intro s s' h hr
    cases c with
    | done =>
      simp only [runLive] at hr
      exact ih _ _ (LiveReachable.done s h) hr
    | rpc request =>
      simp only [runLive] at hr
      by_cases hidle : request.Status = Idle
      · rw [if_pos hidle] at hr
        by_cases hwid : s.workerId < 2 ^ 63 - 1
        · rw [if_pos hwid] at hr
          cases hstep : OnOperationStatusChange s request zeroWorker with
          | mk s1 res =>
            rw [hstep] at hr
            cases res with
            | none => simp at hr
            | some r =>
              simp only at hr
              exact ih _ _ (LiveReachable.idle s request zeroWorker s1 r h hidle hwid hstep) hr
        · rw [if_neg hwid] at hr
          simp at hr
      · rw [if_neg hidle] at hr
        by_cases hany : s.workers.any (fun a => decide (Echoes request a)) = true
        · rw [if_pos hany] at hr
          obtain ⟨a, ha, he⟩ := List.any_eq_true.1 hany
          exact ih _ _
            (LiveReachable.completed s request zeroWorker a h ha (of_decide_eq_true he)) hr
        · rw [if_neg hany] at hr
          simp at hr

/-! ## Concrete runs -/

theorem barrierLate_reachable : Reachable ["a.txt"] 1 barrierLateState barrierLateIssued :=
  runCalls_sound ["a.txt"] 1 barrierLateCalls lateJob [] _ _ Reachable.init (by decide)

theorem barrierDup_reachable :
    Reachable ["a.txt", "a.txt"] 1 barrierDupState barrierDupIssued :=
  runCalls_sound ["a.txt", "a.txt"] 1 barrierDupCalls dupJob [] _ _ Reachable.init (by decide)

theorem doubleLate_reachable : Reachable ["a.txt"] 1 doubleLateState doubleLateIssued :=
  runCalls_sound ["a.txt"] 1 doubleLateCalls lateJob [] _ _ Reachable.init (by decide)

theorem doubleDup_reachable : Reachable ["a.txt", "a.txt"] 1 doubleDupState doubleDupIssued :=
  runCalls_sound ["a.txt", "a.txt"] 1 [idleCall, idleCall] dupJob [] _ _ Reachable.init
    (by decide)

theorem staleLease_reachable : Reachable ["a.txt"] 1 staleLeaseState staleLeaseIssued :=
  runCalls_sound ["a.txt"] 1 staleLeaseCalls lateJob [] _ _ Reachable.init (by decide)

theorem finishedLate_reachable : Reachable ["a.txt"] 1 finishedLateState finishedLateIssued :=
  runCalls_sound ["a.txt"] 1 finishedLateCalls lateJob [] _ _ Reachable.init (by decide)

theorem finishedDup_reachable :
    Reachable ["a.txt", "a.txt"] 1 finishedDupState finishedDupIssued :=
  runCalls_sound ["a.txt", "a.txt"] 1 finishedDupCalls dupJob [] _ _ Reachable.init (by decide)

theorem reclaimed_reachable :
    Reachable ["a.txt"] 1 reclaimedState [mapLease 1 "a.txt" "0"] :=
  runCalls_sound ["a.txt"] 1 ([idleCall] ++ doneCalls 11) lateJob [] _ _ Reachable.init
    (by decide)

theorem oneOfTwo_reachable :
    Reachable ["a.txt", "a.txt"] 1 oneOfTwoState [mapLease 1 "a.txt" "0"] :=
  runCalls_sound ["a.txt", "a.txt"] 1 [idleCall] dupJob [] _ _ Reachable.init (by decide)

theorem liveState_reachable : LiveReachable ["a.txt"] 1 liveState :=
  runLive_sound ["a.txt"] 1 liveCalls lateJob _ LiveReachable.init (by decide)

theorem liveFinished_reachable : LiveReachable ["a.txt"] 1 liveFinishedState :=
  runLive_sound ["a.txt"] 1 (liveCalls ++ [reportCall (reduceLease 2 ["mr-0-0"])]) lateJob _
    LiveReachable.init (by decide)

/-! ## The specification's invariants -/

theorem leaseCount_eq (s : State) (kind : OperationType) (t : MRTask) :
    leaseCount s kind t = (s.workers.map leaseKey).countP (keyRefs kind t.fileName) := by
  rw [leaseCount, List.countP_map]
  rfl

/-- C1 as stated fails. With one input file: worker 1 is reclaimed, the task is
reassigned to worker 2, worker 1 reports late, a reduce partition is assigned,
and the reclaim of worker 2 resets the map task while the reduce task is
`Processing`. With the same file listed twice the same happens without any
late report. -/
theorem phase_barrier_counterexample :
    (Reachable ["a.txt"] 1 barrierLateState barrierLateIssued ∧ ¬ PhaseBarrier barrierLateState) ∧
    (Reachable ["a.txt", "a.txt"] 1 barrierDupState barrierDupIssued ∧
      ¬ PhaseBarrier barrierDupState) :=
  ⟨⟨barrierLate_reachable, by decide⟩, ⟨barrierDup_reachable, by decide⟩⟩

/-- C2 as stated fails. With one input file, a late report of the reclaimed
worker 1 appends a second `mr-0-0` entry while worker 3 holds the partition,
and the partition is handed out again to worker 4: the first reduce task is
referenced by two leases. With the same file listed twice, the two map leases
both reference both map tasks. -/
theorem no_double_assignment_counterexample :
    (Reachable ["a.txt"] 1 doubleLateState doubleLateIssued ∧
      leaseCount doubleLateState Reduce ⟨Processing, "mr-0-0"⟩ = 2 ∧
      ¬ NoDoubleAssignment doubleLateState) ∧
    (Reachable ["a.txt", "a.txt"] 1 doubleDupState doubleDupIssued ∧
      leaseCount doubleDupState Map ⟨Processing, "a.txt"⟩ = 2 ∧
      ¬ NoDoubleAssignment doubleDupState) :=
  ⟨⟨doubleLate_reachable, by decide, by decide⟩, ⟨doubleDup_reachable, by decide, by decide⟩⟩

/-- C3 (amended). Lease/Processing correspondence: in every state reachable
from `MakeCoordinator(files, nReduce)` with pairwise distinct input files by
`Idle` requests (made while the worker-id counter is below `2^63 - 1`),
completion reports echoing a lease that is still in the lease table, and
`Done()` calls, a map or reduce task is `Processing` if and only if exactly
one lease of the lease table references it. -/
theorem lease_correspondence_live (files : List String) (nReduce : Int) (s : State)
    (hnd : files.Nodup) (h : LiveReachable files nReduce s) : LeaseCorrespondence s := by
  have hinv := Inv_of_LiveReachable files nReduce hnd s h
  constructor
  · intro t ht
    rw [leaseCount_eq, hinv.mapCount t ht]
    by_cases hP : t.status = Processing <;> simp [hP]
  · intro t ht
    rw [leaseCount_eq, hinv.redCount t ht]
    by_cases hP : t.status = Processing <;> simp [hP]

/-- Witness for C3 (amended). -/
theorem lease_correspondence_live_witness :
    ["a.txt"].Nodup ∧ LiveReachable ["a.txt"] 1 liveState ∧ LeaseCorrespondence liveState :=
  ⟨by decide, liveState_reachable,
    lease_correspondence_live ["a.txt"] 1 liveState (by decide) liveState_reachable⟩

/-- C3 as stated fails. With one input file, after the late report of the
reclaimed worker 1 the map task is `Completed` although the lease of worker 2
still references it. With the same file listed twice, both map tasks are
`Processing` and each is referenced by two leases. -/
theorem lease_correspondence_counterexample :
    (Reachable ["a.txt"] 1 staleLeaseState staleLeaseIssued ∧
      leaseCount staleLeaseState Map ⟨Completed, "a.txt"⟩ = 1 ∧
      ¬ LeaseCorrespondence staleLeaseState) ∧
    (Reachable ["a.txt", "a.txt"] 1 doubleDupState doubleDupIssued ∧
      leaseCount doubleDupState Map ⟨Processing, "a.txt"⟩ = 2 ∧
      ¬ LeaseCorrespondence doubleDupState) :=
  ⟨⟨staleLease_reachable, by decide, by decide⟩, ⟨doubleDup_reachable, by decide, by decide⟩⟩

/-- In a state satisfying the invariant whose tasks are all `Completed` the
lease table is empty. -/
theorem Inv.no_lease_when_done (s : State) (hinv : Inv s)
    (hm : ∀ t ∈ s.filesToMap, t.status = Completed)
    (hr : ∀ t ∈ s.filesToReduce, t.status = Completed) : s.workers = [] := by
  rw [List.eq_nil_iff_forall_not_mem]
  intro w hw
  have hk : leaseKey w ∈ s.workers.map leaseKey := List.mem_map_of_mem _ hw
  rcases InvCore.kinds hinv _ hk with hkind | hkind
  · obtain ⟨n, hn, hnk⟩ := InvCore.mapLive hinv _ hk hkind
    obtain ⟨t, ht, rfl⟩ := List.mem_map.1 hn
    have := InvCore.map_processing hinv t ht _ hk hkind hnk
    rw [hm t ht] at this
    exact completed_ne_processing this
  · obtain ⟨n, hn, hnk⟩ := InvCore.redLive hinv _ hk hkind
    obtain ⟨t, ht, rfl⟩ := List.mem_map.1 hn
    have := InvCore.red_processing hinv t ht _ hk hkind hnk
    rw [hr t ht] at this
    exact completed_ne_processing this

/-- C5 (amended). In every state reachable from `MakeCoordinator(files,
nReduce)` with pairwise distinct input files by `Idle` requests (made while the
worker-id counter is below `2^63 - 1`), completion reports echoing a lease
that is still in the lease table, and `Done()` calls, a `Done()` call that
returns true leaves the lease table empty. -/
theorem done_leaves_no_lease_live (files : List String) (nReduce : Int) (s : State)
    (hnd : files.Nodup) (h : LiveReachable files nReduce s) (hdone : (Done s).2 = true) :
    (Done s).1.workers = [] := by
  have hinv := Inv_of_LiveReachable files nReduce hnd _ (LiveReachable.done s h)
  obtain ⟨hm, hr⟩ := (Done_result_iff s).1 hdone
  exact Inv.no_lease_when_done _ hinv hm hr

/-- Witness for C5 (amended): the finished live run. -/
theorem done_leaves_no_lease_live_witness :
    ["a.txt"].Nodup ∧ LiveReachable ["a.txt"] 1 liveFinishedState ∧
    (Done liveFinishedState).2 = true ∧ (Done liveFinishedState).1.workers = [] :=
  ⟨by decide, liveFinished_reachable, by decide,
    done_leaves_no_lease_live ["a.txt"] 1 liveFinishedState (by decide) liveFinished_reachable
      (by decide)⟩

/-- C5 as stated fails. With one input file, the reclaimed worker 1 reports
late while worker 2 holds the reassigned map task; once the reduce partition
is completed `Done()` returns true although the lease of worker 2 is still in
the table. With the same file listed twice, the report of worker 2 completes
both map tasks and the lease of worker 1 survives in the same way. -/
theorem done_leaves_no_lease_counterexample :
    (Reachable ["a.txt"] 1 finishedLateState finishedLateIssued ∧
      (Done finishedLateState).2 = true ∧ (Done finishedLateState).1.workers ≠ []) ∧
    (Reachable ["a.txt", "a.txt"] 1 finishedDupState finishedDupIssued ∧
      (Done finishedDupState).2 = true ∧ (Done finishedDupState).1.workers ≠ []) :=
  ⟨⟨finishedLate_reachable, by decide, by decide⟩,
    ⟨finishedDup_reachable, by decide, by decide⟩⟩

/-! ## Status transitions -/

theorem StatusStep_refl (src dst : OperationStatus) (tbl : List MRTask) :
    StatusStep src dst tbl tbl :=
  fun _ t hi => ⟨t, hi, rfl, Or.inl rfl⟩

theorem StatusStep_trans {src dst : OperationStatus} {a b c : List MRTask}
    (h1 : StatusStep src dst a b) (h2 : StatusStep src dst b c) : StatusStep src dst a c := by
  intro i t hi
  obtain ⟨t1, hi1, hn1, hs1⟩ := h1 i t hi
  obtain ⟨t2, hi2, hn2, hs2⟩ := h2 i t1 hi1
  refine ⟨t2, hi2, hn2.trans hn1, ?_⟩
  rcases hs1 with e1 | ⟨e1, e1'⟩
  · rcases hs2 with e2 | ⟨e2, e2'⟩
    · exact Or.inl (e2.trans e1)
    · exact Or.inr ⟨e1 ▸ e2, e2'⟩
  · rcases hs2 with e2 | ⟨_, e2'⟩
    · exact Or.inr ⟨e1, e2.trans e1'⟩
    · exact Or.inr ⟨e1, e2'⟩

theorem StatusStep_map (src dst : OperationStatus) (tbl extra : List MRTask)
    (f : MRTask → MRTask)
    (h : ∀ t ∈ tbl, (f t).fileName = t.fileName ∧
      ((f t).status = t.status ∨ (t.status = src ∧ (f t).status = dst))) :
    StatusStep src dst tbl (tbl.map f ++ extra) := by
  intro i t hi
  have hlt : i < (tbl.map f).length := by
    rw [List.length_map]
    exact (List.getElem?_eq_some_iff.1 hi).1
  refine ⟨f t, ?_, (h t (List.getElem?_mem hi)).1, (h t (List.getElem?_mem hi)).2⟩
  rw [List.getElem?_append_left hlt, List.getElem?_map, hi]
  rfl

theorem StatusStep_relabel (src dst : OperationStatus) (names : List String)
    (tbl extra : List MRTask) (h : ∀ t ∈ tbl, t.fileName ∈ names → t.status = src) :
    StatusStep src dst tbl (relabel dst names tbl ++ extra) := by
  unfold relabel
  apply StatusStep_map
  intro t ht
  by_cases hn : t.fileName ∈ names
  · dsimp only
    rw [if_pos hn]
    exact ⟨rfl, Or.inr ⟨h t ht hn, rfl⟩⟩
  · dsimp only
    rw [if_neg hn]
    exact ⟨rfl, Or.inl rfl⟩

theorem StatusStep_completed_stays {src dst : OperationStatus} {a b : List MRTask}
    (h : StatusStep src dst a b) (hsrc : src ≠ Completed) (i : Nat) (t : MRTask)
    (hi : a[i]? = some t) (hc : t.status = Completed) :
    ∃ t', b[i]? = some t' ∧ t'.fileName = t.fileName ∧ t'.status = Completed := by
  obtain ⟨t', hi', hn, hs⟩ := h i t hi
  refine ⟨t', hi', hn, ?_⟩
  rcases hs with e | ⟨e, _⟩
  · rw [e, hc]
  · exact absurd (e.symm.trans hc) hsrc

/-- In a state satisfying the invariant `assignTask` does not panic. -/
theorem assignTask_total (s : State) (request : ActiveWorker)
    (hfields : ∀ t ∈ s.filesToReduce, (partitionField t.fileName).isSome = true) :
    ∃ s' r, assignTask s request = (s', some r) := by
  rcases first_unprocessed_cases s.filesToMap with hnone | ⟨i, task, hi, hU, hfirst⟩
  · have hu := getUnmappedTask_none s hnone
    by_cases hd : isAllMapTasksDone s = true
    · have hmaps : ∀ t ∈ s.filesToMap, t.status = Completed := by
        rw [isAllMapTasksDone, allCompleted_iff] at hd; exact hd
      rcases first_unprocessed_cases s.filesToReduce with hrnone | ⟨k, first, hk, hrU, hrfirst⟩
      · have hg : getReduceTasks s = (s, some ("", [])) := by
          simp [getReduceTasks, firstFileNumber_none _ hrnone]
        exact ⟨s, { request with NReduce := s.nReduceCount, Status := Idle },
          by simp [assignTask, hu, hd, hg]⟩
      · have hff := firstFileNumber_index s.filesToReduce k first hk hrU hrfirst
        obtain ⟨p, hp⟩ := Option.isSome_iff_exists.1 (hfields first (List.getElem?_mem hk))
        by_cases hpe : p = ""
        · have hg : getReduceTasks s = (s, some ("", [])) := by
            simp [getReduceTasks, hff, hp, hpe]
          exact ⟨s, { request with NReduce := s.nReduceCount, Status := Idle },
            by simp [assignTask, hu, hd, hg]⟩
        · exact ⟨_, _, assignTask_reduce s request k first p hmaps hfields hk hrU hrfirst hp hpe⟩
    · have hd' : isAllMapTasksDone s = false := by simpa using hd
      exact ⟨s, { request with NReduce := s.nReduceCount, Status := Idle },
        by simp [assignTask, hu, hd']⟩
  · exact ⟨_, _, assignTask_map s request i task hi hU hfirst⟩

theorem StatusStep_assignTask (s : State) (request : ActiveWorker) (s' : State)
    (r : ActiveWorker) (hinv : Inv s) (h : assignTask s request = (s', some r)) :
    StatusStep Unprocessed Processing s.filesToMap s'.filesToMap ∧
    StatusStep Unprocessed Processing s.filesToReduce s'.filesToReduce := by
  rcases assignTask_cases s request s' r h with
    ⟨i, task, lease, hi, hU, _, hm, hr, _, _, _, _⟩ | ⟨rfl, _⟩ |
    ⟨k, first, p, lease, _, hk, hU, _, hp, hm, hr, _, _, _, _⟩
  · rw [hm, hr, set_eq_map_of_nodup _ i task _ hinv.mapNodup hi]
    refine ⟨?_, StatusStep_refl _ _ _⟩
    have := StatusStep_map Unprocessed Processing s.filesToMap []
      (fun x => if x.fileName = task.fileName then { task with status := Processing } else x)
      (by
        intro t ht
        by_cases hn : t.fileName = task.fileName
        · have ht' : t = task :=
            List.inj_on_of_nodup_map hinv.mapNodup ht (List.getElem?_mem hi) hn
          subst ht'
          dsimp only
          rw [if_pos rfl]
          exact ⟨rfl, Or.inr ⟨hU, rfl⟩⟩
        · dsimp only
          rw [if_neg hn]
          exact ⟨rfl, Or.inl rfl⟩)
    simpa using this
  · exact ⟨StatusStep_refl _ _ _, StatusStep_refl _ _ _⟩
  · rw [hm, hr]
    refine ⟨StatusStep_refl _ _ _, ?_⟩
    have := StatusStep_map Unprocessed Processing s.filesToReduce []
      (fun task =>
        if partitionField task.fileName = some p then { task with status := Processing }
        else task)
      (by
        intro t ht
        by_cases hq : partitionField t.fileName = some p
        · have : t.status = Unprocessed := by
            rw [InvCore.uniform hinv t ht first (List.getElem?_mem hk) (by rw [hq, hp]), hU]
          dsimp only
          rw [if_pos hq]
          exact ⟨rfl, Or.inr ⟨this, rfl⟩⟩
        · dsimp only
          rw [if_neg hq]
          exact ⟨rfl, Or.inl rfl⟩)
    simpa [markedTable] using this

theorem StatusStep_append (src dst : OperationStatus) (tbl extra : List MRTask) :
    StatusStep src dst tbl (tbl ++ extra) := by
  have := StatusStep_map src dst tbl extra id (fun t _ => ⟨rfl, Or.inl rfl⟩)
  simpa using this

/-- Releasing a lease of the table (commit with `st = Completed`, reclaim with
`st = Unprocessed`) moves statuses only from `Processing` to `st`. -/
theorem StatusStep_release (s : State) (w : ActiveWorker) (st : OperationStatus)
    (extra : List MRTask) (hinv : Inv s) (hw : w ∈ s.workers) :
    StatusStep Processing st s.filesToMap
      (if w.OperationType = Map then relabel st w.FileNames s.filesToMap else s.filesToMap) ∧
    StatusStep Processing st s.filesToReduce
      (if w.OperationType = Map then s.filesToReduce ++ extra
        else relabel st w.FileNames s.filesToReduce) := by
  have hk : leaseKey w ∈ s.workers.map leaseKey := List.mem_map_of_mem _ hw
  by_cases hkind : w.OperationType = Map
  · rw [if_pos hkind, if_pos hkind]
    refine ⟨?_, StatusStep_append _ _ _ _⟩
    have := StatusStep_relabel Processing st w.FileNames s.filesToMap []
      (fun t ht hn => InvCore.map_processing hinv t ht _ hk hkind hn)
    simpa using this
  · rw [if_neg hkind, if_neg hkind]
    have hred : (leaseKey w).kind = Reduce := by
      rcases InvCore.kinds hinv _ hk with h | h
      · exact absurd h hkind
      · exact h
    refine ⟨StatusStep_refl _ _ _, ?_⟩
    have := StatusStep_relabel Processing st w.FileNames s.filesToReduce []
      (fun t ht hn => InvCore.red_processing hinv t ht _ hk hred hn)
    simpa using this

theorem StatusStep_updateFileCompletion (s : State) (request lease : ActiveWorker)
    (hinv : Inv s) (hl : lease ∈ s.workers) (he : Echoes request lease) :
    StatusStep Processing Completed s.filesToMap (updateFileCompletion s request).1.filesToMap ∧
    StatusStep Processing Completed s.filesToReduce
      (updateFileCompletion s request).1.filesToReduce := by
  obtain ⟨_, _, hty, hfn, _⟩ := he
  rw [updateFileCompletion_state, hty, hfn]
  exact StatusStep_release s lease Completed _ hinv hl

theorem StatusStep_updateWorkerTimeElapsed (s : State) (hinv : Inv s) :
    StatusStep Processing Unprocessed s.filesToMap (updateWorkerTimeElapsed s).filesToMap ∧
    StatusStep Processing Unprocessed s.filesToReduce
      (updateWorkerTimeElapsed s).filesToReduce := by
  have h := sweepFrom_induction (fun s1 => Inv s1 ∧
      StatusStep Processing Unprocessed s.filesToMap s1.filesToMap ∧
      StatusStep Processing Unprocessed s.filesToReduce s1.filesToReduce)
    (fun s1 i w h1 hi _ => ⟨Inv_tickAt s1 i w h1.1 hi, h1.2⟩)
    (fun s1 i w h1 hi _ => by
      refine ⟨Inv_reclaimAt s1 i w h1.1 hi, ?_⟩
      have hrel := StatusStep_release s1 w Unprocessed [] h1.1 (List.getElem?_mem hi)
      rw [reclaimAt_state]
      simp only [List.append_nil] at hrel
      exact ⟨StatusStep_trans h1.2.1 hrel.1, StatusStep_trans h1.2.2 hrel.2⟩)
    s.workers.length 0 s ⟨hinv, StatusStep_refl _ _ _, StatusStep_refl _ _ _⟩
  exact h.2

theorem OnOperationStatusChange_idle (s : State) (request reply0 : ActiveWorker)
    (hreq : request.Status = Idle) (s' : State) (r : ActiveWorker)
    (h : assignTask s request = (s', some r)) :
    OnOperationStatusChange s request reply0 = (s', some (copyWorkerInstance r reply0)) := by
  unfold OnOperationStatusChange
  rw [if_pos hreq, h]

theorem OnOperationStatusChange_completed (s : State) (request reply0 : ActiveWorker)
    (hreq : request.Status = Completed) :
    (OnOperationStatusChange s request reply0).1 = (updateFileCompletion s request).1 := by
  have hne : request.Status ≠ Idle := by rw [hreq]; decide
  unfold OnOperationStatusChange
  rw [if_neg hne, if_pos hreq]

theorem LiveReachable_step (files : List String) (nReduce : Int) (s s' : State)
    (h : LiveReachable files nReduce s) (hstep : LiveStep s s') :
    LiveReachable files nReduce s' := by
  cases hstep with
  | idle request reply0 _ r hreq hwid hcall =>
    exact LiveReachable.idle s request reply0 s' r h hreq hwid hcall
  | completed request reply0 lease hl he =>
    exact LiveReachable.completed s request reply0 lease h hl he
  | done => exact LiveReachable.done s h

theorem CompletedStays_trans {a b c : State} (h1 : CompletedStays a b)
    (h2 : CompletedStays b c) : CompletedStays a c := by
  constructor
  · intro i t hi hc
    obtain ⟨t1, hi1, hn1, hc1⟩ := h1.1 i t hi hc
    obtain ⟨t2, hi2, hn2, hc2⟩ := h2.1 i t1 hi1 hc1
    exact ⟨t2, hi2, hn2.trans hn1, hc2⟩
  · intro i t hi hc
    obtain ⟨t1, hi1, hn1, hc1⟩ := h1.2 i t hi hc
    obtain ⟨t2, hi2, hn2, hc2⟩ := h2.2 i t1 hi1 hc1
    exact ⟨t2, hi2, hn2.trans hn1, hc2⟩

theorem CompletedStays_of_steps {src dst : OperationStatus} (hsrc : src ≠ Completed)
    (s s' : State) (h1 : StatusStep src dst s.filesToMap s'.filesToMap)
    (h2 : StatusStep src dst s.filesToReduce s'.filesToReduce) : CompletedStays s s' :=
  ⟨fun i t hi hc => StatusStep_completed_stays h1 hsrc i t hi hc,
    fun i t hi hc => StatusStep_completed_stays h2 hsrc i t hi hc⟩

theorem CompletedStays_of_LiveStep (s s' : State) (hinv : Inv s) (hstep : LiveStep s s') :
    CompletedStays s s' := by
  cases hstep with
  | idle request reply0 _ r hreq hwid hcall =>
    obtain ⟨s1, r1, ha⟩ := assignTask_total s request hinv.redFields
    rw [OnOperationStatusChange_idle s request reply0 hreq s1 r1 ha] at hcall
    simp only [Prod.mk.injEq] at hcall
    obtain ⟨h1, h2⟩ := StatusStep_assignTask s request s1 r1 hinv ha
    rw [← hcall.1]
    exact CompletedStays_of_steps unprocessed_ne_completed s s1 h1 h2
  | completed request reply0 lease hl he =>
    rw [OnOperationStatusChange_completed s request reply0 he.1]
    obtain ⟨h1, h2⟩ := StatusStep_updateFileCompletion s request lease hinv hl he
    exact CompletedStays_of_steps (fun e => completed_ne_processing e.symm) s _ h1 h2
  | done =>
    obtain ⟨h1, h2⟩ := StatusStep_updateWorkerTimeElapsed s hinv
    exact CompletedStays_of_steps (fun e => completed_ne_processing e.symm) s _ h1 h2

/-- C6 (amended). Task status transitions: in every state reachable from
`MakeCoordinator(files, nReduce)` with pairwise distinct input files by `Idle`
requests (made while the worker-id counter is below `2^63 - 1`), completion
reports echoing a lease that is still in the lease table, and `Done()` calls,
each such call leaves every task at its index and either keeps its status or
moves it `Unprocessed → Processing` (an `Idle` request, which always returns),
`Processing → Completed` (a completion report) or `Processing → Unprocessed`
(`Done()`); a `Completed` task stays `Completed` along every further sequence
of such calls. -/
theorem status_transitions_live (files : List String) (nReduce : Int) (s : State)
    (hnd : files.Nodup) (h : LiveReachable files nReduce s) : StatusTransitions s := by
  have hinv := Inv_of_LiveReachable files nReduce hnd s h
  refine ⟨?_, ?_, ?_, ?_⟩
  · intro request reply0 hreq
    obtain ⟨s1, r1, ha⟩ := assignTask_total s request hinv.redFields
    rw [OnOperationStatusChange_idle s request reply0 hreq s1 r1 ha]
    exact ⟨⟨_, rfl⟩, StatusStep_assignTask s request s1 r1 hinv ha⟩
  · intro request reply0 lease hl he
    rw [OnOperationStatusChange_completed s request reply0 he.1]
    exact StatusStep_updateFileCompletion s request lease hinv hl he
  · exact StatusStep_updateWorkerTimeElapsed s hinv
  · intro s' hsteps
    have key : LiveReachable files nReduce s' ∧ CompletedStays s s' := by
      induction hsteps with
      | refl => exact ⟨h, ⟨fun i t hi hc => ⟨t, hi, rfl, hc⟩, fun i t hi hc => ⟨t, hi, rfl, hc⟩⟩⟩
      | tail _ hstep ih =>
        exact ⟨LiveReachable_step files nReduce _ _ ih.1 hstep,
          CompletedStays_trans ih.2 (CompletedStays_of_LiveStep _ _
            (Inv_of_LiveReachable files nReduce hnd _ ih.1) hstep)⟩
    exact key.2

/-- Witness for C6 (amended): the live run that has reached the reduce phase. -/
theorem status_transitions_live_witness :
    ["a.txt"].Nodup ∧ LiveReachable ["a.txt"] 1 liveState ∧ StatusTransitions liveState :=
  ⟨by decide, liveState_reachable,
    status_transitions_live ["a.txt"] 1 liveState (by decide) liveState_reachable⟩

theorem staleLeaseAged_reachable :
    Reachable ["a.txt"] 1 staleLeaseAgedState staleLeaseIssued :=
  runCalls_sound ["a.txt"] 1 (staleLeaseCalls ++ doneCalls 10) lateJob [] _ _ Reachable.init
    (by decide)

/-- C6 as stated fails. With one input file, the late report of the reclaimed
worker 1 moves the map task `Unprocessed → Completed`; and once that task is
`Completed`, the reclaim of worker 2 by `Done()` moves it `Completed →
Unprocessed`. With the same file listed twice, the report of worker 1 moves the
second map task `Unprocessed → Completed` although it was never assigned. -/
theorem status_transitions_counterexample :
    (Reachable ["a.txt"] 1 reclaimedState [mapLease 1 "a.txt" "0"] ∧
      Echoes (completionReport (mapLease 1 "a.txt" "0")) (mapLease 1 "a.txt" "0") ∧
      reclaimedState.filesToMap[0]? = some ⟨Unprocessed, "a.txt"⟩ ∧
      (OnOperationStatusChange reclaimedState (completionReport (mapLease 1 "a.txt" "0"))
        zeroWorker).1.filesToMap[0]? = some ⟨Completed, "a.txt"⟩) ∧
    (Reachable ["a.txt"] 1 staleLeaseAgedState staleLeaseIssued ∧
      staleLeaseAgedState.filesToMap[0]? = some ⟨Completed, "a.txt"⟩ ∧
      (Done staleLeaseAgedState).1.filesToMap[0]? = some ⟨Unprocessed, "a.txt"⟩) ∧
    (Reachable ["a.txt", "a.txt"] 1 oneOfTwoState [mapLease 1 "a.txt" "0"] ∧
      Echoes (completionReport (mapLease 1 "a.txt" "0")) (mapLease 1 "a.txt" "0") ∧
      oneOfTwoState.filesToMap[1]? = some ⟨Unprocessed, "a.txt"⟩ ∧
      (OnOperationStatusChange oneOfTwoState (completionReport (mapLease 1 "a.txt" "0"))
        zeroWorker).1.filesToMap[1]? = some ⟨Completed, "a.txt"⟩) :=
  ⟨⟨reclaimed_reachable, by decide, by decide, by decide⟩,
    ⟨staleLeaseAged_reachable, by decide, by decide⟩,
    ⟨oneOfTwo_reachable, by decide, by decide, by decide⟩⟩

/-! ## Commit of a completion report -/

theorem relabel_of_not_mem (st : OperationStatus) (names : List String) (tbl : List MRTask)
    (h : ∀ t ∈ tbl, t.fileName ∉ names) : relabel st names tbl = tbl := by
  unfold relabel
  conv_rhs => rw [← List.map_id tbl]
  apply List.map_congr_left
  intro t ht
  simp [h t ht]

theorem removeElementAtIndex_last (pre : List ActiveWorker) (w : ActiveWorker) :
    removeElementAtIndex (pre ++ [w]) pre.length = pre := by
  unfold removeElementAtIndex
  rw [List.getLast?_concat]
  simp

theorem removeElementAtIndex_inner (pre post : List ActiveWorker) (w l : ActiveWorker) :
    removeElementAtIndex (pre ++ w :: (post ++ [l])) pre.length = pre ++ l :: post := by
  unfold removeElementAtIndex
  have hlast : (pre ++ w :: (post ++ [l])).getLast? = some l := by
    rw [show pre ++ w :: (post ++ [l]) = (pre ++ w :: post) ++ [l] by simp]
    exact List.getLast?_concat _
  rw [hlast]
  simp only
  have hset : (pre ++ w :: (post ++ [l])).set pre.length l = (pre ++ l :: post) ++ [l] := by
    rw [List.set_append_right _ _ (le_refl _)]
    simp
  rw [hset, List.dropLast_concat]

theorem OnOperationStatusChange_completed_reply (s : State) (request reply0 : ActiveWorker)
    (hreq : request.Status = Completed) :
    (OnOperationStatusChange s request reply0).2 =
      some (copyWorkerInstance
        { request with Status := Idle, TaskCompletionFileNames := [], FileNames := [],
                       TaskId := "" } reply0) := by
  have hne : request.Status ≠ Idle := by rw [hreq]; decide
  unfold OnOperationStatusChange
  rw [if_neg hne, if_pos hreq]
  rfl

/-- C11 (amended). Map commit: for every job state and every request with
status `completed` and type `map`, after `OnOperationStatusChange` every map
task whose file name occurs in the request's `FileNames` is `Completed` and
every other map task is untouched; the reduce-task table is the old table
followed by one `Unprocessed` task per entry of `TaskCompletionFileNames`, in
the reported order; the lease table is unchanged when no lease has the
request's `WorkerId`, and otherwise the first such lease is overwritten by the
last lease and the last slot is dropped (a permutation of the old table
without that lease; the leases before it keep their places, and the old last
lease moves into its slot unless the lease was the last one); the
counter is unchanged and the reply has status `idle` with empty `FileNames`,
`TaskCompletionFileNames` and `TaskId`. -/
theorem map_commit (s : State) (request reply0 : ActiveWorker)
    (hst : request.Status = Completed) (hty : request.OperationType = Map) :
    (OnOperationStatusChange s request reply0).1.filesToMap =
      s.filesToMap.map (fun task =>
        if task.fileName ∈ request.FileNames then { task with status := Completed }
        else task) ∧
    (OnOperationStatusChange s request reply0).1.filesToReduce =
      s.filesToReduce ++ request.TaskCompletionFileNames.map
        (fun filename => { status := Unprocessed, fileName := filename }) ∧
    (OnOperationStatusChange s request reply0).1.workerId = s.workerId ∧
    ((∀ w ∈ s.workers, w.WorkerId ≠ request.WorkerId) →
      (OnOperationStatusChange s request reply0).1.workers = s.workers) ∧
    (∀ (pre post : List ActiveWorker) (w : ActiveWorker), s.workers = pre ++ w :: post →
      (∀ x ∈ pre, x.WorkerId ≠ request.WorkerId) → w.WorkerId = request.WorkerId →
      (OnOperationStatusChange s request reply0).1.workers.Perm (pre ++ post) ∧
      (post = [] → (OnOperationStatusChange s request reply0).1.workers = pre) ∧
      (∀ (mid : List ActiveWorker) (l : ActiveWorker), post = mid ++ [l] →
        (OnOperationStatusChange s request reply0).1.workers = pre ++ l :: mid)) ∧
    ∃ r, (OnOperationStatusChange s request reply0).2 = some r ∧ r.Status = Idle ∧
      r.FileNames = [] ∧ r.TaskCompletionFileNames = [] ∧ r.TaskId = "" := by
  rw [OnOperationStatusChange_completed s request reply0 hst, updateFileCompletion_state,
    OnOperationStatusChange_completed_reply s request reply0 hst]
  rw [if_pos hty, if_pos hty]
  refine ⟨rfl, rfl, rfl, ?_, ?_, ⟨_, rfl, rfl, rfl, rfl, rfl⟩⟩
  · intro h
    exact removeWorkerFrom_absent _ _ 0 _ h
  · intro pre post w hws hpre hw
    rw [hws, removeWorkerFrom_found _ _ 0 pre post w hpre hw, Nat.zero_add]
    refine ⟨removeElementAtIndex_perm pre post w, ?_, ?_⟩
    · intro hp
      subst hp
      exact removeElementAtIndex_last pre w
    · intro mid l hp
      subst hp
      exact removeElementAtIndex_inner pre mid w l

/-- Witness for C11 (amended): worker 1 of three reports its map task. -/
theorem map_commit_witness :
    (completionReport (mapLease 1 "a.txt" "0")).Status = Completed ∧
    (completionReport (mapLease 1 "a.txt" "0")).OperationType = Map ∧
    (OnOperationStatusChange threeLeaseState (completionReport (mapLease 1 "a.txt" "0"))
      zeroWorker).1.filesToMap =
      [⟨Completed, "a.txt"⟩, ⟨Processing, "b.txt"⟩, ⟨Processing, "c.txt"⟩] ∧
    (OnOperationStatusChange threeLeaseState (completionReport (mapLease 1 "a.txt" "0"))
      zeroWorker).1.filesToReduce = [⟨Unprocessed, "mr-0-0"⟩] :=
  ⟨by decide, by decide,
    by
      rw [(map_commit threeLeaseState (completionReport (mapLease 1 "a.txt" "0")) zeroWorker
        (by decide) (by decide)).1]
      decide,
    by
      rw [(map_commit threeLeaseState (completionReport (mapLease 1 "a.txt" "0")) zeroWorker
        (by decide) (by decide)).2.1]
      decide⟩

/-- C11 as stated fails on the order of the lease table: with leases of workers
1, 2, 3 in the table, the report of worker 1 leaves the table `[3, 2]`, not the
old table with the lease of worker 1 removed, `[2, 3]`. -/
theorem map_commit_reorders_leases :
    (completionReport (mapLease 1 "a.txt" "0")).Status = Completed ∧
    (completionReport (mapLease 1 "a.txt" "0")).OperationType = Map ∧
    (OnOperationStatusChange threeLeaseState (completionReport (mapLease 1 "a.txt" "0"))
      zeroWorker).1.workers = [mapLease 3 "c.txt" "2", mapLease 2 "b.txt" "1"] ∧
    threeLeaseState.workers.filter
      (fun w => decide (w.WorkerId ≠ (completionReport (mapLease 1 "a.txt" "0")).WorkerId)) =
      [mapLease 2 "b.txt" "1", mapLease 3 "c.txt" "2"] ∧
    (OnOperationStatusChange threeLeaseState (completionReport (mapLease 1 "a.txt" "0"))
      zeroWorker).1.workers ≠
      threeLeaseState.workers.filter
        (fun w => decide (w.WorkerId ≠ (completionReport (mapLease 1 "a.txt" "0")).WorkerId)) := by
  decide

/-! ## Requests the coordinator does not expect -/

/-- C13 (amended). Unexpected status: for every job state and every request
whose status is neither `idle` nor `completed`, `OnOperationStatusChange`
leaves the whole job state unchanged and returns a copy of the request: the
reply's status is the request's status (not `idle`). -/
theorem unexpected_status_echoed (s : State) (request reply0 : ActiveWorker)
    (h1 : request.Status ≠ Idle) (h2 : request.Status ≠ Completed) :
    (OnOperationStatusChange s request reply0).1 = s ∧
    (OnOperationStatusChange s request reply0).2 = some (copyWorkerInstance request reply0) ∧
    (copyWorkerInstance request reply0).Status = request.Status ∧
    (copyWorkerInstance request reply0).WorkerId = request.WorkerId ∧
    (copyWorkerInstance request reply0).FileNames = request.FileNames := by
  unfold OnOperationStatusChange
  rw [if_neg h1, if_neg h2]
  exact ⟨rfl, rfl, rfl, rfl, rfl⟩

/-- Witness for C13 (amended). -/
theorem unexpected_status_echoed_witness :
    strayRequest.Status ≠ Idle ∧ strayRequest.Status ≠ Completed ∧
    (OnOperationStatusChange lateJob strayRequest zeroWorker).1 = lateJob ∧
    (OnOperationStatusChange lateJob strayRequest zeroWorker).2 =
      some (copyWorkerInstance strayRequest zeroWorker) ∧
    (copyWorkerInstance strayRequest zeroWorker).Status = strayRequest.Status ∧
    (copyWorkerInstance strayRequest zeroWorker).WorkerId = strayRequest.WorkerId ∧
    (copyWorkerInstance strayRequest zeroWorker).FileNames = strayRequest.FileNames :=
  ⟨by decide, by decide,
    unexpected_status_echoed lateJob strayRequest zeroWorker (by decide) (by decide)⟩

/-- C13 as stated fails: a request with status `processing` is answered with
status `processing`, not `idle`. -/
theorem unexpected_status_not_idle :
    strayRequest.Status ≠ Idle ∧ strayRequest.Status ≠ Completed ∧
    (OnOperationStatusChange lateJob strayRequest zeroWorker).2.map ActiveWorker.Status =
      some Processing ∧
    (OnOperationStatusChange lateJob strayRequest zeroWorker).2.map ActiveWorker.Status ≠
      some Idle := by
  decide

/-- C14 (amended). Malformed completion report: for every job state and every
request with status `completed` whose `FileNames` name no task in the table of
its type and whose `WorkerId` matches no lease, `OnOperationStatusChange`
leaves the map-task table, the lease table and the counter unchanged; the
reduce-task table is unchanged when the type is not `map`, and for type `map`
it is the old table followed by one `Unprocessed` task per entry of
`TaskCompletionFileNames` (unchanged only when that list is empty). -/
theorem malformed_report (s : State) (request reply0 : ActiveWorker)
    (hst : request.Status = Completed)
    (hnames : ∀ t ∈ (if request.OperationType = Map then s.filesToMap else s.filesToReduce),
      t.fileName ∉ request.FileNames)
    (hlease : ∀ w ∈ s.workers, w.WorkerId ≠ request.WorkerId) :
    (OnOperationStatusChange s request reply0).1.filesToMap = s.filesToMap ∧
    (OnOperationStatusChange s request reply0).1.workers = s.workers ∧
    (OnOperationStatusChange s request reply0).1.workerId = s.workerId ∧
    (request.OperationType ≠ Map →
      (OnOperationStatusChange s request reply0).1.filesToReduce = s.filesToReduce) ∧
    (request.OperationType = Map →
      (OnOperationStatusChange s request reply0).1.filesToReduce =
        s.filesToReduce ++ request.TaskCompletionFileNames.map
          (fun filename => { status := Unprocessed, fileName := filename })) ∧
    (request.TaskCompletionFileNames = [] →
      (OnOperationStatusChange s request reply0).1.filesToReduce = s.filesToReduce) := by
  rw [OnOperationStatusChange_completed s request reply0 hst, updateFileCompletion_state]
  rw [removeWorkerFrom_absent _ _ 0 _ hlease]
  by_cases hty : request.OperationType = Map
  · rw [if_pos hty] at hnames
    rw [if_pos hty, if_pos hty, relabel_of_not_mem _ _ _ hnames]
    refine ⟨rfl, rfl, rfl, fun h => absurd hty h, fun _ => rfl, ?_⟩
    intro he
    show s.filesToReduce ++ _ = s.filesToReduce
    rw [he]; simp
  · rw [if_neg hty] at hnames
    rw [if_neg hty, if_neg hty, relabel_of_not_mem _ _ _ hnames]
    exact ⟨rfl, rfl, rfl, fun _ => rfl, fun h => absurd h hty, fun _ => rfl⟩

/-- Witness for C14 (amended): an unknown reduce report changes nothing. -/
theorem malformed_report_witness :
    unknownReduceReport.Status = Completed ∧
    (OnOperationStatusChange threeLeaseState unknownReduceReport zeroWorker).1.filesToMap =
      threeLeaseState.filesToMap ∧
    (OnOperationStatusChange threeLeaseState unknownReduceReport zeroWorker).1.workers =
      threeLeaseState.workers ∧
    (OnOperationStatusChange threeLeaseState unknownReduceReport zeroWorker).1.filesToReduce =
      threeLeaseState.filesToReduce :=
  have h := malformed_report threeLeaseState unknownReduceReport zeroWorker (by decide)
    (by decide) (by decide)
  ⟨by decide, h.1, h.2.1, h.2.2.2.1 (by decide)⟩

/-- C14 as stated fails for type `map`: the report names no map task and no
lease, yet its `TaskCompletionFileNames` entry is appended to the reduce-task
table. -/
theorem malformed_map_report_appends :
    unknownMapReport.Status = Completed ∧
    (∀ t ∈ threeLeaseState.filesToMap, t.fileName ∉ unknownMapReport.FileNames) ∧
    (∀ w ∈ threeLeaseState.workers, w.WorkerId ≠ unknownMapReport.WorkerId) ∧
    threeLeaseState.filesToReduce = [] ∧
    (OnOperationStatusChange threeLeaseState unknownMapReport zeroWorker).1.filesToReduce =
      [⟨Unprocessed, "mr-9-0"⟩] := by
  decide

/-! ## Crash recovery -/

theorem incInt32_eq (x : Int) (h1 : -2 ^ 31 ≤ x + 1) (h2 : x + 1 < 2 ^ 31) :
    incInt32 x = x + 1 := by
  unfold incInt32 wrapSigned
  have h : (x + 1 + 2 ^ (32 - 1)) % 2 ^ 32 = x + 1 + 2 ^ (32 - 1) := by
    apply Int.emod_eq_of_lt
    · norm_num; omega
    · norm_num; omega
  rw [h]; ring

/-- One `Done()` call on a state with a single lease that stays within the
threshold only ticks that lease. -/
theorem Done_single_tick (s : State) (w : ActiveWorker) (hws : s.workers = [w])
    (h0 : 0 ≤ w.timeElapsed) (h10 : w.timeElapsed + 1 ≤ 10) :
    (Done s).1 = { s with workers := [{ w with timeElapsed := w.timeElapsed + 1 }] } := by
  have hinc : incInt32 w.timeElapsed = w.timeElapsed + 1 :=
    incInt32_eq _ (by omega) (by omega)
  have hget : s.workers[0]? = some w := by rw [hws]; rfl
  have hgt : ¬ incInt32 w.timeElapsed > 10 := by rw [hinc]; omega
  show sweepFrom s.workers.length 0 s = _
  rw [hws]
  show sweepFrom (0 + 1) 0 s = _
  rw [sweepFrom_succ, hget]
  simp only [hgt, if_false]
  show tickAt s 0 w = _
  unfold tickAt
  rw [hws, hinc]
  rfl

/-- One `Done()` call on a state with a single map lease that exceeds the
threshold reclaims it. -/
theorem Done_single_reclaim (s : State) (w : ActiveWorker) (hws : s.workers = [w])
    (hty : w.OperationType = Map) (h10 : 10 < w.timeElapsed + 1)
    (hmax : w.timeElapsed + 1 < 2 ^ 31) :
    (Done s).1 =
      { s with filesToMap := relabel Unprocessed w.FileNames s.filesToMap, workers := [] } := by
  have hinc : incInt32 w.timeElapsed = w.timeElapsed + 1 :=
    incInt32_eq _ (by omega) hmax
  have hget : s.workers[0]? = some w := by rw [hws]; rfl
  have hgt : incInt32 w.timeElapsed > 10 := by rw [hinc]; omega
  show sweepFrom s.workers.length 0 s = _
  rw [hws]
  show sweepFrom (0 + 1) 0 s = _
  rw [sweepFrom_succ, hget]
  simp only [hgt, if_true]
  show reclaimAt s 0 w = _
  rw [reclaimAt_state, if_pos hty, if_pos hty, hws]
  rfl

theorem doneTimes_ticks (n : Nat) :
    ∀ (s : State) (w : ActiveWorker), s.workers = [w] → 0 ≤ w.timeElapsed →
      w.timeElapsed + n ≤ 10 →
      doneTimes n s = { s with workers := [{ w with timeElapsed := w.timeElapsed + n }] } := by
  induction n with
  | zero =>
    intro s w hws _ _
    simp only [doneTimes, Nat.cast_zero, add_zero]
    rw [← hws]
  | succ n ih =>
    intro s w hws h0 h10
    have hstep := Done_single_tick s w hws h0 (by push_cast at h10; omega)
    rw [doneTimes, hstep,
      ih _ { w with timeElapsed := w.timeElapsed + 1 } rfl (by simp only; omega)
        (by simp only; push_cast at h10; omega)]
    simp only [State.mk.injEq, List.cons.injEq, ActiveWorker.mk.injEq, and_true, true_and]
    push_cast
    ring

theorem relabel_unprocessed_fresh (f : String) (rest : List String) :
    relabel Unprocessed [f]
        (rest.map (fun fileName => ({ status := Unprocessed, fileName := fileName } : MRTask))) =
      rest.map (fun fileName => { status := Unprocessed, fileName := fileName }) := by
  unfold relabel
  rw [List.map_map]
  apply List.map_congr_left
  intro n _
  simp only [Function.comp]
  split <;> rfl

theorem doneTimes_succ (n : Nat) (s : State) :
    doneTimes (n + 1) s = (Done (doneTimes n s)).1 := by
  induction n generalizing s with
  | zero => rfl
  | succ n ih =>
    rw [doneTimes, ih (Done s).1]
    rfl

theorem MakeCoordinator_fresh (f : String) (rest : List String) (nReduce : Int) :
    MakeCoordinator freshState (f :: rest) nReduce =
      crashState f rest nReduce Unprocessed [] 0 := by
  simp [MakeCoordinator, freshState, crashState]

theorem crashState_first_idle (f : String) (rest : List String) (nReduce : Int)
    (counter : Int) (request reply : ActiveWorker) (h : request.Status = Idle) :
    OnOperationStatusChange (crashState f rest nReduce Unprocessed [] counter) request reply =
      (crashState f rest nReduce Processing
          [{ firstLease f nReduce request with WorkerId := incInt counter }] (incInt counter),
        some (copyWorkerInstance
          { request with
            WorkerId := incInt counter, Status := Processing, OperationType := Map,
            timeElapsed := 0, FileNames := [f], TaskId := Itoa (0 : Nat),
            NReduce := nReduce } reply)) := by
  have ha := assignTask_map (crashState f rest nReduce Unprocessed [] counter) request 0
    ⟨Unprocessed, f⟩ (by simp [crashState]) rfl (by intro j hj; omega)
  rw [OnOperationStatusChange_idle _ request reply h _ _ ha]
  rfl

/-- C12. Crash recovery: for every non-empty input list `f :: rest`, starting
from `MakeCoordinator` on a fresh process, an `Idle` request receives `[f]`
under worker id 1; after 10 consecutive `Done()` calls the lease is still the
only entry of the lease table (with 10 ticks) and task 0 is still `Processing`;
after the 11th `Done()` call the lease table is empty and task 0 is
`Unprocessed`; the next `Idle` request receives `[f]` again, under the strictly
larger worker id 2. -/
theorem crash_recovery (f : String) (rest : List String) (nReduce : Int)
    (request1 reply1 request2 reply2 : ActiveWorker)
    (h1 : request1.Status = Idle) (h2 : request2.Status = Idle) :
    ∃ r1 lease r2,
      (OnOperationStatusChange (MakeCoordinator freshState (f :: rest) nReduce)
        request1 reply1).2 = some r1 ∧
      r1.Status = Processing ∧ r1.FileNames = [f] ∧ r1.WorkerId = 1 ∧
      (afterFirstCall (f :: rest) nReduce request1 reply1).workers = [lease] ∧
      lease.WorkerId = r1.WorkerId ∧ lease.FileNames = [f] ∧ lease.timeElapsed = 0 ∧
      (doneTimes 10 (afterFirstCall (f :: rest) nReduce request1 reply1)).workers =
        [{ lease with timeElapsed := 10 }] ∧
      (doneTimes 10 (afterFirstCall (f :: rest) nReduce request1 reply1)).filesToMap[0]? =
        some ⟨Processing, f⟩ ∧
      (doneTimes 11 (afterFirstCall (f :: rest) nReduce request1 reply1)).workers = [] ∧
      (doneTimes 11 (afterFirstCall (f :: rest) nReduce request1 reply1)).filesToMap[0]? =
        some ⟨Unprocessed, f⟩ ∧
      (OnOperationStatusChange
        (doneTimes 11 (afterFirstCall (f :: rest) nReduce request1 reply1))
        request2 reply2).2 = some r2 ∧
      r2.Status = Processing ∧ r2.FileNames = [f] ∧ r2.WorkerId = 2 ∧
      r1.WorkerId < r2.WorkerId := by
  have hinc0 : incInt 0 = 1 := incInt_eq 0 (by norm_num) (by norm_num)
  have hinc1 : incInt 1 = 2 := incInt_eq 1 (by norm_num) (by norm_num)
  have hcall := crashState_first_idle f rest nReduce 0 request1 reply1 h1
  rw [hinc0] at hcall
  have hs1 : afterFirstCall (f :: rest) nReduce request1 reply1 =
      crashState f rest nReduce Processing [firstLease f nReduce request1] 1 := by
    unfold afterFirstCall
    rw [MakeCoordinator_fresh, hcall]
    rfl
  have h10 : doneTimes 10 (crashState f rest nReduce Processing
      [firstLease f nReduce request1] 1) =
      crashState f rest nReduce Processing
        [{ firstLease f nReduce request1 with timeElapsed := 10 }] 1 := by
    rw [doneTimes_ticks 10 _ (firstLease f nReduce request1) rfl
      (by show (0 : Int) ≤ 0; norm_num) (by show (0 : Int) + (10 : Nat) ≤ 10; norm_num)]
    rfl
  have h11 : doneTimes 11 (crashState f rest nReduce Processing
      [firstLease f nReduce request1] 1) = crashState f rest nReduce Unprocessed [] 1 := by
    rw [doneTimes_succ, h10,
      Done_single_reclaim _ { firstLease f nReduce request1 with timeElapsed := 10 } rfl rfl
        (by norm_num) (by norm_num)]
    unfold crashState
    simp only [State.mk.injEq, and_true, true_and]
    show relabel Unprocessed [f] (_ :: _) = _
    rw [← relabel_unprocessed_fresh f rest]
    simp [relabel]
  have hcall2 := crashState_first_idle f rest nReduce 1 request2 reply2 h2
  rw [hinc1] at hcall2
  rw [MakeCoordinator_fresh, hcall, hs1, h10, h11, hcall2]
  refine ⟨_, firstLease f nReduce request1, _, rfl, rfl, rfl, rfl, rfl, rfl, rfl, rfl, rfl, ?_,
    rfl, ?_, rfl, rfl, rfl, rfl, by show (1 : Int) < 2; norm_num⟩
  · simp [crashState]
  · simp [crashState]

/-- Witness for C12: a two-file job, `nReduce = 3`. -/
theorem crash_recovery_witness :
    idleRequest.Status = Idle ∧
    ∃ r1 lease r2,
      (OnOperationStatusChange (MakeCoordinator freshState ("a.txt" :: ["b.txt"]) 3)
        idleRequest zeroWorker).2 = some r1 ∧
      r1.Status = Processing ∧ r1.FileNames = ["a.txt"] ∧ r1.WorkerId = 1 ∧
      (afterFirstCall ("a.txt" :: ["b.txt"]) 3 idleRequest zeroWorker).workers = [lease] ∧
      lease.WorkerId = r1.WorkerId ∧ lease.FileNames = ["a.txt"] ∧ lease.timeElapsed = 0 ∧
      (doneTimes 10 (afterFirstCall ("a.txt" :: ["b.txt"]) 3 idleRequest zeroWorker)).workers =
        [{ lease with timeElapsed := 10 }] ∧
      (doneTimes 10
        (afterFirstCall ("a.txt" :: ["b.txt"]) 3 idleRequest zeroWorker)).filesToMap[0]? =
        some ⟨Processing, "a.txt"⟩ ∧
      (doneTimes 11 (afterFirstCall ("a.txt" :: ["b.txt"]) 3 idleRequest zeroWorker)).workers =
        [] ∧
      (doneTimes 11
        (afterFirstCall ("a.txt" :: ["b.txt"]) 3 idleRequest zeroWorker)).filesToMap[0]? =
        some ⟨Unprocessed, "a.txt"⟩ ∧
      (OnOperationStatusChange
        (doneTimes 11 (afterFirstCall ("a.txt" :: ["b.txt"]) 3 idleRequest zeroWorker))
        idleRequest zeroWorker).2 = some r2 ∧
      r2.Status = Processing ∧ r2.FileNames = ["a.txt"] ∧ r2.WorkerId = 2 ∧
      r1.WorkerId < r2.WorkerId :=
  ⟨by decide,
    crash_recovery "a.txt" ["b.txt"] 3 idleRequest zeroWorker idleRequest zeroWorker
      (by decide) (by decide)⟩

/-! ## The reclaim sweep of one `Done()` call -/

theorem removeElementAtIndex_split (pre post : List ActiveWorker) (w : ActiveWorker) :
    ∃ post', removeElementAtIndex (pre ++ w :: post) pre.length = pre ++ post' ∧
      post'.Perm post := by
  rcases List.eq_nil_or_concat post with rfl | ⟨mid, l, hpost⟩
  · exact ⟨[], by rw [removeElementAtIndex_last]; simp, List.Perm.refl _⟩
  · rw [List.concat_eq_append] at hpost
    subst hpost
    exact ⟨l :: mid, removeElementAtIndex_inner pre mid w l,
      (List.perm_append_singleton l mid).symm⟩

theorem reclaimedTable_nil (b : Bool) (tbl : List MRTask) : reclaimedTable b [] tbl = tbl := by
  unfold reclaimedTable
  simp

theorem reclaimedTable_perm (b : Bool) (ws ws' : List ActiveWorker) (tbl : List MRTask)
    (h : ws.Perm ws') : reclaimedTable b ws tbl = reclaimedTable b ws' tbl := by
  unfold reclaimedTable
  apply List.map_congr_left
  intro t _
  have : ∀ f : ActiveWorker → Bool, ws.any f = ws'.any f := by
    intro f
    rw [Bool.eq_iff_iff, List.any_eq_true, List.any_eq_true]
    constructor
    · rintro ⟨x, hx, hf⟩; exact ⟨x, h.mem_iff.1 hx, hf⟩
    · rintro ⟨x, hx, hf⟩; exact ⟨x, h.mem_iff.2 hx, hf⟩
  rw [this]

theorem reclaimedTable_cons_kept (b : Bool) (w : ActiveWorker) (ws : List ActiveWorker)
    (tbl : List MRTask) (h : expired w = false) :
    reclaimedTable b (w :: ws) tbl = reclaimedTable b ws tbl := by
  unfold reclaimedTable
  simp [h]

theorem reclaimedTable_cons_expired (b : Bool) (w : ActiveWorker) (ws : List ActiveWorker)
    (tbl : List MRTask) (h : expired w = true) :
    reclaimedTable b (w :: ws) tbl =
      reclaimedTable b ws
        (if (decide (w.OperationType = Map) == b) = true then
          relabel Unprocessed w.FileNames tbl else tbl) := by
  unfold reclaimedTable relabel
  by_cases hb : (decide (w.OperationType = Map) == b) = true
  · rw [if_pos hb, List.map_map]
    apply List.map_congr_left
    intro t _
    by_cases hn : t.fileName ∈ w.FileNames
    · by_cases hany : ws.any (fun w => expired w &&
          (decide (w.OperationType = Map) == b) && decide (t.fileName ∈ w.FileNames)) = true
      · simp [h, hb, hn, hany]
      · simp [h, hb, hn, hany]
    · simp [h, hb, hn]
  · rw [if_neg hb]
    apply List.map_congr_left
    intro t _
    simp [h, hb]

/-- The sweep from index `done.length` on: the leases already visited are
kept, the others are ticked and kept or reclaimed. -/
theorem sweepFrom_spec (fuel : Nat) :
    ∀ (done todo : List ActiveWorker) (s : State), s.workers = done ++ todo →
      todo.length ≤ fuel →
      (sweepFrom fuel done.length s).workers.Perm
        (done ++ (todo.filter (fun w => !expired w)).map ticked) ∧
      (sweepFrom fuel done.length s).filesToMap = reclaimedTable true todo s.filesToMap ∧
      (sweepFrom fuel done.length s).filesToReduce =
        reclaimedTable false todo s.filesToReduce ∧
      (sweepFrom fuel done.length s).workerId = s.workerId ∧
      (sweepFrom fuel done.length s).nReduceCount = s.nReduceCount := by
  induction fuel with
  | zero =>
    intro done todo s hws hlen
    have : todo = [] := List.length_eq_zero.1 (Nat.le_zero.1 hlen)
    subst this
    refine ⟨?_, ?_, ?_, rfl, rfl⟩
    · show s.workers.Perm _
      rw [hws]; simp
    · rw [reclaimedTable_nil]; rfl
    · rw [reclaimedTable_nil]; rfl
  | succ fuel ih =>
    intro done todo s hws hlen
    cases todo with
    | nil =>
      have hnone : s.workers[done.length]? = none := by
        rw [hws]; simp
      rw [sweepFrom_succ, hnone]
      refine ⟨?_, ?_, ?_, rfl, rfl⟩
      · show s.workers.Perm _
        rw [hws]; simp
      · rw [reclaimedTable_nil]
      · rw [reclaimedTable_nil]
    | cons w rest =>
      have hsome : s.workers[done.length]? = some w := by
        rw [hws, List.getElem?_append_right (le_refl _)]; simp
      have hlen' : rest.length ≤ fuel := by
        simp only [List.length_cons] at hlen; omega
      rw [sweepFrom_succ, hsome]
      by_cases hexp : incInt32 w.timeElapsed > 10
      · have hexp' : expired w = true := by simp [expired, hexp]
        simp only [hexp, if_true]
        obtain ⟨rest', hrem, hperm⟩ := removeElementAtIndex_split done rest (ticked w)
        have hws' : (reclaimAt s done.length w).workers = done ++ rest' := by
          rw [reclaimAt_state, hws]
          show removeElementAtIndex ((done ++ w :: rest).set done.length (ticked w)) _ = _
          rw [List.set_append_right _ _ (le_refl _)]
          simpa using hrem
        obtain ⟨h1, h2, h3, h4, h5⟩ := ih done rest' (reclaimAt s done.length w) hws'
          (by rw [hperm.length_eq]; exact hlen')
        refine ⟨?_, ?_, ?_, ?_, ?_⟩
        · refine h1.trans ?_
          apply List.Perm.append_left
          simp only [List.filter_cons, hexp', Bool.not_true, Bool.false_eq_true, if_false]
          exact (hperm.filter _).map _
        · rw [h2, reclaimedTable_cons_expired true w rest _ hexp',
            reclaimedTable_perm true rest' rest _ hperm, reclaimAt_state]
          by_cases hm : w.OperationType = Map <;> simp [hm]
        · rw [h3, reclaimedTable_cons_expired false w rest _ hexp',
            reclaimedTable_perm false rest' rest _ hperm, reclaimAt_state]
          by_cases hm : w.OperationType = Map <;> simp [hm]
        · rw [h4, reclaimAt_state]
        · rw [h5, reclaimAt_state]
      · have hexp' : expired w = false := by simp [expired, hexp]
        simp only [hexp, if_false]
        have hws' : (tickAt s done.length w).workers = (done ++ [ticked w]) ++ rest := by
          unfold tickAt
          show (s.workers.set done.length (ticked w)) = _
          rw [hws, List.set_append_right _ _ (le_refl _)]
          simp
        have hl : (done ++ [ticked w]).length = done.length + 1 := by simp
        obtain ⟨h1, h2, h3, h4, h5⟩ := ih (done ++ [ticked w]) rest (tickAt s done.length w)
          hws' hlen'
        rw [hl] at h1 h2 h3 h4 h5
        refine ⟨?_, ?_, ?_, h4, h5⟩
        · refine h1.trans ?_
          simp [List.filter_cons, hexp']
        · rw [h2, reclaimedTable_cons_kept true w rest _ hexp']
          rfl
        · rw [h3, reclaimedTable_cons_kept false w rest _ hexp']
          rfl

/-- The state `updateWorkerTimeElapsed` leaves behind, for every job state. -/
theorem updateWorkerTimeElapsed_spec (s : State) :
    (updateWorkerTimeElapsed s).workers.Perm
      ((s.workers.filter (fun w => !expired w)).map ticked) ∧
    (updateWorkerTimeElapsed s).filesToMap = reclaimedTable true s.workers s.filesToMap ∧
    (updateWorkerTimeElapsed s).filesToReduce =
      reclaimedTable false s.workers s.filesToReduce ∧
    (updateWorkerTimeElapsed s).workerId = s.workerId ∧
    (updateWorkerTimeElapsed s).nReduceCount = s.nReduceCount := by
  have h := sweepFrom_spec s.workers.length [] s.workers s rfl (le_refl _)
  simpa [updateWorkerTimeElapsed] using h

theorem reclaimedTable_eq (b : Bool) (ws : List ActiveWorker) (tbl : List MRTask)
    (P : ActiveWorker → MRTask → Prop) [∀ w t, Decidable (P w t)]
    (h : ∀ w ∈ ws, ∀ t ∈ tbl,
      ((expired w && (decide (w.OperationType = Map) == b) &&
        decide (t.fileName ∈ w.FileNames)) = true ↔ P w t)) :
    reclaimedTable b ws tbl =
      tbl.map (fun task =>
        if ∃ w ∈ ws, P w task then { task with status := Unprocessed } else task) := by
  unfold reclaimedTable
  apply List.map_congr_left
  intro t ht
  have hiff : (ws.any (fun w => expired w && (decide (w.OperationType = Map) == b) &&
      decide (t.fileName ∈ w.FileNames)) = true) ↔ ∃ w ∈ ws, P w t := by
    rw [List.any_eq_true]
    constructor
    · rintro ⟨w, hw, hp⟩; exact ⟨w, hw, (h w hw t ht).1 hp⟩
    · rintro ⟨w, hw, hp⟩; exact ⟨w, hw, (h w hw t ht).2 hp⟩
  by_cases hc : ∃ w ∈ ws, P w t
  · rw [if_pos hc, if_pos (hiff.2 hc)]
  · rw [if_neg hc, if_neg (fun e => hc (hiff.1 e))]

/-- C17 (amended). Reclaim sweep of one `Done()` call: for every job state
whose leases have tick counts below the largest `int32`, the loop of
`updateWorkerTimeElapsed` terminates (more than `len(workers)` iterations
change nothing); the resulting lease table is, up to order, exactly the old
leases whose tick count plus one is at most 10, each with its tick count
increased by one; every task named by a lease whose tick count plus one
exceeds 10 (in the map table for a lease of type `map`, in the reduce table
otherwise) is `Unprocessed` afterwards, and every other task is untouched. -/
theorem reclaim_sweep (s : State)
    (hrange : ∀ w ∈ s.workers, -2 ^ 31 ≤ w.timeElapsed ∧ w.timeElapsed < 2 ^ 31 - 1) :
    (∀ extra, sweepFrom (s.workers.length + extra) 0 s = (Done s).1) ∧
    (Done s).1.workers.Perm
      ((s.workers.filter (fun w => decide (w.timeElapsed + 1 ≤ 10))).map
        (fun w => { w with timeElapsed := w.timeElapsed + 1 })) ∧
    (Done s).1.filesToMap = s.filesToMap.map (fun task =>
      if ∃ w ∈ s.workers, 10 < w.timeElapsed + 1 ∧ w.OperationType = Map ∧
          task.fileName ∈ w.FileNames then
        { task with status := Unprocessed }
      else task) ∧
    (Done s).1.filesToReduce = s.filesToReduce.map (fun task =>
      if ∃ w ∈ s.workers, 10 < w.timeElapsed + 1 ∧ w.OperationType ≠ Map ∧
          task.fileName ∈ w.FileNames then
        { task with status := Unprocessed }
      else task) := by
  have hinc : ∀ w ∈ s.workers, incInt32 w.timeElapsed = w.timeElapsed + 1 := by
    intro w hw
    obtain ⟨h1, h2⟩ := hrange w hw
    exact incInt32_eq _ (by omega) (by omega)
  obtain ⟨h1, h2, h3, _, _⟩ := updateWorkerTimeElapsed_spec s
  refine ⟨fun extra => sweepFrom_fuel s.workers.length 0 s (by omega) extra, ?_, ?_, ?_⟩
  · show (updateWorkerTimeElapsed s).workers.Perm _
    refine h1.trans (List.Perm.of_eq ?_)
    have hf : s.workers.filter (fun w => !expired w) =
        s.workers.filter (fun w => decide (w.timeElapsed + 1 ≤ 10)) := by
      apply List.filter_congr
      intro w hw
      simp only [expired, hinc w hw]
      by_cases h : w.timeElapsed + 1 ≤ 10
      · simp [h]
      · simp [h]; omega
    rw [hf]
    apply List.map_congr_left
    intro w hw
    have hw' := (List.mem_filter.1 hw).1
    simp only [ticked, hinc w hw']
  · show (updateWorkerTimeElapsed s).filesToMap = _
    rw [h2]
    apply reclaimedTable_eq
    intro w hw t _
    simp only [expired, hinc w hw, Bool.and_eq_true, decide_eq_true_eq, beq_iff_eq,
      decide_eq_true_eq, gt_iff_lt]
    simp [and_assoc]
  · show (updateWorkerTimeElapsed s).filesToReduce = _
    rw [h3]
    apply reclaimedTable_eq
    intro w hw t _
    simp only [expired, hinc w hw, Bool.and_eq_true, decide_eq_true_eq, beq_iff_eq,
      decide_eq_true_eq, gt_iff_lt]
    simp [and_assoc]

/-- Witness for C17 (amended): leases of 10, 3 and 10 ticks; the first and the
third are reclaimed. -/
theorem reclaim_sweep_witness :
    (∀ w ∈ sweepState.workers, -2 ^ 31 ≤ w.timeElapsed ∧ w.timeElapsed < 2 ^ 31 - 1) ∧
    (Done sweepState).1.workers = [{ mapLease 2 "b.txt" "1" with timeElapsed := 4 }] ∧
    (Done sweepState).1.filesToMap = [⟨Unprocessed, "a.txt"⟩, ⟨Processing, "b.txt"⟩] ∧
    (Done sweepState).1.filesToReduce = [⟨Unprocessed, "mr-0-0"⟩, ⟨Unprocessed, "mr-0-1"⟩] ∧
    (Done sweepState).1.filesToMap = sweepState.filesToMap.map (fun task =>
      if ∃ w ∈ sweepState.workers, 10 < w.timeElapsed + 1 ∧ w.OperationType = Map ∧
          task.fileName ∈ w.FileNames then
        { task with status := Unprocessed }
      else task) :=
  ⟨by decide, by decide, by decide, by decide,
    (reclaim_sweep sweepState (by decide)).2.2.1⟩

/-- C17 as stated fails where a tick count is the largest `int32`: the old
tick count plus one exceeds 10, yet the increment wraps to `-2^31`, the lease
is kept and its task stays `Processing`. -/
theorem reclaim_sweep_tick_wraps :
    (10 : Int) < (2 ^ 31 - 1) + 1 ∧
    agedLeaseState.workers = [{ mapLease 1 "a.txt" "0" with timeElapsed := 2 ^ 31 - 1 }] ∧
    (Done agedLeaseState).1.workers =
      [{ mapLease 1 "a.txt" "0" with timeElapsed := -2 ^ 31 }] ∧
    (Done agedLeaseState).1.filesToMap = [⟨Processing, "a.txt"⟩] := by
  decide

/-! ## Worker ids -/

theorem getUnmappedTask_frame (s : State) (i : Nat) (found : MRTask) (s1 : State)
    (h : getUnmappedTask s = some (i, found, s1)) :
    s1.workers = s.workers ∧ s1.workerId = s.workerId := by
  unfold getUnmappedTask at h
  cases hf : getUnmappedTaskFrom 0 s.filesToMap with
  | none => simp [hf] at h
  | some q =>
    obtain ⟨j, fnd, tbl⟩ := q
    simp only [hf, Option.some.injEq, Prod.mk.injEq] at h
    obtain ⟨_, _, h3⟩ := h
    subst h3
    exact ⟨rfl, rfl⟩

/-- What `assignTask` does to the counter and the lease table, panics
included: either a lease with the incremented counter is appended and the
request is answered `processing` under that id, or nothing changes. -/
theorem assignTask_counter (s : State) (request : ActiveWorker) :
    (∃ lease r, (assignTask s request).2 = some r ∧ r.Status = Processing ∧
      r.WorkerId = incInt s.workerId ∧ lease.WorkerId = incInt s.workerId ∧
      (assignTask s request).1.workerId = incInt s.workerId ∧
      (assignTask s request).1.workers = s.workers ++ [lease]) ∨
    ((assignTask s request).1.workerId = s.workerId ∧
      (assignTask s request).1.workers = s.workers ∧
      ∀ r, (assignTask s request).2 = some r → r.Status = Idle) := by
  unfold assignTask
  simp only
  cases hu : getUnmappedTask s with
  | some q =>
    obtain ⟨taskId, newMapTask, s1⟩ := q
    obtain ⟨h1, h2⟩ := getUnmappedTask_frame s taskId newMapTask s1 hu
    left
    simp only
    rw [h1, h2]
    exact ⟨_, _, rfl, rfl, rfl, rfl, rfl, rfl⟩
  | none =>
    simp only
    by_cases hd : isAllMapTasksDone s = true
    · simp only [hd, Bool.not_true, Bool.false_eq_true, if_false]
      obtain ⟨_, h2, h3, _, _⟩ := getReduceTasks_frame s
      cases hg : getReduceTasks s with
      | mk s1 res =>
        rw [hg] at h2 h3
        simp only at h2 h3
        cases res with
        | none =>
          right
          exact ⟨h3, h2, by intro r hr; cases hr⟩
        | some pr =>
          obtain ⟨taskNumber, newReduceTasks⟩ := pr
          simp only
          by_cases hl : newReduceTasks.length > 0
          · left
            rw [if_pos hl, h2, h3]
            exact ⟨_, _, rfl, rfl, rfl, rfl, rfl, rfl⟩
          · right
            rw [if_neg hl]
            refine ⟨h3, h2, ?_⟩
            intro r hr
            cases hr
            rfl
    · right
      have hd' : (!isAllMapTasksDone s) = true := by simpa using hd
      rw [if_pos hd']
      refine ⟨rfl, rfl, ?_⟩
      intro r hr
      cases hr
      rfl

theorem exists_first_match (ws : List ActiveWorker) (wid : Int) :
    (∀ x ∈ ws, x.WorkerId ≠ wid) ∨
    ∃ (pre post : List ActiveWorker) (w : ActiveWorker), ws = pre ++ w :: post ∧
      (∀ x ∈ pre, x.WorkerId ≠ wid) ∧ w.WorkerId = wid := by
  induction ws with
  | nil => left; simp
  | cons x xs ih =>
    by_cases hx : x.WorkerId = wid
    · right
      exact ⟨[], xs, x, rfl, by simp, hx⟩
    · rcases ih with h | ⟨pre, post, w, h1, h2, h3⟩
      · left
        intro y hy
        rcases List.mem_cons.1 hy with rfl | hy
        · exact hx
        · exact h y hy
      · right
        refine ⟨x :: pre, post, w, by simp [h1], ?_, h3⟩
        intro y hy
        rcases List.mem_cons.1 hy with rfl | hy
        · exact hx
        · exact h2 y hy

/-- The lease removal of `updateFileCompletion` leaves a sub-multiset of the
lease table. -/
theorem removeWorkerFrom_subperm (ws : List ActiveWorker) (wid : Int) :
    ∃ kept : List ActiveWorker, (removeWorkerFrom ws wid 0 ws).Perm kept ∧ kept.Sublist ws := by
  rcases exists_first_match ws wid with h | ⟨pre, post, w, h1, h2, h3⟩
  · exact ⟨ws, by rw [removeWorkerFrom_absent _ _ 0 _ h], List.Sublist.refl _⟩
  · refine ⟨pre ++ post, ?_, ?_⟩
    · rw [h1, removeWorkerFrom_found _ _ 0 pre post w h2 h3, Nat.zero_add]
      exact removeElementAtIndex_perm pre post w
    · rw [h1]
      exact List.Sublist.append (List.Sublist.refl _) (List.sublist_cons_self _ _)

theorem idle_ne_processing : Idle ≠ Processing := by decide

theorem OnOperationStatusChange_idle_eq (s : State) (request reply0 : ActiveWorker)
    (hreq : request.Status = Idle) :
    OnOperationStatusChange s request reply0 =
      ((assignTask s request).1,
        (assignTask s request).2.map (fun r => copyWorkerInstance r reply0)) := by
  unfold OnOperationStatusChange
  rw [if_pos hreq]
  cases assignTask s request with
  | mk s1 res => cases res <;> rfl

/-- What one RPC does to the counter and the lease table, for every state and
every request: an `Idle` request answered `processing` appends one lease under
the incremented counter; every other call keeps the counter and removes at
most one lease. -/
theorem OnOperationStatusChange_counter (s : State) (request reply0 : ActiveWorker) :
    (request.Status = Idle ∧
      ∃ lease r, (OnOperationStatusChange s request reply0).2 = some r ∧
        r.Status = Processing ∧ r.WorkerId = incInt s.workerId ∧
        lease.WorkerId = incInt s.workerId ∧
        (OnOperationStatusChange s request reply0).1.workerId = incInt s.workerId ∧
        (OnOperationStatusChange s request reply0).1.workers = s.workers ++ [lease] ∧
        assignedIds s request reply0 = [incInt s.workerId]) ∨
    ((OnOperationStatusChange s request reply0).1.workerId = s.workerId ∧
      (∃ kept : List ActiveWorker,
        (OnOperationStatusChange s request reply0).1.workers.Perm kept ∧
        kept.Sublist s.workers) ∧
      assignedIds s request reply0 = [] ∧
      ¬ (request.Status = Idle ∧
        ∃ r, (OnOperationStatusChange s request reply0).2 = some r ∧
          r.Status = Processing)) := by
  by_cases hidle : request.Status = Idle
  · have heq := OnOperationStatusChange_idle_eq s request reply0 hidle
    rcases assignTask_counter s request with
      ⟨lease, r, hr, hst, hid, hl, hw, hws⟩ | ⟨hw, hws, hr⟩
    · left
      refine ⟨hidle, lease, copyWorkerInstance r reply0, ?_, hst, hid, hl, ?_, ?_, ?_⟩
      · rw [heq]; simp only; rw [hr]; rfl
      · rw [heq]; exact hw
      · rw [heq]; exact hws
      · unfold assignedIds
        rw [if_pos hidle, heq]
        simp only
        rw [hr]
        simp only [Option.map_some']
        rw [if_pos (show (copyWorkerInstance r reply0).Status = Processing from hst)]
        exact congrArg (fun x => [x]) hid
    · right
      have hnot : ∀ r', (OnOperationStatusChange s request reply0).2 = some r' →
          r'.Status ≠ Processing := by
        intro r' hr'
        rw [heq] at hr'
        simp only at hr'
        cases hres : (assignTask s request).2 with
        | none => rw [hres] at hr'; cases hr'
        | some r0 =>
          rw [hres] at hr'
          simp only [Option.map_some', Option.some.injEq] at hr'
          rw [← hr']
          show r0.Status ≠ Processing
          rw [hr r0 hres]
          exact idle_ne_processing
      refine ⟨by rw [heq]; exact hw, ⟨s.workers, by rw [heq]; simp only; rw [hws],
        List.Sublist.refl _⟩, ?_, ?_⟩
      · unfold assignedIds
        rw [if_pos hidle]
        cases hres : (OnOperationStatusChange s request reply0).2 with
        | none => rfl
        | some r' =>
          simp only
          rw [if_neg (hnot r' hres)]
      · rintro ⟨_, r', hr', hp⟩
        exact hnot r' hr' hp
  · right
    have hids : assignedIds s request reply0 = [] := by
      unfold assignedIds
      rw [if_neg hidle]
    refine ⟨?_, ?_, hids, fun h => hidle h.1⟩
    · by_cases hc : request.Status = Completed
      · rw [OnOperationStatusChange_completed s request reply0 hc, updateFileCompletion_state]
      · unfold OnOperationStatusChange
        rw [if_neg hidle, if_neg hc]
    · by_cases hc : request.Status = Completed
      · rw [OnOperationStatusChange_completed s request reply0 hc, updateFileCompletion_state]
        exact removeWorkerFrom_subperm s.workers request.WorkerId
      · refine ⟨s.workers, ?_, List.Sublist.refl _⟩
        unfold OnOperationStatusChange
        rw [if_neg hidle, if_neg hc]

/-- The facts about worker ids that hold along every run. -/
theorem AnyRun_ids (files : List String) (nReduce : Int) (s : State) (ids : List Int)
    (h : AnyRun files nReduce s ids) :
    0 ≤ s.workerId ∧ (∀ w ∈ s.workers, w.WorkerId ≤ s.workerId) ∧
    (s.workers.map ActiveWorker.WorkerId).Nodup ∧
    ids.Pairwise (fun later earlier => earlier < later) ∧ (∀ id ∈ ids, id ≤ s.workerId) := by
  induction h with
  | init =>
    simp [MakeCoordinator, freshState]
  | rpc s ids request reply0 _ hwid ih =>
    obtain ⟨h0, hb, hnd, hpw, hle⟩ := ih
    have hinc : incInt s.workerId = s.workerId + 1 := incInt_eq _ (by omega) (by omega)
    rcases OnOperationStatusChange_counter s request reply0 with
      ⟨_, lease, r, _, _, _, hl, hw, hws, hids⟩ | ⟨hw, ⟨kept, hperm, hsub⟩, hids, _⟩
    · rw [hw, hws, hids, hinc]
      rw [hinc] at hl
      refine ⟨by omega, ?_, ?_, ?_, ?_⟩
      · intro w hw'
        rcases List.mem_append.1 hw' with hw' | hw'
        · have := hb w hw'; omega
        · rw [List.mem_singleton] at hw'; subst hw'; omega
      · rw [List.map_append, List.nodup_append]
        refine ⟨hnd, by simp, ?_⟩
        intro a ha hb'
        simp only [List.map_cons, List.map_nil, List.mem_singleton] at hb'
        obtain ⟨w, hw', rfl⟩ := List.mem_map.1 ha
        have := hb w hw'
        omega
      · simp only [List.singleton_append, List.pairwise_cons]
        exact ⟨fun id hid => by have := hle id hid; omega, hpw⟩
      · intro id hid
        simp only [List.singleton_append, List.mem_cons] at hid
        rcases hid with rfl | hid
        · exact le_refl _
        · have := hle id hid; omega
    · rw [hw, hids]
      refine ⟨h0, ?_, ?_, by simpa using hpw, by simpa using hle⟩
      · intro w hw'
        exact hb w (hsub.subset (hperm.mem_iff.1 hw'))
      · rw [(hperm.map _).nodup_iff]
        exact List.Nodup.sublist (hsub.map _) hnd
  | done s ids _ ih =>
    obtain ⟨h0, hb, hnd, hpw, hle⟩ := ih
    obtain ⟨hperm, _, _, hw, _⟩ := updateWorkerTimeElapsed_spec s
    have hw' : (Done s).1.workerId = s.workerId := hw
    have hperm' : (Done s).1.workers.Perm
        ((s.workers.filter (fun w => !expired w)).map ticked) := hperm
    rw [hw']
    refine ⟨h0, ?_, ?_, hpw, hle⟩
    · intro w hmem
      obtain ⟨w0, hw0, rfl⟩ := List.mem_map.1 (hperm'.mem_iff.1 hmem)
      exact hb w0 (List.mem_filter.1 hw0).1
    · rw [(hperm'.map _).nodup_iff, List.map_map]
      have : (ActiveWorker.WorkerId ∘ ticked) = ActiveWorker.WorkerId := rfl
      rw [this]
      exact List.Nodup.sublist ((List.filter_sublist _).map _) hnd

/-- C15 (amended). Worker ids are strictly increasing: for every state whose
counter is a 64-bit `int` below `2^63 - 1` and every request, a call that makes
an assignment (an `Idle` request answered with status `processing`) returns a
`WorkerId` equal to the previous counter value plus one and leaves the counter
at that value; every other call, `Done()` included, leaves the counter
unchanged, also when the reply has status `processing` because a request with
that status was echoed; hence along every run from `MakeCoordinator` the worker
ids handed out are strictly increasing and the leases of the lease table have
pairwise distinct `WorkerId`s. -/
theorem worker_ids_increase :
    (∀ (s : State) (request reply0 : ActiveWorker),
      -2 ^ 63 ≤ s.workerId → s.workerId < 2 ^ 63 - 1 →
      (∀ r, request.Status = Idle →
        (OnOperationStatusChange s request reply0).2 = some r → r.Status = Processing →
        r.WorkerId = s.workerId + 1 ∧
        (OnOperationStatusChange s request reply0).1.workerId = s.workerId + 1) ∧
      (¬ (request.Status = Idle ∧
          ∃ r, (OnOperationStatusChange s request reply0).2 = some r ∧
            r.Status = Processing) →
        (OnOperationStatusChange s request reply0).1.workerId = s.workerId)) ∧
    (∀ s : State, (Done s).1.workerId = s.workerId) ∧
    (∀ (files : List String) (nReduce : Int) (s : State) (ids : List Int),
      AnyRun files nReduce s ids →
      ids.Pairwise (fun later earlier => earlier < later) ∧
      (∀ id ∈ ids, id ≤ s.workerId) ∧
      (s.workers.map ActiveWorker.WorkerId).Nodup) := by
  refine ⟨?_, ?_, ?_⟩
  · intro s request reply0 hlo hhi
    have hinc : incInt s.workerId = s.workerId + 1 := incInt_eq _ (by omega) (by omega)
    rcases OnOperationStatusChange_counter s request reply0 with
      ⟨_, lease, r, hr, _, hid, _, hw, _, _⟩ | ⟨hw, _, _, hnot⟩
    · refine ⟨?_, ?_⟩
      · intro r' _ hr' _
        rw [hr] at hr'
        cases hr'
        exact ⟨by rw [hid, hinc], by rw [hw, hinc]⟩
      · intro hno
        exact absurd ⟨by assumption, r, hr, by assumption⟩ hno
    · refine ⟨?_, fun _ => hw⟩
      intro r' hidle hr' hp
      exact absurd ⟨hidle, r', hr', hp⟩ hnot
  · intro s
    exact (updateWorkerTimeElapsed_spec s).2.2.2.1
  · intro files nReduce s ids h
    obtain ⟨_, _, hnd, hpw, hle⟩ := AnyRun_ids files nReduce s ids h
    exact ⟨hpw, hle, hnd⟩

theorem AnyRun_congr (files : List String) (nReduce : Int) (s s' : State) (ids ids' : List Int)
    (h : AnyRun files nReduce s ids) (hs : s = s') (hids : ids = ids') :
    AnyRun files nReduce s' ids' := by
  subst hs hids
  exact h

/-- A run of `twoFileJob` with two assignments: an `Idle` request, a request
with status `processing`, a `Done()` call and a second `Idle` request. -/
theorem twoAssignments_run : AnyRun ["a.txt", "b.txt"] 3 twoAssignmentsState [2, 1] := by
  have h0 : AnyRun ["a.txt", "b.txt"] 3 twoFileJob [] := AnyRun.init
  have h1 := AnyRun.rpc twoFileJob [] idleRequest zeroWorker h0 (by decide)
  have h2 := AnyRun.rpc _ _ strayRequest zeroWorker h1 (by decide)
  have h3 := AnyRun.done _ _ h2
  have h4 := AnyRun.rpc _ _ idleRequest zeroWorker h3 (by decide)
  exact AnyRun_congr _ _ _ _ _ _ h4 (by decide) (by decide)

/-- Witness for C15 (amended): the first call of a two-file job hands out the
counter value 0 plus one; a run with two assignments, an echoed request and a
`Done()` call hands out the ids 1 and 2 and leaves two leases with these ids. -/
theorem worker_ids_increase_witness :
    ((OnOperationStatusChange twoFileJob idleRequest zeroWorker).2 =
        some (mapAssignment 1 "a.txt" 0 3) ∧
      (mapAssignment 1 "a.txt" 0 3).WorkerId = twoFileJob.workerId + 1 ∧
      (OnOperationStatusChange twoFileJob idleRequest zeroWorker).1.workerId =
        twoFileJob.workerId + 1) ∧
    (Done twoAssignmentsState).1.workerId = twoAssignmentsState.workerId ∧
    AnyRun ["a.txt", "b.txt"] 3 twoAssignmentsState [2, 1] ∧
    [(2 : Int), 1].Pairwise (fun later earlier => earlier < later) ∧
    (∀ id ∈ [(2 : Int), 1], id ≤ twoAssignmentsState.workerId) ∧
    twoAssignmentsState.workers.map ActiveWorker.WorkerId = [1, 2] ∧
    (twoAssignmentsState.workers.map ActiveWorker.WorkerId).Nodup :=
  have hcall : (OnOperationStatusChange twoFileJob idleRequest zeroWorker).2 =
      some (mapAssignment 1 "a.txt" 0 3) := by decide
  have hlaw := (worker_ids_increase.1 twoFileJob idleRequest zeroWorker (by decide)
    (by decide)).1 (mapAssignment 1 "a.txt" 0 3) rfl hcall rfl
  have hrun := worker_ids_increase.2.2 _ _ _ _ twoAssignments_run
  ⟨⟨hcall, hlaw.1, hlaw.2⟩, worker_ids_increase.2.1 twoAssignmentsState,
    twoAssignments_run, hrun.1, hrun.2.1, by decide, hrun.2.2⟩

/-- C15 as stated fails when "makes an assignment" is read off the reply: a
request with status `processing` and worker id 7 is echoed, so the reply has
status `processing` and `WorkerId` 7, not the counter value 0 plus one, and no
lease is created. -/
theorem echoed_reply_breaks_worker_id :
    (OnOperationStatusChange lateJob strayRequest zeroWorker).2.map ActiveWorker.Status =
      some Processing ∧
    (OnOperationStatusChange lateJob strayRequest zeroWorker).2.map ActiveWorker.WorkerId =
      some 7 ∧
    lateJob.workerId + 1 = 1 ∧
    (OnOperationStatusChange lateJob strayRequest zeroWorker).1.workers = [] := by
  decide

/-! ## Partitioning by hash -/

theorem fnv1a32_lt (bytes : List Nat) : fnv1a32 bytes < 2 ^ 32 := by
  unfold fnv1a32
  have : ∀ (bs : List Nat) (h : Nat), h < 2 ^ 32 →
      bs.foldl (fun h b => ((h ^^^ b) * 16777619) % 2 ^ 32) h < 2 ^ 32 := by
    intro bs
    induction bs with
    | nil => intro h hh; exact hh
    | cons b rest ih =>
      intro h _
      exact ih _ (Nat.mod_lt _ (by norm_num))
  exact this bytes _ (by norm_num)

theorem ihashBytes_eq (bytes : List Nat) :
    ihashBytes bytes = ((fnv1a32 bytes % 2 ^ 31 : Nat) : Int) := by
  unfold ihashBytes
  have h : (0x7fffffff : Nat) = 2 ^ 31 - 1 := by norm_num
  rw [h, Nat.and_pow_two_sub_one_eq_mod]

theorem goMod_nonneg (a b : Int) (ha : 0 ≤ a) (hb : 1 ≤ b) :
    goMod a b = some (a % b) ∧ 0 ≤ a % b ∧ a % b < b := by
  unfold goMod
  rw [if_neg (by omega), Int.tmod_eq_emod ha (by omega)]
  exact ⟨rfl, Int.emod_nonneg _ (by omega), Int.emod_lt_of_pos _ (by omega)⟩

theorem ihashBytes_range (bytes : List Nat) :
    0 ≤ ihashBytes bytes ∧ ihashBytes bytes ≤ 2 ^ 31 - 1 := by
  rw [ihashBytes_eq]
  have h : fnv1a32 bytes % 2 ^ 31 < 2 ^ 31 := Nat.mod_lt _ (by norm_num)
  constructor
  · exact Int.ofNat_nonneg _
  · have : ((fnv1a32 bytes % 2 ^ 31 : Nat) : Int) < 2 ^ 31 := by exact_mod_cast h
    omega

/-- C16 (amended). For every byte string and every `nReduce ≥ 1` the bucket
index the map worker computes, `ihash(k) % nReduce`, is defined and equals
`(fnv1a32(k) mod 2^31) mod nReduce`: the hash is the 32-bit FNV-1a value with
its top bit cleared.  It equals `fnv1a32(k) mod nReduce` when the FNV value is
below `2^31`.  The bucket of a string key is that of its bytes, so it depends
on the key and `nReduce` only. -/
theorem bucket_of_key (bytes : List Nat) (nReduce : Int) (hn : 1 ≤ nReduce) :
    fnv1a32 bytes < 2 ^ 32 ∧
    goMod (ihashBytes bytes) nReduce
      = some (((fnv1a32 bytes % 2 ^ 31 : Nat) : Int) % nReduce) ∧
    (fnv1a32 bytes < 2 ^ 31 →
      goMod (ihashBytes bytes) nReduce = some ((fnv1a32 bytes : Int) % nReduce)) ∧
    (∀ key : String, keyBytes key = bytes →
      bucketId key nReduce = goMod (ihashBytes bytes) nReduce) := by
  have h1 : goMod (ihashBytes bytes) nReduce
      = some (((fnv1a32 bytes % 2 ^ 31 : Nat) : Int) % nReduce) := by
    rw [← ihashBytes_eq]
    exact (goMod_nonneg _ _ (ihashBytes_range bytes).1 hn).1
  refine ⟨fnv1a32_lt bytes, h1, ?_, ?_⟩
  · intro hlt
    rw [h1, Nat.mod_eq_of_lt hlt]
  · intro key hkey
    unfold bucketId ihash
    rw [hkey]

theorem bucket_of_key_witness :
    (1 : Int) ≤ 3 ∧
    (fnv1a32 [104, 101, 108, 108, 111] < 2 ^ 32 ∧
    goMod (ihashBytes [104, 101, 108, 108, 111]) 3
      = some (((fnv1a32 [104, 101, 108, 108, 111] % 2 ^ 31 : Nat) : Int) % 3) ∧
    (fnv1a32 [104, 101, 108, 108, 111] < 2 ^ 31 →
      goMod (ihashBytes [104, 101, 108, 108, 111]) 3 = some ((fnv1a32 [104, 101, 108, 108, 111] : Int) % 3)) ∧
    (∀ key : String, keyBytes key = [104, 101, 108, 108, 111] →
      bucketId key 3 = goMod (ihashBytes [104, 101, 108, 108, 111]) 3)) :=
  ⟨by decide, bucket_of_key [104, 101, 108, 108, 111] 3 (by decide)⟩

/-- C16 (counterexample). For the key `a` (the single byte 97) and
`nReduce = 3` the FNV-1a value is 3826002220, whose remainder modulo 3 is 1,
while the map worker computes bucket 2. -/
theorem bucket_differs_from_fnv_mod :
    keyBytes "a" = [97] ∧ fnv1a32 [97] = 3826002220 ∧
    (fnv1a32 [97] : Int) % 3 = 1 ∧
    ihash "a" = 1678518572 ∧
    bucketId "a" 3 = some 2 := by
  refine ⟨by decide, by decide, by decide, by decide, by decide⟩

/-! ## The buckets of the map worker -/

theorem flatten_set_append (pair : KeyValue) :
    ∀ (bs : List (List KeyValue)) (i : Nat) (bucket : List KeyValue),
      bs[i]? = some bucket →
      (bs.set i (bucket ++ [pair])).flatten.Perm (bs.flatten ++ [pair]) := by
  intro bs
  induction bs with
  | nil => intro i bucket h; simp at h
  | cons b rest ih =>
    intro i bucket h
    cases i with
    | zero =>
      simp only [List.getElem?_cons_zero, Option.some.injEq] at h
      subst h
      simp only [List.set_cons_zero, List.flatten_cons, List.append_assoc]
      exact List.Perm.append_left _ List.perm_append_comm
    | succ i =>
      simp only [List.getElem?_cons_succ] at h
      simp only [List.set_cons_succ, List.flatten_cons, List.append_assoc]
      exact List.Perm.append_left _ (ih i bucket h)

theorem bucketId_range (key : String) (nReduce : Int) (hn : 1 ≤ nReduce) :
    ∃ id, bucketId key nReduce = some id ∧ 0 ≤ id ∧ id < nReduce := by
  obtain ⟨h1, h2, h3⟩ := goMod_nonneg (ihash key) nReduce (ihashBytes_range _).1 hn
  exact ⟨_, h1, h2, h3⟩

theorem fillBuckets_spec (nReduce : Int) (hn : 1 ≤ nReduce) :
    ∀ (kva : List KeyValue) (bs : List (List KeyValue)), bs.length = nReduce.toNat →
      ∃ bs', fillBuckets nReduce kva bs = some bs' ∧ bs'.length = nReduce.toNat ∧
        (∀ b : Nat, bs'[b]? = (bs[b]?).map (fun bucket => bucket ++
          kva.filter (fun pair => decide (bucketId pair.Key nReduce = some (b : Int))))) ∧
        bs'.flatten.Perm (bs.flatten ++ kva) := by
  intro kva
  induction kva with
  | nil =>
    intro bs hlen
    refine ⟨bs, rfl, hlen, ?_, by simp⟩
    intro b
    cases bs[b]? <;> simp
  | cons pair rest ih =>
    intro bs hlen
    obtain ⟨id, hid, h0, hlt⟩ := bucketId_range pair.Key nReduce hn
    have hidx : id.toNat < bs.length := by omega
    have hget : bs[id.toNat]? = some (bs[id.toNat]) := List.getElem?_eq_getElem hidx
    have happ : appendToBucket bs id pair
        = some (bs.set id.toNat (bs[id.toNat] ++ [pair])) := by
      unfold appendToBucket
      rw [if_neg (by omega), hget]
    obtain ⟨bs', hfill, hlen', hbucket, hperm⟩ :=
      ih (bs.set id.toNat (bs[id.toNat] ++ [pair])) (by rw [List.length_set]; exact hlen)
    refine ⟨bs', ?_, hlen', ?_, ?_⟩
    · show (match bucketId pair.Key nReduce with
        | none => none
        | some id =>
          match appendToBucket bs id pair with
          | none => none
          | some buckets' => fillBuckets nReduce rest buckets') = some bs'
      rw [hid]
      dsimp only
      rw [happ]
      exact hfill
    · intro b
      rw [hbucket b, List.getElem?_set]
      by_cases hb : id.toNat = b
      · subst hb
        have hkey : bucketId pair.Key nReduce = some ((id.toNat : Nat) : Int) := by
          rw [hid, Int.toNat_of_nonneg h0]
        rw [if_pos rfl, if_pos hidx, hget]
        simp only [Option.map_some', List.filter_cons, hkey, decide_True, if_true,
          List.append_assoc, List.singleton_append]
      · have hkey : bucketId pair.Key nReduce ≠ some (b : Int) := by
          rw [hid]
          intro h
          apply hb
          have := Option.some.inj h
          omega
        rw [if_neg hb]
        simp only [List.filter_cons, hkey, decide_False, Bool.false_eq_true, if_false]
    · refine hperm.trans ?_
      have := (flatten_set_append pair bs id.toNat _ hget).append_right rest
      simpa [List.append_assoc] using this

/-! ## Names of the intermediate files -/

theorem splitChars_append_sep (sep : Char) (b : List Char) :
    ∀ a : List Char, sep ∉ a → splitChars sep (a ++ sep :: b) = a :: splitChars sep b := by
  intro a
  induction a with
  | nil =>
    intro _
    show splitChars sep (sep :: b) = [] :: splitChars sep b
    rw [splitChars, if_pos rfl]
  | cons c rest ih =>
    intro h
    have hc : c ≠ sep := fun e => h (by rw [e]; exact List.mem_cons_self _ _)
    have hrest : sep ∉ rest := fun e => h (List.mem_cons_of_mem _ e)
    show splitChars sep (c :: (rest ++ sep :: b)) = (c :: rest) :: splitChars sep b
    rw [splitChars, if_neg hc, ih hrest]

theorem splitChars_no_sep (sep : Char) :
    ∀ a : List Char, sep ∉ a → splitChars sep a = [a] := by
  intro a
  induction a with
  | nil => intro _; rfl
  | cons c rest ih =>
    intro h
    have hc : c ≠ sep := fun e => h (by rw [e]; exact List.mem_cons_self _ _)
    have hrest : sep ∉ rest := fun e => h (List.mem_cons_of_mem _ e)
    rw [splitChars, if_neg hc, ih hrest]

theorem digitChar_ne_dash : ∀ d : Nat, d < 10 → Nat.digitChar d ≠ '-' := by
  decide

theorem toDigitsCore_no_dash :
    ∀ (fuel n : Nat) (ds : List Char), '-' ∉ ds → '-' ∉ Nat.toDigitsCore 10 fuel n ds := by
  intro fuel
  induction fuel with
  | zero => intro n ds h; exact h
  | succ fuel ih =>
    intro n ds h
    have hd : '-' ∉ Nat.digitChar (n % 10) :: ds := by
      intro hmem
      rcases List.mem_cons.1 hmem with e | e
      · exact digitChar_ne_dash (n % 10) (Nat.mod_lt _ (by norm_num)) e.symm
      · exact h e
    unfold Nat.toDigitsCore
    dsimp only
    split
    · exact hd
    · exact ih _ _ hd

theorem Itoa_nat_no_dash (n : Nat) : '-' ∉ (Itoa (n : Int)).data := by
  have h : Itoa (n : Int) = Nat.repr n := by
    unfold Itoa
    rw [if_neg (by omega)]
    rfl
  rw [h]
  exact toDigitsCore_no_dash _ _ _ (List.not_mem_nil _)

theorem partitionField_mapOutputName (i p : Nat) :
    partitionField ("mr-" ++ Itoa i ++ "-" ++ Itoa p) = some (Itoa p) := by
  have hdata : ("mr-" ++ Itoa i ++ "-" ++ Itoa p).data
      = ['m', 'r'] ++ '-' :: ((Itoa i).data ++ '-' :: (Itoa p).data) := by
    simp only [String.data_append, List.append_assoc, List.cons_append, List.nil_append,
      List.singleton_append]
  unfold partitionField SplitDash
  rw [hdata, splitChars_append_sep '-' _ _ (by decide),
    splitChars_append_sep '-' _ _ (Itoa_nat_no_dash i),
    splitChars_no_sep '-' _ (Itoa_nat_no_dash p)]
  rfl

/-! ## The reduce loop -/

theorem take_takeWhile_length (p : KeyValue → Bool) :
    ∀ l : List KeyValue, l.take (l.takeWhile p).length = l.takeWhile p := by
  intro l
  induction l with
  | nil => rfl
  | cons x rest ih =>
    rw [List.takeWhile_cons]
    cases hp : p x
    · rfl
    · simp only [if_true, List.length_cons, List.take_succ_cons, ih]

theorem drop_takeWhile_length (p : KeyValue → Bool) :
    ∀ l : List KeyValue, l.drop (l.takeWhile p).length = l.dropWhile p := by
  intro l
  induction l with
  | nil => rfl
  | cons x rest ih =>
    rw [List.takeWhile_cons, List.dropWhile_cons]
    cases hp : p x
    · rfl
    · simp only [if_true, List.length_cons, List.drop_succ_cons, ih]

theorem drop_eq_cons_of_getElem? (a : List KeyValue) (i : Nat) (kv : KeyValue)
    (h : a[i]? = some kv) : a.drop i = kv :: a.drop (i + 1) := by
  obtain ⟨hlt, hget⟩ := List.getElem?_eq_some_iff.1 h
  rw [← hget]
  exact List.drop_eq_getElem_cons hlt

theorem scanRun_eq (a : List KeyValue) (key : String) :
    ∀ (fuel j : Nat), a.length - j ≤ fuel →
      scanRun a key fuel j
        = j + ((a.drop j).takeWhile (fun x => decide (x.Key = key))).length := by
  intro fuel
  induction fuel with
  | zero =>
    intro j h
    rw [List.drop_eq_nil_of_le (by omega)]
    rfl
  | succ fuel ih =>
    intro j h
    unfold scanRun
    cases hget : a[j]? with
    | none =>
      rw [List.drop_eq_nil_of_le (List.getElem?_eq_none_iff.1 hget)]
      rfl
    | some kv =>
      rw [drop_eq_cons_of_getElem? a j kv hget, List.takeWhile_cons]
      dsimp only
      by_cases hk : kv.Key = key
      · rw [if_pos hk, ih (j + 1) (by omega)]
        simp only [hk, decide_True, if_true, List.length_cons]
        omega
      · rw [if_neg hk]
        simp only [hk, decide_False, Bool.false_eq_true, if_false, List.length_nil,
          Nat.add_zero]

theorem reduceLoop_cons (a : List KeyValue) (fuel i : Nat) (kv : KeyValue)
    (h : a[i]? = some kv) :
    reduceLoop a (fuel + 1) i
      = (kv.Key, kv.Value ::
          ((a.drop (i + 1)).takeWhile (fun x => decide (x.Key = kv.Key))).map KeyValue.Value) ::
        reduceLoop a fuel
          (i + 1 + ((a.drop (i + 1)).takeWhile (fun x => decide (x.Key = kv.Key))).length) ∧
    a.drop (i + 1 + ((a.drop (i + 1)).takeWhile (fun x => decide (x.Key = kv.Key))).length)
      = (a.drop (i + 1)).dropWhile (fun x => decide (x.Key = kv.Key)) := by
  have hlt := (List.getElem?_eq_some_iff.1 h).1
  have hscan := scanRun_eq a kv.Key a.length (i + 1) (by omega)
  constructor
  · rw [reduceLoop, h]
    dsimp only
    rw [hscan]
    congr 2
    unfold valuesBetween
    rw [drop_eq_cons_of_getElem? a i kv h]
    have : i + 1 + ((a.drop (i + 1)).takeWhile (fun x => decide (x.Key = kv.Key))).length - i
        = ((a.drop (i + 1)).takeWhile (fun x => decide (x.Key = kv.Key))).length + 1 := by
      omega
    rw [this, List.take_succ_cons, take_takeWhile_length]
    rfl
  · rw [← drop_takeWhile_length, List.drop_drop]

theorem reduceLoop_none (a : List KeyValue) (fuel i : Nat) (h : a.length ≤ i) :
    reduceLoop a fuel i = [] := by
  cases fuel with
  | zero => rfl
  | succ fuel =>
    rw [reduceLoop, List.getElem?_eq_none_iff.2 h]

/-- More passes than `len(intermediate) - i` change nothing. -/
theorem reduceLoop_fuel (a : List KeyValue) :
    ∀ (fuel i : Nat), a.length - i ≤ fuel → ∀ more : Nat,
      reduceLoop a (fuel + more) i = reduceLoop a fuel i := by
  intro fuel
  induction fuel with
  | zero =>
    intro i h more
    rw [reduceLoop_none a _ i (by omega), reduceLoop_none a _ i (by omega)]
  | succ fuel ih =>
    intro i h more
    cases hget : a[i]? with
    | none =>
      have := List.getElem?_eq_none_iff.1 hget
      rw [reduceLoop_none a _ i this, reduceLoop_none a _ i this]
    | some kv =>
      have e : fuel + 1 + more = (fuel + more) + 1 := by omega
      rw [e, (reduceLoop_cons a (fuel + more) i kv hget).1,
        (reduceLoop_cons a fuel i kv hget).1, ih _ (by omega) more]

theorem sorted_dropWhile_gt (kv : KeyValue) :
    ∀ rest : List KeyValue,
      (kv :: rest).Pairwise (fun a b => ¬ ByKeyLess b a) →
      ∀ x ∈ rest.dropWhile (fun x => decide (x.Key = kv.Key)), kv.Key < x.Key := by
  intro rest
  induction rest with
  | nil => intro _ x hx; simp at hx
  | cons y ys ih =>
    intro hs x hx
    have hy : ¬ y.Key < kv.Key := (List.pairwise_cons.1 hs).1 y (List.mem_cons_self _ _)
    have hys : (y :: ys).Pairwise (fun a b => ¬ ByKeyLess b a) := (List.pairwise_cons.1 hs).2
    rw [List.dropWhile_cons] at hx
    by_cases hk : y.Key = kv.Key
    · rw [if_pos (by simpa using hk)] at hx
      refine ih ?_ x hx
      exact hs.sublist (List.Sublist.cons₂ _ (List.sublist_cons_self _ _))
    · rw [if_neg (by simpa using hk)] at hx
      have hlt : kv.Key < y.Key := lt_of_le_of_ne (not_lt.1 hy) (fun e => hk e.symm)
      rcases List.mem_cons.1 hx with e | e
      · rw [e]; exact hlt
      · have : ¬ x.Key < y.Key := (List.pairwise_cons.1 hys).1 x e
        exact lt_of_lt_of_le hlt (not_lt.1 this)

theorem sorted_takeWhile_eq_filter (kv : KeyValue) (rest : List KeyValue)
    (hs : (kv :: rest).Pairwise (fun a b => ¬ ByKeyLess b a)) :
    rest.takeWhile (fun x => decide (x.Key = kv.Key))
      = rest.filter (fun x => decide (x.Key = kv.Key)) := by
  have hsplit := List.takeWhile_append_dropWhile (fun x => decide (x.Key = kv.Key)) rest
  have h1 : (rest.takeWhile (fun x => decide (x.Key = kv.Key))).filter
      (fun x => decide (x.Key = kv.Key))
      = rest.takeWhile (fun x => decide (x.Key = kv.Key)) := by
    rw [List.filter_eq_self]
    intro x hx
    have hp := List.mem_takeWhile_imp hx
    exact hp
  have h2 : (rest.dropWhile (fun x => decide (x.Key = kv.Key))).filter
      (fun x => decide (x.Key = kv.Key)) = [] := by
    rw [List.filter_eq_nil_iff]
    intro x hx
    have := sorted_dropWhile_gt kv rest hs x hx
    simpa using (ne_of_gt this)
  conv_rhs => rw [← hsplit, List.filter_append, h1, h2, List.append_nil]

theorem reduceLoop_sorted (a : List KeyValue)
    (hs : a.Pairwise (fun a b => ¬ ByKeyLess b a)) :
    ∀ (fuel i : Nat), a.length - i ≤ fuel →
      ((reduceLoop a fuel i).map Prod.fst).Pairwise (fun k1 k2 => k1 < k2) ∧
      (∀ k, k ∈ (reduceLoop a fuel i).map Prod.fst ↔ k ∈ (a.drop i).map KeyValue.Key) ∧
      (∀ c ∈ reduceLoop a fuel i,
        c.2 = ((a.drop i).filter (fun x => decide (x.Key = c.1))).map KeyValue.Value) := by
  intro fuel
  induction fuel with
  | zero =>
    intro i h
    rw [reduceLoop_none a _ i (by omega), List.drop_eq_nil_of_le (by omega)]
    simp
  | succ fuel ih =>
    intro i h
    cases hget : a[i]? with
    | none =>
      have := List.getElem?_eq_none_iff.1 hget
      rw [reduceLoop_none a _ i this, List.drop_eq_nil_of_le this]
      simp
    | some kv =>
      obtain ⟨hloop, hdrop⟩ := reduceLoop_cons a fuel i kv hget
      have hcons := drop_eq_cons_of_getElem? a i kv hget
      have hsorted : (kv :: a.drop (i + 1)).Pairwise (fun a b => ¬ ByKeyLess b a) := by
        rw [← hcons]
        exact hs.sublist (List.drop_sublist _ _)
      obtain ⟨ih1, ih2, ih3⟩ := ih
        (i + 1 + ((a.drop (i + 1)).takeWhile (fun x => decide (x.Key = kv.Key))).length)
        (by omega)
      rw [hdrop] at ih2 ih3
      rw [hloop, hcons]
      generalize reduceLoop a fuel
        (i + 1 + ((a.drop (i + 1)).takeWhile (fun x => decide (x.Key = kv.Key))).length)
        = tail at ih1 ih2 ih3
      generalize a.drop (i + 1) = rest at ih2 ih3 hsorted
      have hgt : ∀ k ∈ tail.map Prod.fst, kv.Key < k := by
        intro k hk
        obtain ⟨x, hx, rfl⟩ := List.mem_map.1 ((ih2 k).1 hk)
        exact sorted_dropWhile_gt kv rest hsorted x hx
      refine ⟨?_, ?_, ?_⟩
      · rw [List.map_cons, List.pairwise_cons]
        exact ⟨hgt, ih1⟩
      · intro k
        rw [List.map_cons, List.map_cons, List.mem_cons, List.mem_cons, ih2 k]
        constructor
        · rintro (e | e)
          · exact Or.inl e
          · obtain ⟨x, hx, rfl⟩ := List.mem_map.1 e
            exact Or.inr (List.mem_map.2 ⟨x, (List.dropWhile_sublist _).subset hx, rfl⟩)
        · rintro (e | e)
          · exact Or.inl e
          · obtain ⟨x, hx, rfl⟩ := List.mem_map.1 e
            by_cases hk : x.Key = kv.Key
            · exact Or.inl hk
            · right
              rw [← List.takeWhile_append_dropWhile (fun x => decide (x.Key = kv.Key)) rest,
                List.mem_append] at hx
              rcases hx with hx | hx
              · have hp := List.mem_takeWhile_imp hx
                exact absurd (by simpa using hp) hk
              · exact List.mem_map.2 ⟨x, hx, rfl⟩
      · intro c hc
        rcases List.mem_cons.1 hc with e | e
        · subst e
          dsimp only
          rw [List.filter_cons, if_pos (by simp), sorted_takeWhile_eq_filter kv rest hsorted]
          rfl
        · have hlt := hgt c.1 (List.mem_map.2 ⟨c, e, rfl⟩)
          rw [ih3 c e, List.filter_cons, if_neg (by simpa using ne_of_lt hlt)]
          congr 1
          conv_rhs =>
            rw [← List.takeWhile_append_dropWhile (fun x => decide (x.Key = kv.Key)) rest,
              List.filter_append]
          have : (rest.takeWhile (fun x => decide (x.Key = kv.Key))).filter
              (fun x => decide (x.Key = c.1)) = [] := by
            rw [List.filter_eq_nil_iff]
            intro x hx
            have hp := List.mem_takeWhile_imp hx
            have hxk : x.Key = kv.Key := by simpa using hp
            simpa [hxk] using ne_of_lt hlt
          rw [this, List.nil_append]

theorem reduceCalls_spec (sorted : List KeyValue)
    (hs : sorted.Pairwise (fun a b => ¬ ByKeyLess b a)) :
    ((reduceCalls sorted).map Prod.fst).Pairwise (fun k1 k2 => k1 < k2) ∧
    (∀ k, k ∈ (reduceCalls sorted).map Prod.fst ↔ k ∈ sorted.map KeyValue.Key) ∧
    reduceCalls sorted = ((reduceCalls sorted).map Prod.fst).map
      (fun k => (k, (sorted.filter (fun x => decide (x.Key = k))).map KeyValue.Value)) := by
  obtain ⟨h1, h2, h3⟩ := reduceLoop_sorted sorted hs sorted.length 0 (by omega)
  rw [List.drop_zero] at h2 h3
  refine ⟨h1, h2, ?_⟩
  rw [List.map_map]
  conv_lhs => rw [← List.map_id (reduceCalls sorted)]
  apply List.map_congr_left
  intro c hc
  show c = (c.1, _)
  rw [← h3 c hc]

theorem keys_unique (keys1 keys2 : List String)
    (h1 : keys1.Pairwise (fun k1 k2 => k1 < k2))
    (h2 : keys2.Pairwise (fun k1 k2 => k1 < k2))
    (hmem : ∀ k, k ∈ keys1 ↔ k ∈ keys2) : keys1 = keys2 := by
  have n1 : keys1.Nodup := h1.imp (fun h => ne_of_lt h)
  have n2 : keys2.Nodup := h2.imp (fun h => ne_of_lt h)
  exact List.eq_of_perm_of_sorted ((List.perm_ext_iff_of_nodup n1 n2).2 hmem) h1 h2

theorem hello_lt_world : "hello" < "world" := by
  rw [String.lt_iff_toList_lt]
  decide

theorem helloSorted_sorted : SortedByKey helloPairs helloSorted := by
  refine ⟨by decide, ?_⟩
  have h : ¬ "world" < "hello" := not_lt.2 (le_of_lt hello_lt_world)
  have h0 : ¬ "hello" < "hello" := lt_irrefl _
  simp only [helloSorted, ByKeyLess, List.pairwise_cons, List.mem_cons, List.mem_singleton,
    List.not_mem_nil, forall_eq_or_imp, forall_eq, IsEmpty.forall_iff, implies_true,
    List.Pairwise.nil, and_true]
  exact ⟨⟨h0, h⟩, h⟩

theorem handleReduceOperation_spec (reducef : String → List String → String)
    (intermediate sorted : List KeyValue) (hsort : SortedByKey intermediate sorted) :
    ∃ keys : List String,
      keys.Pairwise (fun k1 k2 => k1 < k2) ∧
      (∀ k, k ∈ keys ↔ k ∈ intermediate.map KeyValue.Key) ∧
      reduceCalls sorted = keys.map
        (fun k => (k, (sorted.filter (fun x => decide (x.Key = k))).map KeyValue.Value)) ∧
      handleReduceOperation reducef sorted = keys.map
        (fun k => k ++ " " ++
          reducef k ((sorted.filter (fun x => decide (x.Key = k))).map KeyValue.Value) ++ "\n") ∧
      ∀ k, ((sorted.filter (fun x => decide (x.Key = k))).map KeyValue.Value).Perm
        ((intermediate.filter (fun x => decide (x.Key = k))).map KeyValue.Value) := by
  obtain ⟨hperm, hs⟩ := hsort
  obtain ⟨h1, h2, h3⟩ := reduceCalls_spec sorted hs
  refine ⟨(reduceCalls sorted).map Prod.fst, h1, ?_, h3, ?_, ?_⟩
  · intro k
    rw [h2 k]
    exact (hperm.map _).mem_iff
  · unfold handleReduceOperation
    conv_lhs => rw [h3]
    rw [List.map_map]
    rfl
  · intro k
    exact (hperm.filter _).map _

theorem handleReduceOperation_hello (sorted : List KeyValue)
    (hsort : SortedByKey helloPairs sorted) :
    handleReduceOperation countReduce sorted = ["hello 2\n", "world 1\n"] := by
  obtain ⟨keys, h1, h2, _, h4, h5⟩ := handleReduceOperation_spec countReduce _ _ hsort
  have hkeys : keys = ["hello", "world"] := by
    apply keys_unique keys _ h1
    · simp only [List.pairwise_cons, List.mem_singleton, forall_eq, List.not_mem_nil,
        IsEmpty.forall_iff, implies_true, List.Pairwise.nil, and_true]
      exact hello_lt_world
    · intro k
      rw [h2 k]
      simp only [helloPairs, List.map_cons, List.map_nil, List.mem_cons, List.mem_singleton,
        List.not_mem_nil, or_false]
      constructor
      · rintro (e | e | e)
        · exact Or.inl e
        · exact Or.inr e
        · exact Or.inl e
      · rintro (e | e)
        · exact Or.inl e
        · exact Or.inr (Or.inl e)
  have hlen : ∀ k, ((sorted.filter (fun x => decide (x.Key = k))).map KeyValue.Value).length
      = ((helloPairs.filter (fun x => decide (x.Key = k))).map KeyValue.Value).length :=
    fun k => (h5 k).length_eq
  rw [h4, hkeys]
  simp only [List.map_cons, List.map_nil, countReduce, hlen]
  decide

/-- C20. Whatever slice `sort.Sort(ByKey(intermediate))` leaves (a
permutation of the decoded pairs in which no pair is `Less` than an earlier
one), and for every reduce function, the reduce worker calls the reduce
function exactly once for each distinct key of the decoded pairs, in strictly
ascending key order, with the values paired with that key in the sorted
slice, which are a permutation of the values paired with it in the input; it
writes one line `<key> <reducef(key, values)>\n` per call, in that order.
For the pairs (hello,1), (world,1), (hello,1) and the counting reduce
function the lines are `hello 2\n` and `world 1\n`. -/
theorem reduce_output (reducef : String → List String → String)
    (intermediate sorted : List KeyValue) (hsort : SortedByKey intermediate sorted) :
    (∃ keys : List String,
      keys.Pairwise (fun k1 k2 => k1 < k2) ∧ keys.Nodup ∧
      (∀ k, k ∈ keys ↔ k ∈ intermediate.map KeyValue.Key) ∧
      reduceCalls sorted = keys.map
        (fun k => (k, (sorted.filter (fun x => decide (x.Key = k))).map KeyValue.Value)) ∧
      handleReduceOperation reducef sorted = keys.map
        (fun k => k ++ " " ++
          reducef k ((sorted.filter (fun x => decide (x.Key = k))).map KeyValue.Value) ++ "\n") ∧
      ∀ k, ((sorted.filter (fun x => decide (x.Key = k))).map KeyValue.Value).Perm
        ((intermediate.filter (fun x => decide (x.Key = k))).map KeyValue.Value)) ∧
    (∀ more : Nat, reduceLoop sorted (sorted.length + more) 0 = reduceCalls sorted) ∧
    (∀ sortedHello, SortedByKey helloPairs sortedHello →
      handleReduceOperation countReduce sortedHello = ["hello 2\n", "world 1\n"]) := by
  obtain ⟨keys, h1, h2, h3, h4, h5⟩ :=
    handleReduceOperation_spec reducef intermediate sorted hsort
  exact ⟨⟨keys, h1, h1.imp (fun h => ne_of_lt h), h2, h3, h4, h5⟩,
    fun more => reduceLoop_fuel sorted sorted.length 0 (by omega) more,
    handleReduceOperation_hello⟩

theorem reduce_output_witness :
    SortedByKey helloPairs helloSorted ∧
    ((∃ keys : List String,
      keys.Pairwise (fun k1 k2 => k1 < k2) ∧ keys.Nodup ∧
      (∀ k, k ∈ keys ↔ k ∈ helloPairs.map KeyValue.Key) ∧
      reduceCalls helloSorted = keys.map
        (fun k => (k, (helloSorted.filter (fun x => decide (x.Key = k))).map KeyValue.Value)) ∧
      handleReduceOperation countReduce helloSorted = keys.map
        (fun k => k ++ " " ++
          countReduce k
            ((helloSorted.filter (fun x => decide (x.Key = k))).map KeyValue.Value) ++ "\n") ∧
      ∀ k, ((helloSorted.filter (fun x => decide (x.Key = k))).map KeyValue.Value).Perm
        ((helloPairs.filter (fun x => decide (x.Key = k))).map KeyValue.Value)) ∧
    (∀ more : Nat, reduceLoop helloSorted (helloSorted.length + more) 0
      = reduceCalls helloSorted) ∧
    (∀ sortedHello, SortedByKey helloPairs sortedHello →
      handleReduceOperation countReduce sortedHello = ["hello 2\n", "world 1\n"])) :=
  ⟨helloSorted_sorted, reduce_output countReduce helloPairs helloSorted helloSorted_sorted⟩

/-- The calls and the lines of the word-count example, evaluated. -/
theorem reduceCalls_hello :
    reduceCalls helloSorted = [("hello", ["1", "1"]), ("world", ["1"])] ∧
    handleReduceOperation countReduce helloSorted = ["hello 2\n", "world 1\n"] := by
  refine ⟨by decide, by decide⟩

/-! ## The invariant of runs with late reduce reports -/

theorem countP_eq_zero_of_removed {α : Type} (f : α → Bool) (pre post ks' : List α) (k : α)
    (hks : ks'.Perm (pre ++ post)) (hle : (pre ++ k :: post).countP f ≤ 1)
    (hk : f k = true) : ∀ x ∈ ks', f x = false := by
  have hc := countP_removed f pre post ks' k hks
  rw [hk, if_pos rfl] at hc
  have h0 : ks'.countP f = 0 := by omega
  intro x hx
  rw [List.countP_eq_zero] at h0
  cases hfx : f x with
  | false => rfl
  | true => exact absurd hfx (h0 x hx)

theorem countP_le_of_removed {α : Type} (f : α → Bool) (pre post ks' : List α) (k : α)
    (hks : ks'.Perm (pre ++ post)) : ks'.countP f ≤ (pre ++ k :: post).countP f := by
  have hc := countP_removed f pre post ks' k hks
  omega

theorem MapLiveCore_init (files : List String) (hnd : files.Nodup) :
    MapLiveCore
      (files.map (fun fileName => ({ status := Unprocessed, fileName := fileName } : MRTask)))
      [] [] 0 where
  mapNodup := by simpa [List.map_map, Function.comp_def] using hnd
  widNonneg := le_refl _
  idBound := by simp
  idsNodup := by simp
  kinds := by simp
  mapLe := by simp
  mapRef := by simp
  mapLive := by simp
  redLe := by simp
  redRef := by simp
  redClosed := by simp
  barrier := by simp
  frozen := by simp

/-- While a map lease is outstanding, some map task is `Processing`: no
reduce task is `Processing` and no reduce lease exists. -/
theorem MapLiveCore_map_phase {m r : List MRTask} {ks : List LeaseKey} {wid : Int}
    (h : MapLiveCore m r ks wid) (k : LeaseKey) (hk : k ∈ ks) (hkind : k.kind = Map) :
    (∀ t ∈ r, t.status ≠ Processing) ∧ ∀ k2 ∈ ks, k2.kind ≠ Reduce := by
  obtain ⟨n, hn, hnk⟩ := h.mapLive k hk hkind
  obtain ⟨t, ht, rfl⟩ := List.mem_map.1 hn
  have hP := h.mapRef t ht k hk hkind hnk
  have hne : t.status ≠ Completed := by rw [hP]; exact fun e => completed_ne_processing e.symm
  refine ⟨?_, ?_⟩
  · intro t2 ht2 hP2
    exact hne (h.barrier t2 ht2 hP2 t ht)
  · intro k2 hk2 hkind2
    exact hne (h.frozen k2 hk2 hkind2 t ht)

theorem MapLiveCore_assignMap {m r : List MRTask} {ks : List LeaseKey} {wid : Int}
    (h : MapLiveCore m r ks wid) (t : MRTask) (ht : t ∈ m) (hU : t.status = Unprocessed) :
    MapLiveCore
      (m.map (fun x => if x.fileName = t.fileName then { t with status := Processing } else x))
      r (ks ++ [{ id := wid + 1, kind := Map, names := [t.fileName] }]) (wid + 1) := by
  have hnone : ∀ k ∈ ks, keyRefs Map t.fileName k = false := by
    intro k hk
    rw [Bool.eq_false_iff]
    intro e
    obtain ⟨hkind, hn⟩ := (keyRefs_iff _ _ _).1 e
    have := h.mapRef t ht k hk hkind hn
    rw [hU] at this
    exact unprocessed_ne_processing this
  have hnc : t.status ≠ Completed := by rw [hU]; exact unprocessed_ne_completed
  exact
  { mapNodup := by
      rw [map_fileName_replace m t { t with status := Processing } rfl]; exact h.mapNodup
    widNonneg := by have := h.widNonneg; omega
    idBound := by
      intro k hk
      rcases List.mem_append.1 hk with hk | hk
      · have := h.idBound k hk; omega
      · rw [List.mem_singleton] at hk; subst hk; simp
    idsNodup := by
      rw [List.map_append, List.nodup_append]
      refine ⟨h.idsNodup, by simp, ?_⟩
      intro a ha hb
      simp only [List.map_cons, List.map_nil, List.mem_singleton] at hb
      obtain ⟨k, hk, rfl⟩ := List.mem_map.1 ha
      have := h.idBound k hk
      omega
    kinds := by
      intro k hk
      rcases List.mem_append.1 hk with hk | hk
      · exact h.kinds k hk
      · rw [List.mem_singleton] at hk; subst hk; exact Or.inl rfl
    mapLe := by
      intro t' ht'
      obtain ⟨x, hx, rfl⟩ := List.mem_map.1 ht'
      rw [List.countP_append, List.countP_singleton]
      by_cases hn : x.fileName = t.fileName
      · have h0 : ks.countP (keyRefs Map t.fileName) = 0 := by
          rw [List.countP_eq_zero]
          intro k hk e
          rw [hnone k hk] at e
          exact Bool.false_ne_true e
        simp [hn, h0, keyRefs]
      · have h0 := h.mapLe x hx
        simp [hn, keyRefs, h0]
    mapRef := by
      intro t' ht' k hk hkind hn
      obtain ⟨x, hx, rfl⟩ := List.mem_map.1 ht'
      by_cases hxn : x.fileName = t.fileName
      · simp [hxn]
      · rw [if_neg hxn] at hn ⊢
        rcases List.mem_append.1 hk with hk | hk
        · exact h.mapRef x hx k hk hkind hn
        · rw [List.mem_singleton] at hk; subst hk
          simp only [List.mem_singleton] at hn
          exact absurd hn hxn
    mapLive := by
      intro k hk hkind
      rw [map_fileName_replace m t { t with status := Processing } rfl]
      rcases List.mem_append.1 hk with hk | hk
      · exact h.mapLive k hk hkind
      · rw [List.mem_singleton] at hk; subst hk
        exact ⟨t.fileName, List.mem_map_of_mem _ ht, by simp⟩
    redLe := by
      intro t' ht'
      rw [List.countP_append, List.countP_singleton]
      have h0 := h.redLe t' ht'
      simp [keyRefs, map_ne_reduce, h0]
    redRef := by
      intro t' ht' k hk hkind hn
      rcases List.mem_append.1 hk with hk | hk
      · exact h.redRef t' ht' k hk hkind hn
      · rw [List.mem_singleton] at hk; subst hk
        exact absurd hkind map_ne_reduce
    redClosed := by
      intro k hk hkind
      rcases List.mem_append.1 hk with hk | hk
      · exact h.redClosed k hk hkind
      · rw [List.mem_singleton] at hk; subst hk
        exact absurd hkind map_ne_reduce
    barrier := by
      intro rt hrt hP
      exact absurd (h.barrier rt hrt hP t ht) hnc
    frozen := by
      intro k hk hkind
      rcases List.mem_append.1 hk with hk | hk
      · exact absurd (h.frozen k hk hkind t ht) hnc
      · rw [List.mem_singleton] at hk; subst hk
        exact absurd hkind map_ne_reduce }

theorem MapLiveCore_assignReduce {m r : List MRTask} {ks : List LeaseKey} {wid : Int}
    (h : MapLiveCore m r ks wid) (hm : ∀ t ∈ m, t.status = Completed)
    (first : MRTask) (hf : first ∈ r) (hU : first.status = Unprocessed) (p : String)
    (hp : partitionField first.fileName = some p) :
    MapLiveCore m (markedTable p r)
      (ks ++ [{ id := wid + 1, kind := Reduce,
                names := (partitionTasks p r).map MRTask.fileName }]) (wid + 1) := by
  have hnone : ∀ x ∈ r, partitionField x.fileName = some p →
      ∀ k ∈ ks, keyRefs Reduce x.fileName k = false := by
    intro x hx hq k hk
    rw [Bool.eq_false_iff]
    intro e
    obtain ⟨hkind, hn⟩ := (keyRefs_iff _ _ _).1 e
    obtain ⟨p', hp'⟩ := h.redClosed k hk hkind
    have h1 := (hp' x.fileName (List.mem_map_of_mem _ hx)).1 hn
    have h2 : first.fileName ∈ k.names :=
      (hp' first.fileName (List.mem_map_of_mem _ hf)).2 (by rw [hp, ← hq, h1])
    exact h.redRef first hf k hk hkind h2 hU
  exact
  { mapNodup := h.mapNodup
    widNonneg := by have := h.widNonneg; omega
    idBound := by
      intro k hk
      rcases List.mem_append.1 hk with hk | hk
      · have := h.idBound k hk; omega
      · rw [List.mem_singleton] at hk; subst hk; simp
    idsNodup := by
      rw [List.map_append, List.nodup_append]
      refine ⟨h.idsNodup, by simp, ?_⟩
      intro a ha hb
      simp only [List.map_cons, List.map_nil, List.mem_singleton] at hb
      obtain ⟨k, hk, rfl⟩ := List.mem_map.1 ha
      have := h.idBound k hk
      omega
    kinds := by
      intro k hk
      rcases List.mem_append.1 hk with hk | hk
      · exact h.kinds k hk
      · rw [List.mem_singleton] at hk; subst hk; exact Or.inr rfl
    mapLe := by
      intro t' ht'
      rw [List.countP_append, List.countP_singleton]
      have h0 := h.mapLe t' ht'
      simp [keyRefs, map_ne_reduce.symm, h0]
    mapRef := by
      intro t' ht' k hk hkind hn
      rcases List.mem_append.1 hk with hk | hk
      · exact h.mapRef t' ht' k hk hkind hn
      · rw [List.mem_singleton] at hk; subst hk
        exact absurd hkind.symm map_ne_reduce
    mapLive := by
      intro k hk hkind
      rcases List.mem_append.1 hk with hk | hk
      · exact h.mapLive k hk hkind
      · rw [List.mem_singleton] at hk; subst hk
        exact absurd hkind.symm map_ne_reduce
    redLe := by
      intro t' ht'
      obtain ⟨x, hx, rfl⟩ := List.mem_map.1 ht'
      rw [List.countP_append, List.countP_singleton, ite_status_fileName]
      have hmem := mem_partitionTasks_names p r x.fileName (List.mem_map_of_mem _ hx)
      by_cases hq : partitionField x.fileName = some p
      · have h0 : ks.countP (keyRefs Reduce x.fileName) = 0 := by
          rw [List.countP_eq_zero]
          intro k hk e
          rw [hnone x hx hq k hk] at e
          exact Bool.false_ne_true e
        rw [h0]
        split <;> omega
      · have h0 := h.redLe x hx
        have hk0 : keyRefs Reduce x.fileName
            { id := wid + 1, kind := Reduce,
              names := (partitionTasks p r).map MRTask.fileName } = false := by
          rw [Bool.eq_false_iff]
          intro e
          exact hq (hmem.1 ((keyRefs_iff _ _ _).1 e).2)
        rw [hk0]
        simpa using h0
    redRef := by
      intro t' ht' k hk hkind hn
      obtain ⟨x, hx, rfl⟩ := List.mem_map.1 ht'
      rw [ite_status_fileName] at hn
      by_cases hq : partitionField x.fileName = some p
      · rw [if_pos hq]
        exact fun e => unprocessed_ne_processing e.symm
      · rw [if_neg hq]
        rcases List.mem_append.1 hk with hk | hk
        · exact h.redRef x hx k hk hkind hn
        · rw [List.mem_singleton] at hk; subst hk
          exact absurd
            ((mem_partitionTasks_names p r x.fileName (List.mem_map_of_mem _ hx)).1 hn) hq
    redClosed := by
      intro k hk hkind
      rw [markedTable_names]
      rcases List.mem_append.1 hk with hk | hk
      · exact h.redClosed k hk hkind
      · rw [List.mem_singleton] at hk; subst hk
        exact ⟨p, fun n hn => mem_partitionTasks_names p r n hn⟩
    barrier := fun _ _ _ => hm
    frozen := fun _ _ _ => hm }

/-- The invariant survives the release (commit or reclaim) of a map lease;
`extra` are the reduce tasks appended by a commit. -/
theorem MapLiveCore_releaseMap {m r : List MRTask} {pre post : List LeaseKey} {k : LeaseKey}
    {wid : Int} (h : MapLiveCore m r (pre ++ k :: post) wid) (hkind : k.kind = Map)
    (st : OperationStatus) (ks' : List LeaseKey)
    (hks : ks'.Perm (pre ++ post)) (extra : List MRTask)
    (hextra : ∀ t ∈ extra, t.status = Unprocessed) :
    MapLiveCore (relabel st k.names m) (r ++ extra) ks' wid := by
  have hkmem : k ∈ pre ++ k :: post := by simp
  obtain ⟨hnoP, hnoRed⟩ := MapLiveCore_map_phase h k hkmem hkind
  have hsub := mem_of_removed pre post ks' k hks
  have hnoRed' : ∀ k2 ∈ ks', k2.kind ≠ Reduce := fun k2 hk2 => hnoRed k2 (hsub k2 hk2)
  have hnoP' : ∀ t ∈ r ++ extra, t.status ≠ Processing := by
    intro t ht
    rcases List.mem_append.1 ht with ht | ht
    · exact hnoP t ht
    · rw [hextra t ht]; exact unprocessed_ne_processing
  exact
  { mapNodup := by rw [relabel_names]; exact h.mapNodup
    widNonneg := h.widNonneg
    idBound := fun k2 hk2 => h.idBound k2 (hsub k2 hk2)
    idsNodup := ids_nodup_removed pre post ks' k hks h.idsNodup
    kinds := fun k2 hk2 => h.kinds k2 (hsub k2 hk2)
    mapLe := by
      intro t' ht'
      obtain ⟨x, hx, rfl⟩ := mem_relabel st k.names m t' ht'
      rw [ite_status_fileName]
      exact le_trans (countP_le_of_removed _ pre post ks' k hks) (h.mapLe x hx)
    mapRef := by
      intro t' ht' k2 hk2 hkind2 hn
      obtain ⟨x, hx, rfl⟩ := mem_relabel st k.names m t' ht'
      rw [ite_status_fileName] at hn
      by_cases hxn : x.fileName ∈ k.names
      · have hfalse := countP_eq_zero_of_removed (keyRefs Map x.fileName) pre post ks' k hks
          (h.mapLe x hx) ((keyRefs_iff _ _ _).2 ⟨hkind, hxn⟩) k2 hk2
        rw [(keyRefs_iff _ _ _).2 ⟨hkind2, hn⟩] at hfalse
        exact absurd hfalse (by decide)
      · rw [if_neg hxn]
        exact h.mapRef x hx k2 (hsub k2 hk2) hkind2 hn
    mapLive := by
      intro k2 hk2 hkind2
      rw [relabel_names]
      exact h.mapLive k2 (hsub k2 hk2) hkind2
    redLe := by
      intro t _
      have : ks'.countP (keyRefs Reduce t.fileName) = 0 := by
        rw [List.countP_eq_zero]
        intro k2 hk2 e
        exact hnoRed' k2 hk2 ((keyRefs_iff _ _ _).1 e).1
      omega
    redRef := fun _ _ k2 hk2 hkind2 _ => absurd hkind2 (hnoRed' k2 hk2)
    redClosed := fun k2 hk2 hkind2 => absurd hkind2 (hnoRed' k2 hk2)
    barrier := fun rt hrt hP => absurd hP (hnoP' rt hrt)
    frozen := fun k2 hk2 hkind2 => absurd hkind2 (hnoRed' k2 hk2) }

/-- The invariant survives the reclaim of a reduce lease. -/
theorem MapLiveCore_reclaimReduce {m r : List MRTask} {pre post : List LeaseKey}
    {k : LeaseKey} {wid : Int} (h : MapLiveCore m r (pre ++ k :: post) wid)
    (hkind : k.kind = Reduce) (ks' : List LeaseKey) (hks : ks'.Perm (pre ++ post)) :
    MapLiveCore m (relabel Unprocessed k.names r) ks' wid := by
  have hsub := mem_of_removed pre post ks' k hks
  exact
  { mapNodup := h.mapNodup
    widNonneg := h.widNonneg
    idBound := fun k2 hk2 => h.idBound k2 (hsub k2 hk2)
    idsNodup := ids_nodup_removed pre post ks' k hks h.idsNodup
    kinds := fun k2 hk2 => h.kinds k2 (hsub k2 hk2)
    mapLe := fun t ht => le_trans (countP_le_of_removed _ pre post ks' k hks) (h.mapLe t ht)
    mapRef := fun t ht k2 hk2 => h.mapRef t ht k2 (hsub k2 hk2)
    mapLive := fun k2 hk2 => h.mapLive k2 (hsub k2 hk2)
    redLe := by
      intro t' ht'
      obtain ⟨x, hx, rfl⟩ := mem_relabel Unprocessed k.names r t' ht'
      rw [ite_status_fileName]
      exact le_trans (countP_le_of_removed _ pre post ks' k hks) (h.redLe x hx)
    redRef := by
      intro t' ht' k2 hk2 hkind2 hn
      obtain ⟨x, hx, rfl⟩ := mem_relabel Unprocessed k.names r t' ht'
      rw [ite_status_fileName] at hn
      by_cases hxn : x.fileName ∈ k.names
      · have hfalse := countP_eq_zero_of_removed (keyRefs Reduce x.fileName) pre post ks' k
          hks (h.redLe x hx) ((keyRefs_iff _ _ _).2 ⟨hkind, hxn⟩) k2 hk2
        rw [(keyRefs_iff _ _ _).2 ⟨hkind2, hn⟩] at hfalse
        exact absurd hfalse (by decide)
      · rw [if_neg hxn]
        exact h.redRef x hx k2 (hsub k2 hk2) hkind2 hn
    redClosed := by
      intro k2 hk2 hkind2
      rw [relabel_names]
      exact h.redClosed k2 (hsub k2 hk2) hkind2
    barrier := by
      intro rt hrt hP
      obtain ⟨x, hx, rfl⟩ := mem_relabel Unprocessed k.names r rt hrt
      by_cases hxn : x.fileName ∈ k.names
      · rw [if_pos hxn] at hP
        exact absurd hP unprocessed_ne_processing
      · rw [if_neg hxn] at hP
        exact h.barrier x hx hP
    frozen := fun k2 hk2 => h.frozen k2 (hsub k2 hk2) }

/-- The invariant survives a completion report of a type other than `map`,
whatever file names it carries and whichever lease it removes. -/
theorem MapLiveCore_otherReport {m r : List MRTask} {ks : List LeaseKey} {wid : Int}
    (h : MapLiveCore m r ks wid) (names : List String) (ks' kept : List LeaseKey)
    (hperm : ks'.Perm kept) (hkept : kept.Sublist ks) :
    MapLiveCore m (relabel Completed names r) ks' wid := by
  have hsub : ∀ k ∈ ks', k ∈ ks := fun k hk => hkept.subset (hperm.mem_iff.1 hk)
  have hcount : ∀ f : LeaseKey → Bool, ks'.countP f ≤ ks.countP f := by
    intro f
    rw [hperm.countP_eq]
    exact hkept.countP_le f
  exact
  { mapNodup := h.mapNodup
    widNonneg := h.widNonneg
    idBound := fun k2 hk2 => h.idBound k2 (hsub k2 hk2)
    idsNodup := by
      rw [(hperm.map LeaseKey.id).nodup_iff]
      exact List.Nodup.sublist (hkept.map _) h.idsNodup
    kinds := fun k2 hk2 => h.kinds k2 (hsub k2 hk2)
    mapLe := fun t ht => le_trans (hcount _) (h.mapLe t ht)
    mapRef := fun t ht k2 hk2 => h.mapRef t ht k2 (hsub k2 hk2)
    mapLive := fun k2 hk2 => h.mapLive k2 (hsub k2 hk2)
    redLe := by
      intro t' ht'
      obtain ⟨x, hx, rfl⟩ := mem_relabel Completed names r t' ht'
      rw [ite_status_fileName]
      exact le_trans (hcount _) (h.redLe x hx)
    redRef := by
      intro t' ht' k2 hk2 hkind2 hn
      obtain ⟨x, hx, rfl⟩ := mem_relabel Completed names r t' ht'
      rw [ite_status_fileName] at hn
      by_cases hxn : x.fileName ∈ names
      · rw [if_pos hxn]
        exact fun e => unprocessed_ne_completed e.symm
      · rw [if_neg hxn]
        exact h.redRef x hx k2 (hsub k2 hk2) hkind2 hn
    redClosed := by
      intro k2 hk2 hkind2
      rw [relabel_names]
      exact h.redClosed k2 (hsub k2 hk2) hkind2
    barrier := by
      intro rt hrt hP
      obtain ⟨x, hx, rfl⟩ := mem_relabel Completed names r rt hrt
      by_cases hxn : x.fileName ∈ names
      · rw [if_pos hxn] at hP
        exact absurd hP completed_ne_processing
      · rw [if_neg hxn] at hP
        exact h.barrier x hx hP
    frozen := fun k2 hk2 => h.frozen k2 (hsub k2 hk2) }

/-! ## The invariant holds in every map-live state -/

theorem MapLiveInv_init (files : List String) (nReduce : Int) (hnd : files.Nodup) :
    MapLiveInv (MakeCoordinator freshState files nReduce) := by
  unfold MapLiveInv MakeCoordinator freshState
  simpa using MapLiveCore_init files hnd

theorem MapLiveInv_assignTask (s : State) (request : ActiveWorker) (s' : State)
    (r : ActiveWorker) (hinv : MapLiveInv s) (hwid : s.workerId < 2 ^ 63 - 1)
    (h : assignTask s request = (s', some r)) : MapLiveInv s' := by
  have hinc : incInt s.workerId = s.workerId + 1 :=
    incInt_eq _ (by have := hinv.widNonneg; omega) (by omega)
  rcases assignTask_cases s request s' r h with
    ⟨i, task, lease, hi, hU, _, hm, hr, hw, hws, hkey, _⟩ | ⟨rfl, _⟩ |
    ⟨k, first, p, lease, hmaps, hk, hU, _, hp, hm, hr, hw, hws, hkey, _⟩
  · unfold MapLiveInv
    rw [hm, hr, hw, hws, List.map_append, List.map_singleton, hkey, hinc,
      set_eq_map_of_nodup _ i task _ hinv.mapNodup hi]
    exact MapLiveCore_assignMap hinv task (List.getElem?_mem hi) hU
  · exact hinv
  · unfold MapLiveInv
    rw [hm, hr, hw, hws, List.map_append, List.map_singleton, hkey, hinc]
    exact MapLiveCore_assignReduce hinv hmaps first (List.getElem?_mem hk) hU p hp

theorem MapLiveInv_tickAt (s : State) (i : Nat) (w : ActiveWorker) (hinv : MapLiveInv s)
    (hi : s.workers[i]? = some w) : MapLiveInv (tickAt s i w) := by
  unfold MapLiveInv at *
  have hk := map_leaseKey_set s.workers i w
    { w with timeElapsed := incInt32 w.timeElapsed } hi rfl
  show MapLiveCore s.filesToMap s.filesToReduce
    ((s.workers.set i { w with timeElapsed := incInt32 w.timeElapsed }).map leaseKey) s.workerId
  rw [hk]
  exact hinv

theorem MapLiveInv_reclaimAt (s : State) (i : Nat) (w : ActiveWorker) (hinv : MapLiveInv s)
    (hi : s.workers[i]? = some w) : MapLiveInv (reclaimAt s i w) := by
  obtain ⟨pre, post, hws, hl⟩ := split_at_index s.workers i w hi
  rw [reclaimAt_state]
  have hperm : (removeElementAtIndex
      (s.workers.set i { w with timeElapsed := incInt32 w.timeElapsed }) i).Perm
      (pre ++ post) := by
    rw [hws, ← hl, List.set_append_right _ _ (le_refl _)]
    simpa using removeElementAtIndex_perm pre post { w with timeElapsed := incInt32 w.timeElapsed }
  have hpermk := hperm.map leaseKey
  rw [List.map_append] at hpermk
  unfold MapLiveInv at hinv ⊢
  rw [hws, List.map_append, List.map_cons] at hinv
  have hk : leaseKey w ∈ pre.map leaseKey ++ leaseKey w :: post.map leaseKey := by simp
  by_cases hkind : w.OperationType = Map
  · rw [if_pos hkind, if_pos hkind]
    have := MapLiveCore_releaseMap hinv hkind Unprocessed _ hpermk [] (by simp)
    rw [List.append_nil] at this
    exact this
  · have hred : (leaseKey w).kind = Reduce := by
      rcases hinv.kinds _ hk with h | h
      · exact absurd h hkind
      · exact h
    rw [if_neg hkind, if_neg hkind]
    exact MapLiveCore_reclaimReduce hinv hred _ hpermk

theorem MapLiveInv_updateWorkerTimeElapsed (s : State) (hinv : MapLiveInv s) :
    MapLiveInv (updateWorkerTimeElapsed s) := by
  unfold updateWorkerTimeElapsed
  apply sweepFrom_induction MapLiveInv
  · intro s' i w h hi _
    exact MapLiveInv_tickAt s' i w h hi
  · intro s' i w h hi _
    exact MapLiveInv_reclaimAt s' i w h hi
  · exact hinv

/-- With pairwise distinct worker ids in the lease table, a report carrying
the id of a lease removes that very lease. -/
theorem removeWorkerFrom_of_nodup (ws : List ActiveWorker)
    (hnd : ((ws.map leaseKey).map LeaseKey.id).Nodup) (pre post : List ActiveWorker)
    (lease : ActiveWorker) (hws : ws = pre ++ lease :: post) :
    (removeWorkerFrom ws lease.WorkerId 0 ws).Perm (pre ++ post) := by
  rw [hws, List.map_append, List.map_cons, List.map_append, List.map_cons,
    List.nodup_append] at hnd
  have hpre : ∀ x ∈ pre, x.WorkerId ≠ lease.WorkerId := by
    intro x hx e
    refine hnd.2.2 (List.mem_map_of_mem _ (List.mem_map_of_mem _ hx)) ?_
    show (leaseKey x).id ∈ _
    have : (leaseKey x).id = (leaseKey lease).id := e
    rw [this]
    exact List.mem_cons_self _ _
  rw [hws]
  rw [removeWorkerFrom_found _ _ 0 pre post lease hpre rfl, Nat.zero_add]
  exact removeElementAtIndex_perm pre post lease

theorem MapLiveInv_mapReport (s : State) (request lease : ActiveWorker) (hinv : MapLiveInv s)
    (hl : lease ∈ s.workers) (hkind : lease.OperationType = Map)
    (he : Echoes request lease) : MapLiveInv (updateFileCompletion s request).1 := by
  obtain ⟨pre, post, hws⟩ := List.append_of_mem hl
  obtain ⟨_, hid, hty, hfn, _, _, _⟩ := he
  rw [updateFileCompletion_state, hid, hty, hfn]
  have hperm := (removeWorkerFrom_of_nodup s.workers hinv.idsNodup pre post lease hws).map
    leaseKey
  rw [List.map_append] at hperm
  unfold MapLiveInv at hinv ⊢
  rw [hws, List.map_append, List.map_cons] at hinv
  rw [if_pos hkind, if_pos hkind]
  exact MapLiveCore_releaseMap hinv hkind Completed _ hperm _ (by simp)

theorem MapLiveInv_otherReport (s : State) (request : ActiveWorker) (hinv : MapLiveInv s)
    (hty : request.OperationType ≠ Map) : MapLiveInv (updateFileCompletion s request).1 := by
  obtain ⟨kept, hperm, hsub⟩ := removeWorkerFrom_subperm s.workers request.WorkerId
  rw [updateFileCompletion_state]
  unfold MapLiveInv at hinv ⊢
  rw [if_neg hty, if_neg hty]
  exact MapLiveCore_otherReport hinv request.FileNames _ (kept.map leaseKey)
    (hperm.map leaseKey) (hsub.map leaseKey)

/-- The invariant `MapLiveInv` holds in every state reachable by `Idle`
requests, map reports of leases still in the table, arbitrary completion
reports of other types, and `Done()`. -/
theorem MapLiveInv_of_MapLiveReachable (files : List String) (nReduce : Int)
    (hnd : files.Nodup) (s : State) (h : MapLiveReachable files nReduce s) :
    MapLiveInv s := by
  induction h with
  | init => exact MapLiveInv_init files nReduce hnd
  | idle s request reply0 s' r _ hreq hwid hstep ih =>
    unfold OnOperationStatusChange at hstep
    rw [if_pos hreq] at hstep
    cases ha : assignTask s request with
    | mk s1 res =>
      rw [ha] at hstep
      cases res with
      | none => simp at hstep
      | some r1 =>
        simp only [Prod.mk.injEq, Option.some.injEq] at hstep
        rw [← hstep.1]
        exact MapLiveInv_assignTask s request s1 r1 ih hwid ha
  | mapReport s request reply0 lease _ hl hkind he ih =>
    rw [OnOperationStatusChange_completed s request reply0 he.1]
    exact MapLiveInv_mapReport s request lease ih hl hkind he
  | otherReport s request reply0 _ hst hty ih =>
    rw [OnOperationStatusChange_completed s request reply0 hst]
    exact MapLiveInv_otherReport s request ih hty
  | done s _ ih => exact MapLiveInv_updateWorkerTimeElapsed s ih

theorem runMapLive_sound (files : List String) (nReduce : Int) (calls : List Call) :
    ∀ (s s' : State), MapLiveReachable files nReduce s → runMapLive s calls = some s' →
      MapLiveReachable files nReduce s' := by
  induction calls with
  | nil =>
    intro s s' h hr
    simp only [runMapLive, Option.some.injEq] at hr
    rw [← hr]; exact h
  | cons c rest ih =>
    intro s s' h hr
    cases c with
    | done =>
      simp only [runMapLive] at hr
      exact ih _ _ (MapLiveReachable.done s h) hr
    | rpc request =>
      simp only [runMapLive] at hr
      by_cases hidle : request.Status = Idle
      · rw [if_pos hidle] at hr
        by_cases hwid : s.workerId < 2 ^ 63 - 1
        · rw [if_pos hwid] at hr
          cases hstep : OnOperationStatusChange s request zeroWorker with
          | mk s1 res =>
            rw [hstep] at hr
            cases res with
            | none => simp at hr
            | some r =>
              simp only at hr
              exact ih _ _
                (MapLiveReachable.idle s request zeroWorker s1 r h hidle hwid hstep) hr
        · rw [if_neg hwid] at hr
          simp at hr
      · rw [if_neg hidle] at hr
        by_cases hother : request.Status = Completed ∧ request.OperationType ≠ Map
        · rw [if_pos hother] at hr
          exact ih _ _
            (MapLiveReachable.otherReport s request zeroWorker h hother.1 hother.2) hr
        · rw [if_neg hother] at hr
          by_cases hany : s.workers.any
              (fun lease => decide (lease.OperationType = Map ∧ Echoes request lease)) = true
          · rw [if_pos hany] at hr
            obtain ⟨a, ha, he⟩ := List.any_eq_true.1 hany
            have he' := of_decide_eq_true he
            exact ih _ _
              (MapLiveReachable.mapReport s request zeroWorker a h ha he'.1 he'.2) hr
          · rw [if_neg hany] at hr
            simp at hr

theorem lateReduce_reachable : MapLiveReachable ["a.txt"] 2 lateReduceState :=
  runMapLive_sound ["a.txt"] 2 lateReduceCalls twoPartitionJob _ MapLiveReachable.init
    (by decide)

theorem twoMapLease_reachable : MapLiveReachable ["a.txt", "b.txt"] 3 twoMapLeaseState :=
  runMapLive_sound ["a.txt", "b.txt"] 3 twoMapLeaseCalls twoFileJob _ MapLiveReachable.init
    (by decide)

/-! ## The phase barrier and the leases of a task under late reduce reports -/

/-- C1 (amended). Phase barrier: in every state reachable from
`MakeCoordinator(files, nReduce)` with pairwise distinct input files by `Idle`
requests (made while the worker-id counter is below `2^63 - 1`), completion
reports of type `map` echoing a map lease that is still in the lease table,
completion reports of every other type (every reduce report, late or not, and
whatever it carries), and `Done()` calls, no reduce task is `Processing`
while some map task is not `Completed`. -/
theorem phase_barrier_map_live (files : List String) (nReduce : Int) (s : State)
    (hnd : files.Nodup) (h : MapLiveReachable files nReduce s) : PhaseBarrier s := by
  have hinv := MapLiveInv_of_MapLiveReachable files nReduce hnd s h
  intro rt hrt hP mt hmt
  exact hinv.barrier rt hrt hP mt hmt

/-- Witness for C1 (amended): a run with a late reduce report, ending with a
`Processing` reduce task. -/
theorem phase_barrier_map_live_witness :
    ["a.txt"].Nodup ∧ MapLiveReachable ["a.txt"] 2 lateReduceState ∧
    (∃ rt ∈ lateReduceState.filesToReduce, rt.status = Processing) ∧
    PhaseBarrier lateReduceState :=
  ⟨by decide, lateReduce_reachable, by decide,
    phase_barrier_map_live ["a.txt"] 2 lateReduceState (by decide) lateReduce_reachable⟩

/-- C2 (amended). No double assignment: in every state reachable from
`MakeCoordinator(files, nReduce)` with pairwise distinct input files by `Idle`
requests (made while the worker-id counter is below `2^63 - 1`), completion
reports of type `map` echoing a map lease that is still in the lease table,
completion reports of every other type (every reduce report, late or not, and
whatever it carries), and `Done()` calls, no map or reduce task is referenced
by two distinct leases. -/
theorem no_double_assignment_map_live (files : List String) (nReduce : Int) (s : State)
    (hnd : files.Nodup) (h : MapLiveReachable files nReduce s) : NoDoubleAssignment s := by
  have hinv := MapLiveInv_of_MapLiveReachable files nReduce hnd s h
  constructor
  · intro t ht
    rw [leaseCount_eq]
    exact hinv.mapLe t ht
  · intro t ht
    rw [leaseCount_eq]
    exact hinv.redLe t ht

/-- Witness for C2 (amended): two map leases on two map tasks, and, after a
late reduce report, two reduce leases on two reduce tasks. -/
theorem no_double_assignment_map_live_witness :
    (["a.txt", "b.txt"].Nodup ∧ MapLiveReachable ["a.txt", "b.txt"] 3 twoMapLeaseState ∧
      twoMapLeaseState.workers.length = 2 ∧
      (∀ t ∈ twoMapLeaseState.filesToMap, leaseCount twoMapLeaseState Map t = 1) ∧
      NoDoubleAssignment twoMapLeaseState) ∧
    (["a.txt"].Nodup ∧ MapLiveReachable ["a.txt"] 2 lateReduceState ∧
      lateReduceState.workers.length = 2 ∧
      (∀ t ∈ lateReduceState.filesToReduce, leaseCount lateReduceState Reduce t = 1) ∧
      NoDoubleAssignment lateReduceState) :=
  ⟨⟨by decide, twoMapLease_reachable, by decide, by decide,
      no_double_assignment_map_live ["a.txt", "b.txt"] 3 twoMapLeaseState (by decide)
        twoMapLease_reachable⟩,
    ⟨by decide, lateReduce_reachable, by decide, by decide,
      no_double_assignment_map_live ["a.txt"] 2 lateReduceState (by decide)
        lateReduce_reachable⟩⟩

/-! ## The map worker on its machine -/

theorem makeBuckets_ok (host : Host) (nReduce : Int) (h0 : 0 ≤ nReduce)
    (hmem : (sliceHeaderSize : Int) * nReduce ≤ maxAlloc)
    (hlen : nReduce ≤ host.maxSliceLen) :
    makeBuckets host nReduce = some (List.replicate nReduce.toNat []) := by
  unfold makeBuckets
  rw [if_neg]
  intro h
  rcases h with h | h | h <;> omega

theorem makeBuckets_huge (host : Host) (nReduce : Int)
    (h : (maxAlloc : Int) < sliceHeaderSize * nReduce) : makeBuckets host nReduce = none := by
  unfold makeBuckets
  rw [if_pos (Or.inr (Or.inl h))]

theorem bucketPairs_spec (host : Host) (kva : List KeyValue) (nReduce : Int)
    (hn : 1 ≤ nReduce) (hmem : (sliceHeaderSize : Int) * nReduce ≤ maxAlloc)
    (hlen : nReduce ≤ host.maxSliceLen) :
    ∃ buckets, bucketPairs host nReduce kva = some buckets ∧
      buckets.length = nReduce.toNat ∧
      (∀ b : Nat, b < buckets.length → buckets[b]? = some
        (kva.filter (fun pair => decide (bucketId pair.Key nReduce = some (b : Int))))) ∧
      buckets.flatten.Perm kva := by
  obtain ⟨bs, hfill, hl, hbucket, hperm⟩ :=
    fillBuckets_spec nReduce hn kva (List.replicate nReduce.toNat [])
      (List.length_replicate _ _)
  refine ⟨bs, ?_, hl, ?_, ?_⟩
  · unfold bucketPairs
    rw [makeBuckets_ok host nReduce (by omega) hmem hlen]
    exact hfill
  · intro b hb
    rw [hbucket b, List.getElem?_eq_getElem (by rw [List.length_replicate]; omega)]
    simp
  · have h0 : (List.replicate nReduce.toNat ([] : List KeyValue)).flatten = [] := by
      induction nReduce.toNat with
      | zero => rfl
      | succ n ih => simp [List.replicate_succ]
    simpa [h0] using hperm

theorem bucketPairs_zero (host : Host) : bucketPairs host 0 [] = some [] := by
  unfold bucketPairs
  rw [makeBuckets_ok host 0 (le_refl _) (by norm_num [sliceHeaderSize, maxAlloc])
    (by exact_mod_cast Nat.zero_le _)]
  rfl

theorem writeBuckets_ok (host : Host) (taskId : String) :
    ∀ (buckets : List (List KeyValue)) (id : Nat) (names : List String),
      (∀ (p : Nat) (bucket : List KeyValue), id ≤ p → p < id + buckets.length →
        host.writeFile ("mr-" ++ taskId ++ "-" ++ Itoa p) bucket = true) →
      writeBuckets host taskId id buckets names
        = some (names ++ (List.range' id buckets.length).map
            (fun (p : Nat) => "mr-" ++ taskId ++ "-" ++ Itoa p)) := by
  intro buckets
  induction buckets with
  | nil =>
    intro id names _
    simp [writeBuckets]
  | cons bucket rest ih =>
    intro id names hw
    rw [writeBuckets, if_pos (hw id bucket (le_refl _) (by simp)),
      ih (id + 1) _ (fun p b h1 h2 => hw p b (by omega) (by simp only [List.length_cons]; omega))]
    simp [List.range'_succ]

theorem handleMapOperation_ok (host : Host) (mapf : String → String → List KeyValue)
    (req : ActiveWorker) (file : String) (rest : List String) (content : String)
    (buckets : List (List KeyValue))
    (hfiles : req.FileNames = file :: rest) (hread : host.readFile file = some content)
    (hbuckets : bucketPairs host req.NReduce (mapf file content) = some buckets)
    (hwrite : ∀ (p : Nat) (bucket : List KeyValue), p < buckets.length →
      host.writeFile ("mr-" ++ req.TaskId ++ "-" ++ Itoa p) bucket = true) :
    handleMapOperation host mapf req = some (buckets,
      { req with
        TaskCompletionFileNames := (List.range buckets.length).map
          (fun (p : Nat) => "mr-" ++ req.TaskId ++ "-" ++ Itoa p) }) := by
  unfold handleMapOperation
  rw [hfiles]
  dsimp only
  rw [hread]
  dsimp only
  rw [hbuckets]
  dsimp only
  rw [writeBuckets_ok host req.TaskId buckets 0 []
    (fun p b _ h2 => hwrite p b (by omega))]
  simp [List.range_eq_range']

/-- C18 (amended). For every key (also as any byte string) and every
`nReduce ≥ 1`, `ihash(key)` lies between 0 and `2^31 - 1` and
`ihash(key) % nReduce` is defined and lies in `[0, nReduce)`.  When
`make([][]KeyValue, nReduce)` succeeds (the slice takes at most `maxAlloc`
bytes and the machine provides a slice that long), the map worker fills the
buckets without panicking: there are `nReduce` buckets, bucket `b` holds
exactly the emitted pairs whose bucket index is `b`, in emission order, so
every emitted pair lies in the bucket of its key and in no other, and the
concatenated buckets are a permutation of the map function's output; these
are the buckets `handleMapOperation` writes when its files can be read and
written. -/
theorem bucket_in_range (host : Host) (kva : List KeyValue) (nReduce : Int)
    (hn : 1 ≤ nReduce) (hmem : (sliceHeaderSize : Int) * nReduce ≤ maxAlloc)
    (hlen : nReduce ≤ host.maxSliceLen) :
    (∀ n : Int, 1 ≤ n → ∀ bytes : List Nat,
      0 ≤ ihashBytes bytes ∧ ihashBytes bytes ≤ 2 ^ 31 - 1 ∧
      ∃ id, goMod (ihashBytes bytes) n = some id ∧ 0 ≤ id ∧ id < n) ∧
    (∀ n : Int, 1 ≤ n → ∀ key : String, 0 ≤ ihash key ∧ ihash key ≤ 2 ^ 31 - 1 ∧
      ∃ id, bucketId key n = some id ∧ 0 ≤ id ∧ id < n) ∧
    ∃ buckets, bucketPairs host nReduce kva = some buckets ∧
      buckets.length = nReduce.toNat ∧
      (∀ b : Nat, b < buckets.length → buckets[b]? = some
        (kva.filter (fun pair => decide (bucketId pair.Key nReduce = some (b : Int))))) ∧
      (∀ pair ∈ kva, ∀ (b : Nat) (bucket : List KeyValue), buckets[b]? = some bucket →
        (pair ∈ bucket ↔ bucketId pair.Key nReduce = some (b : Int))) ∧
      buckets.flatten.Perm kva ∧
      (∀ (mapf : String → String → List KeyValue) (req : ActiveWorker) (file : String)
        (rest : List String) (content : String),
        req.FileNames = file :: rest → host.readFile file = some content →
        req.NReduce = nReduce → mapf file content = kva →
        (∀ (name : String) (bucket : List KeyValue), host.writeFile name bucket = true) →
        ∃ reply, handleMapOperation host mapf req = some (buckets, reply)) := by
  refine ⟨?_, ?_, ?_⟩
  · intro n h1 bytes
    obtain ⟨h1, h2, h3⟩ := goMod_nonneg (ihashBytes bytes) n (ihashBytes_range bytes).1 h1
    exact ⟨(ihashBytes_range bytes).1, (ihashBytes_range bytes).2, _, h1, h2, h3⟩
  · intro n h1 key
    exact ⟨(ihashBytes_range _).1, (ihashBytes_range _).2, bucketId_range key n h1⟩
  · obtain ⟨buckets, hrun, hl, hbucket, hperm⟩ := bucketPairs_spec host kva nReduce hn hmem hlen
    refine ⟨buckets, hrun, hl, hbucket, ?_, hperm, ?_⟩
    · intro pair hpair b bucket hb
      have hlt : b < buckets.length := by
        by_contra hge
        rw [List.getElem?_eq_none (by omega)] at hb
        exact Option.noConfusion hb
      rw [hbucket b hlt] at hb
      have := Option.some.inj hb
      subst this
      simp only [List.mem_filter, decide_eq_true_eq]
      exact ⟨fun h => h.2, fun h => ⟨hpair, h⟩⟩
    · intro mapf req file rest content hfiles hread hreq hkva hwrite
      refine ⟨_, handleMapOperation_ok host mapf req file rest content buckets hfiles hread
        (by rw [hreq, hkva]; exact hrun) (fun p b _ => hwrite _ b)⟩

theorem bucket_in_range_witness :
    (1 : Int) ≤ 5 ∧ (sliceHeaderSize : Int) * 5 ≤ maxAlloc ∧ (5 : Int) ≤ plainHost.maxSliceLen ∧
    ((∀ n : Int, 1 ≤ n → ∀ bytes : List Nat,
      0 ≤ ihashBytes bytes ∧ ihashBytes bytes ≤ 2 ^ 31 - 1 ∧
      ∃ id, goMod (ihashBytes bytes) n = some id ∧ 0 ≤ id ∧ id < n) ∧
    (∀ n : Int, 1 ≤ n → ∀ key : String, 0 ≤ ihash key ∧ ihash key ≤ 2 ^ 31 - 1 ∧
      ∃ id, bucketId key n = some id ∧ 0 ≤ id ∧ id < n) ∧
    ∃ buckets, bucketPairs plainHost 5 helloPairs = some buckets ∧
      buckets.length = (5 : Int).toNat ∧
      (∀ b : Nat, b < buckets.length → buckets[b]? = some
        (helloPairs.filter (fun pair => decide (bucketId pair.Key 5 = some (b : Int))))) ∧
      (∀ pair ∈ helloPairs, ∀ (b : Nat) (bucket : List KeyValue), buckets[b]? = some bucket →
        (pair ∈ bucket ↔ bucketId pair.Key 5 = some (b : Int))) ∧
      buckets.flatten.Perm helloPairs ∧
      (∀ (mapf : String → String → List KeyValue) (req : ActiveWorker) (file : String)
        (rest : List String) (content : String),
        req.FileNames = file :: rest → plainHost.readFile file = some content →
        req.NReduce = 5 → mapf file content = helloPairs →
        (∀ (name : String) (bucket : List KeyValue), plainHost.writeFile name bucket = true) →
        ∃ reply, handleMapOperation plainHost mapf req = some (buckets, reply))) :=
  ⟨by decide, by decide, by decide,
    bucket_in_range plainHost helloPairs 5 (by decide) (by decide) (by decide)⟩

/-- C18 as stated fails for large `nReduce`: with `nReduce = 2^62` the slice
of buckets would take more than `maxAlloc` bytes, `make` panics on every
machine, and the map worker places no pair in any bucket. -/
theorem huge_nReduce_make_panics :
    (1 : Int) ≤ 2 ^ 62 ∧
    (∀ host : Host, makeBuckets host (2 ^ 62) = none) ∧
    (∀ host : Host, bucketPairs host (2 ^ 62) helloPairs = none) ∧
    handleMapOperation plainHost helloMap (mapAssignment 1 "in.txt" 0 (2 ^ 62)) = none := by
  have hbig : (maxAlloc : Int) < sliceHeaderSize * 2 ^ 62 := by
    norm_num [maxAlloc, sliceHeaderSize]
  have hmake : ∀ host : Host, makeBuckets host (2 ^ 62) = none :=
    fun host => makeBuckets_huge host _ hbig
  have hpairs : ∀ (host : Host) (kva : List KeyValue), bucketPairs host (2 ^ 62) kva = none := by
    intro host kva
    unfold bucketPairs
    rw [hmake host]
  refine ⟨by norm_num, hmake, fun host => hpairs host _, ?_⟩
  unfold handleMapOperation
  simp only [mapAssignment, plainHost, hpairs]

/-- The buckets of the word-count example with five partitions: `world` goes
to bucket 2 and `hello` to bucket 3, twice. -/
theorem handleMapOperation_hello :
    (handleMapOperation plainHost helloMap (mapAssignment 0 "in.txt" 0 5)).map Prod.fst
      = some [[], [], [⟨"world", "1"⟩], [⟨"hello", "1"⟩, ⟨"hello", "1"⟩], []] := by
  decide

/-- C19 (amended). For a map assignment whose `TaskId` is the decimal
rendering of a table index `i` and whose first file can be read, and for
`NReduce ≥ 1` within what `make` accepts and the machine provides (or
`NReduce = 0` while the map function emits nothing), on a machine where the
intermediate files can be created and written, the map worker does not panic
and leaves the request with exactly `NReduce` file names, the `p`-th being
`mr-<i>-<p>` whatever the buckets hold, all other fields as they were; for
each such name the partition extraction of `getReduceTasks` is defined and
equals the decimal rendering of `p`. -/
theorem intermediate_names_round_trip (host : Host)
    (mapf : String → String → List KeyValue) (req : ActiveWorker) (i : Nat)
    (file : String) (rest : List String) (content : String)
    (hid : req.TaskId = Itoa i) (hfiles : req.FileNames = file :: rest)
    (hread : host.readFile file = some content)
    (hn : (1 ≤ req.NReduce ∧ (sliceHeaderSize : Int) * req.NReduce ≤ maxAlloc ∧
        req.NReduce ≤ host.maxSliceLen) ∨
      (req.NReduce = 0 ∧ mapf file content = []))
    (hwrite : ∀ (p : Nat) (bucket : List KeyValue), (p : Int) < req.NReduce →
      host.writeFile ("mr-" ++ Itoa i ++ "-" ++ Itoa p) bucket = true) :
    ∃ buckets names, handleMapOperation host mapf req
        = some (buckets, { req with TaskCompletionFileNames := names }) ∧
      (names.length : Int) = req.NReduce ∧
      ∀ p : Nat, (p : Int) < req.NReduce →
        names[p]? = some ("mr-" ++ Itoa i ++ "-" ++ Itoa p) ∧
        partitionField ("mr-" ++ Itoa i ++ "-" ++ Itoa p) = some (Itoa p) := by
  have hb : ∃ buckets, bucketPairs host req.NReduce (mapf file content) = some buckets ∧
      (buckets.length : Int) = req.NReduce := by
    rcases hn with ⟨h1, h2, h3⟩ | ⟨h0, hkva⟩
    · obtain ⟨buckets, hrun, hl, _⟩ := bucketPairs_spec host (mapf file content) _ h1 h2 h3
      exact ⟨buckets, hrun, by rw [hl, Int.toNat_of_nonneg (by omega)]⟩
    · exact ⟨[], by rw [h0, hkva]; exact bucketPairs_zero host, by rw [h0]; rfl⟩
  obtain ⟨buckets, hrun, hl⟩ := hb
  have hok := handleMapOperation_ok host mapf req file rest content buckets hfiles hread hrun
    (fun p b hp => by rw [hid]; exact hwrite p b (by omega))
  refine ⟨buckets, _, hok, ?_, ?_⟩
  · rw [List.length_map, List.length_range]
    exact hl
  · intro p hp
    refine ⟨?_, partitionField_mapOutputName i p⟩
    rw [List.getElem?_map, List.getElem?_range (by omega), hid]
    rfl

theorem intermediate_names_round_trip_witness :
    (mapAssignment 4 "in.txt" 7 3).TaskId = Itoa (7 : Nat) ∧
    (mapAssignment 4 "in.txt" 7 3).FileNames = "in.txt" :: [] ∧
    plainHost.readFile "in.txt" = some "hello world hello" ∧
    (((1 : Int) ≤ (mapAssignment 4 "in.txt" 7 3).NReduce ∧
        (sliceHeaderSize : Int) * (mapAssignment 4 "in.txt" 7 3).NReduce ≤ maxAlloc ∧
        (mapAssignment 4 "in.txt" 7 3).NReduce ≤ plainHost.maxSliceLen) ∨
      ((mapAssignment 4 "in.txt" 7 3).NReduce = 0 ∧
        helloMap "in.txt" "hello world hello" = [])) ∧
    (∀ (p : Nat) (bucket : List KeyValue), (p : Int) < (mapAssignment 4 "in.txt" 7 3).NReduce →
      plainHost.writeFile ("mr-" ++ Itoa (7 : Nat) ++ "-" ++ Itoa p) bucket = true) ∧
    ∃ buckets names, handleMapOperation plainHost helloMap (mapAssignment 4 "in.txt" 7 3)
        = some (buckets,
            { mapAssignment 4 "in.txt" 7 3 with TaskCompletionFileNames := names }) ∧
      (names.length : Int) = (mapAssignment 4 "in.txt" 7 3).NReduce ∧
      ∀ p : Nat, (p : Int) < (mapAssignment 4 "in.txt" 7 3).NReduce →
        names[p]? = some ("mr-" ++ Itoa (7 : Nat) ++ "-" ++ Itoa p) ∧
        partitionField ("mr-" ++ Itoa (7 : Nat) ++ "-" ++ Itoa p) = some (Itoa p) :=
  ⟨rfl, rfl, rfl, Or.inl ⟨by decide, by decide, by decide⟩, fun _ _ _ => rfl,
    intermediate_names_round_trip plainHost helloMap (mapAssignment 4 "in.txt" 7 3) 7
      "in.txt" [] "hello world hello" rfl rfl rfl
      (Or.inl ⟨by decide, by decide, by decide⟩) (fun _ _ _ => rfl)⟩

/-- C19 as stated fails.  With `nReduce = 0` (an assignment the coordinator
issues when it was made with `nReduce = 0`) and a map function that emits one
pair, `ihash(pair.Key) % req.NReduce` divides by zero and the map worker
panics before it reports anything.  With `nReduce = 2^62` the worker panics
in `make`.  It also reports nothing when the input file cannot be read or an
intermediate file cannot be created. -/
theorem zero_partitions_map_worker_panics :
    (OnOperationStatusChange (MakeCoordinator freshState ["in.txt"] 0) idleRequest
        zeroWorker).2 = some (mapAssignment 1 "in.txt" 0 0) ∧
    bucketId "a" 0 = none ∧
    handleMapOperation plainHost (fun _ _ => [⟨"a", "1"⟩]) (mapAssignment 1 "in.txt" 0 0)
      = none ∧
    (∀ host : Host,
      handleMapOperation host helloMap (mapAssignment 1 "in.txt" 0 (2 ^ 62)) = none) ∧
    handleMapOperation noInputHost helloMap (mapAssignment 1 "in.txt" 0 3) = none ∧
    handleMapOperation fullDiskHost helloMap (mapAssignment 1 "in.txt" 0 3) = none := by
  refine ⟨by decide, by decide, by decide, ?_, by decide, by decide⟩
  intro host
  have hbig : (maxAlloc : Int) < sliceHeaderSize * 2 ^ 62 := by
    norm_num [maxAlloc, sliceHeaderSize]
  have hpairs : ∀ kva : List KeyValue, bucketPairs host (2 ^ 62) kva = none := by
    intro kva
    unfold bucketPairs
    rw [makeBuckets_huge host _ hbig]
  unfold handleMapOperation
  simp only [mapAssignment]
  cases host.readFile "in.txt" with
  | none => rfl
  | some content => simp only [hpairs]

/-- The request after the map worker has run the word-count example with
three partitions, and the partition fields of its file names. -/
theorem handleMapOperation_names_hello :
    (handleMapOperation plainHost helloMap (mapAssignment 4 "in.txt" 7 3)).map
        (fun result => result.2.TaskCompletionFileNames)
      = some ["mr-7-0", "mr-7-1", "mr-7-2"] ∧
    (["mr-7-0", "mr-7-1", "mr-7-2"].map partitionField)
      = [some "0", some "1", some "2"] := by
  refine ⟨by decide, by decide⟩

/-- Every run in which all completion reports come from live leases is a run
of the kind `MapLiveReachable` allows. -/
theorem MapLiveReachable_of_LiveReachable (files : List String) (nReduce : Int) (s : State)
    (h : LiveReachable files nReduce s) : MapLiveReachable files nReduce s := by
  induction h with
  | init => exact MapLiveReachable.init
  | idle s request reply0 s' r _ hreq hwid hstep ih =>
    exact MapLiveReachable.idle s request reply0 s' r ih hreq hwid hstep
  | completed s request reply0 lease _ hl he ih =>
    by_cases hkind : lease.OperationType = Map
    · exact MapLiveReachable.mapReport s request reply0 lease ih hl hkind he
    · refine MapLiveReachable.otherReport s request reply0 ih he.1 ?_
      rw [he.2.2.1]
      exact hkind
  | done s _ ih => exact MapLiveReachable.done s ih

end MR
